import Mathlib

/-!
# Two-particle response functions (tprf): bubble, transforms and Bethe-Salpeter solver

Shallow embedding of `c++/lattice/chi_imfreq.cpp` over an arbitrary field `F`
(the exact-arithmetic idealisation of `std::complex<double>`).

* A Green's function container is its data, a function of its mesh points; the
  meshes are passed next to it as the lists of points the loops run over.
* Fermionic frequencies of a two-frequency object are addressed by the linear
  index `Fin nf` of the mesh; a bosonic or fermionic frequency that enters
  frequency arithmetic (`n + w`) is its integer Matsubara index.
* Momentum and real-space points live in an additive group `K` (the periodic
  cluster mesh), so that `k - q` and `-r` are again mesh points.
* A loop that writes into a container is a left fold of point updates; a call
  whose outcome need not be a container of field elements returns `Except`.
-/

set_option synthInstance.maxSize 1024

namespace tprf

/-! ## Containers -/

/-- Orbital four-index tensor, the target of every two-particle container. -/
abbrev tensor4 (F : Type) (nb : Nat) : Type := Fin nb → Fin nb → Fin nb → Fin nb → F

/-- Orbital matrix, the target of a single-particle propagator. -/
abbrev matrix2 (F : Type) (nb : Nat) : Type := Fin nb → Fin nb → F

/-- Two-fermionic-frequency object `g2_nn_t`, data indexed `[n1, n2](a, b, c, d)`. -/
abbrev g2_nn_t (F : Type) (nf nb : Nat) : Type := Fin nf → Fin nf → tensor4 F nb

/-- Outcomes of a computation other than a container of field elements:
`tail_size` is the `TRIQS_RUNTIME_ERROR` of the tail-corrected solvers,
`assertion_failed` a failed `assert`, `out_of_range` a bracket access outside
the data of a container, and `not_invertible` an inversion without inverse,
whose result has no value in the field. -/
inductive tprf_error : Type
  | tail_size
  | not_invertible
  | assertion_failed
  | out_of_range
  deriving DecidableEq, Repr

/-! ## Particle-hole channel linear algebra -/

/-- Combined frequency and orbital-pair index of the particle-hole channel. -/
abbrev ph_index (nf nb : Nat) : Type := Fin nf × Fin nb × Fin nb

/-- Modelled from the spec: the particle-hole index grouping of `../linalg.hpp`
is absent; section 4.3 works "in the combined frequency⊗orbital-pair space",
here rows `(n1, a, b)` and columns `(n2, d, c)`. -/
def to_matrix_PH {F : Type} {nf nb : Nat} (g : g2_nn_t F nf nb) :
    Matrix (ph_index nf nb) (ph_index nf nb) F :=
  fun r c => g r.1 c.1 r.2.1 r.2.2 c.2.2 c.2.1

/-- Modelled from the spec: inverse of the grouping `to_matrix_PH`, absent with
`../linalg.hpp`. -/
def from_matrix_PH {F : Type} {nf nb : Nat}
    (M : Matrix (ph_index nf nb) (ph_index nf nb) F) : g2_nn_t F nf nb :=
  fun n1 n2 a b c d => M (n1, a, b) (n2, d, c)

/-- Modelled from the spec: `product<Channel_t::PH>` of `../linalg.hpp` is
absent; section 4.3 says "matrix product in the combined frequency⊗orbital-pair
space". -/
def product_PH {F : Type} [Field F] {nf nb : Nat} (A B : g2_nn_t F nf nb) : g2_nn_t F nf nb :=
  from_matrix_PH (to_matrix_PH A * to_matrix_PH B)

/-- Modelled from the spec: `identity<Channel_t::PH>` of `../linalg.hpp` is
absent; section 4.3 says "I is the identity there". -/
def identity_PH {F : Type} [Field F] (nf nb : Nat) : g2_nn_t F nf nb :=
  from_matrix_PH 1

/-- Modelled from the spec: `inverse<Channel_t::PH>` of `../linalg.hpp` is
absent; section 4.3 says "Invert K (dense solve, dimension nwf·nb²)" and section
7 that for a kernel without inverse the "inversion yields non-finite values".
The field has no such values: that outcome is `not_invertible`. It is an outcome
of the arithmetic, which every later operation hands on, and not a failure
raised to the caller. -/
def inverse_PH {F : Type} [Field F] [DecidableEq F] {nf nb : Nat} (A : g2_nn_t F nf nb) :
    Except tprf_error (g2_nn_t F nf nb) :=
  if (to_matrix_PH A).det = 0 then Except.error tprf_error.not_invertible
  else Except.ok (from_matrix_PH ((to_matrix_PH A).det⁻¹ • (to_matrix_PH A).adjugate))

/-! ## Matsubara meshes -/

/-- Particle statistics of a Matsubara mesh. -/
inductive statistic_enum : Type
  | Boson
  | Fermion
  deriving DecidableEq, Repr

/-- The mesh `gf_mesh<imfreq>{beta, S, n_pts}` with all frequencies: the type is
declared by the container library, only its constructor arguments appear in the
sources. -/
structure gf_mesh_imfreq (F : Type) where
  beta : F
  S : statistic_enum
  n_pts : ℤ

/-- Largest Matsubara index of the mesh, `n_pts - 1`. -/
def gf_mesh_imfreq.last_index {F : Type} (m : gf_mesh_imfreq F) : ℤ :=
  m.n_pts - 1

/-- Smallest Matsubara index: `-n_pts` for fermions, `-(n_pts - 1)` for bosons. -/
def gf_mesh_imfreq.first_index {F : Type} (m : gf_mesh_imfreq F) : ℤ :=
  -(m.last_index + (if m.S = statistic_enum.Fermion then 1 else 0))

/-- Number of points `mesh.size()`. -/
def gf_mesh_imfreq.size {F : Type} (m : gf_mesh_imfreq F) : ℤ :=
  m.last_index - m.first_index + 1

/-- Points of the mesh in iteration order, as Matsubara indices. -/
def gf_mesh_imfreq.points {F : Type} (m : gf_mesh_imfreq F) : List ℤ :=
  (List.range m.size.toNat).map (fun (i : ℕ) => m.first_index + (i : ℤ))

/-- Value of the Matsubara frequency with index `n`, `iπ(2n + ζ)/β` with `ζ = 1`
for fermions and `0` for bosons; the constant `iπ` of the complex numbers is the
parameter `i_pi`. -/
def matsubara_value {F : Type} [Field F] (i_pi : F) (beta : F) (S : statistic_enum) (n : ℤ) : F :=
  i_pi * (2 * (n : F) + (if S = statistic_enum.Fermion then 1 else 0)) / beta

/-- Matsubara index of the point with linear index `i` in the fermionic mesh of
`nwf` frequencies. -/
def fermionic_index (nwf : ℕ) (i : Fin (2 * nwf)) : ℤ :=
  (i.1 : ℤ) - (nwf : ℤ)

/-! ## Distribution over execution units -/

/-- Modelled from the spec: `mpi_all_reduce` of `../mpi.hpp` is absent; section
4.5 says "a single sum-merge across units reconstructs the global result". The
list holds the partial result of every unit. -/
def mpi_all_reduce {V : Type} [AddMonoid V] (parts : List V) : V :=
  parts.sum

/-- Modelled from the spec: `mpi_view` of `../mpi.hpp` is absent; section 4.5
says it "partitions the independent grid-point set ... across execution units".
The slices of the units, in rank order, make up the mesh. -/
def mpi_view_of {X : Type} (mesh : List X) (slices : List (List X)) : Prop :=
  slices.flatten = mesh

instance mpi_view_of_decidable {X : Type} [DecidableEq X] (mesh : List X)
    (slices : List (List X)) : Decidable (mpi_view_of mesh slices) :=
  inferInstanceAs (Decidable (slices.flatten = mesh))

/-! ## Bare bubble -/

/-- The assignment `chi0_wn[w, n] = v` of one frequency pair. -/
def set_wn {W N V : Type} [DecidableEq W] [DecidableEq N] (chi0_wn : W → N → V) (w : W) (n : N)
    (v : V) : W → N → V :=
  Function.update chi0_wn w (Function.update (chi0_wn w) n v)

/-- The slice assignment `chi0_wnr[_, _, r] = chi0_wn`. -/
def set_slice_r {W N K V : Type} [DecidableEq K] (chi0_wnr : W → N → K → V) (r : K)
    (chi0_wn : W → N → V) : W → N → K → V :=
  fun w n r1 => if r1 = r then chi0_wn w n else chi0_wnr w n r1

/-- The slice assignment `chi0_wnk[w, _, q] = chi0_n`. -/
def set_slice_wq {W N K V : Type} [DecidableEq W] [DecidableEq K] (chi0_wnk : W → N → K → V)
    (w : W) (q : K) (chi0_n : N → V) : W → N → K → V :=
  fun w1 n q1 => if w1 = w ∧ q1 = q then chi0_n n else chi0_wnk w1 n q1

/-- Work of one site `r` in `chi0r_from_gr_PH`: the block `chi0_wn` filled by the
loops over `wmesh` and `nmesh`. -/
def chi0r_from_gr_PH_site {F K : Type} [Field F] [AddCommGroup K] {nb : Nat} (beta : F)
    (wmesh nmesh : List ℤ) (g_nr : ℤ → K → matrix2 F nb) (r : K) : ℤ → ℤ → tensor4 F nb :=
  let g_pr_n : ℤ → matrix2 F nb := fun n => g_nr n r
  let g_mr_n : ℤ → matrix2 F nb := fun n => g_nr n (-r)
  wmesh.foldl (fun chi0_wn w =>
    nmesh.foldl (fun chi0_wn n =>
      set_wn chi0_wn w n (fun a b c d => -beta * g_pr_n n d a * g_mr_n (n + w) b c))
      chi0_wn) 0

/-- `chi0r_from_gr_PH(nw, nnu, g_nr)`. `fmesh_large` is the frequency mesh of
`g_nr`, `slices` are the parts of its site mesh handed to the execution units by
`mpi_view`; each unit fills its sites of a zero container, the containers are
summed by `mpi_all_reduce`. -/
def chi0r_from_gr_PH {F K : Type} [Field F] [AddCommGroup K] [DecidableEq K] {nb : Nat}
    (slices : List (List K)) (nw nnu : ℤ) (fmesh_large : gf_mesh_imfreq F)
    (g_nr : ℤ → K → matrix2 F nb) : ℤ → ℤ → K → tensor4 F nb :=
  let beta := fmesh_large.beta
  let wmesh : gf_mesh_imfreq F := ⟨beta, statistic_enum.Boson, nw⟩
  let nmesh : gf_mesh_imfreq F := ⟨beta, statistic_enum.Fermion, nnu⟩
  mpi_all_reduce (slices.map (fun arr =>
    arr.foldl (fun chi0_wnr r =>
      set_slice_r chi0_wnr r (chi0r_from_gr_PH_site beta wmesh.points nmesh.points g_nr r)) 0))

/-- `chi0_n_from_g_wk_PH(w, q, fmesh, g_wk)`; `kmesh` is the momentum mesh of
`g_wk`. The accumulator is decremented per `(n, k)` and scaled at the end. -/
def chi0_n_from_g_wk_PH {F K : Type} [Field F] [AddCommGroup K] {nb : Nat} (w : ℤ) (q : K)
    (fmesh : gf_mesh_imfreq F) (kmesh : List K) (g_wk : ℤ → K → matrix2 F nb) :
    ℤ → tensor4 F nb :=
  let beta := fmesh.beta
  let chi0_n : ℤ → tensor4 F nb :=
    fmesh.points.foldl (fun chi0_n n =>
      kmesh.foldl (fun chi0_n k =>
        let g_da := g_wk n k
        let g_bc := g_wk (n + w) (k - q)
        Function.update chi0_n n (fun a b c d => chi0_n n a b c d - g_da d a * g_bc b c))
        chi0_n) 0
  fun n a b c d => chi0_n n a b c d * (beta / (kmesh.length : F))

/-- Dense inversion of an orbital matrix; the outcome is `not_invertible` when
there is no inverse. -/
def inverse_matrix {F : Type} [Field F] [DecidableEq F] {nb : Nat}
    (M : Matrix (Fin nb) (Fin nb) F) : Except tprf_error (Matrix (Fin nb) (Fin nb) F) :=
  if M.det = 0 then Except.error tprf_error.not_invertible
  else Except.ok (M.det⁻¹ • M.adjugate)

/-- `chi0_n_from_e_k_sigma_w_PH(w, q, fmesh, mu, e_k, sigma_w)`; `kmesh` is the
mesh of `e_k`. A mesh point `n` used as a number is its Matsubara frequency. -/
def chi0_n_from_e_k_sigma_w_PH {F K : Type} [Field F] [DecidableEq F] [AddCommGroup K]
    {nb : Nat} (i_pi : F) (w : ℤ) (q : K) (fmesh : gf_mesh_imfreq F) (mu : F) (kmesh : List K)
    (e_k : K → Matrix (Fin nb) (Fin nb) F) (sigma_w : ℤ → Matrix (Fin nb) (Fin nb) F) :
    Except tprf_error (ℤ → tensor4 F nb) := do
  let beta := fmesh.beta
  let I : Matrix (Fin nb) (Fin nb) F := 1
  let chi0_n ← kmesh.foldlM (fun (chi0_n : ℤ → tensor4 F nb) k =>
    fmesh.points.foldlM (fun (chi0_n : ℤ → tensor4 F nb) n => do
      let nu := matsubara_value i_pi beta fmesh.S n
      let g_da ← inverse_matrix ((nu + mu) • I - e_k k - sigma_w n)
      let g_bc ← inverse_matrix ((nu + mu) • I - e_k (k - q) - sigma_w (n + w))
      pure (Function.update chi0_n n (fun a b c d => chi0_n n a b c d - g_da d a * g_bc b c)))
      chi0_n) 0
  pure (fun n a b c d => chi0_n n a b c d * (beta / (kmesh.length : F)))

/-- The assertion `fmesh.size() < fmesh_large.size()` of `chi0q_from_g_wk_PH`. -/
def chi0q_from_g_wk_PH_asserted {F : Type} (nnu : ℤ) (fmesh_large : gf_mesh_imfreq F) : Prop :=
  (gf_mesh_imfreq.mk fmesh_large.beta statistic_enum.Fermion nnu).size < fmesh_large.size

/-- The bracket access `g_wk[n, k]` on a propagator tabulated at the frequencies
of `fmesh_large`: an access at another frequency is outside its data. -/
def g_wk_bracket {F K : Type} {nb : Nat} (fmesh_large : gf_mesh_imfreq F)
    (g_wk : ℤ → K → matrix2 F nb) (n : ℤ) (k : K) : Except tprf_error (matrix2 F nb) :=
  if n ∈ fmesh_large.points then Except.ok (g_wk n k)
  else Except.error tprf_error.out_of_range

/-- `chi0_n_from_g_wk_PH(w, q, fmesh, g_wk)` with the two reads `g_wk[n, k]` and
`g_wk[n + w, k - q]` made on the table of the propagator, whose frequency mesh
is `fmesh_large`. -/
def chi0_n_from_g_wk_PH_on_table {F K : Type} [Field F] [AddCommGroup K] {nb : Nat} (w : ℤ)
    (q : K) (fmesh fmesh_large : gf_mesh_imfreq F) (kmesh : List K)
    (g_wk : ℤ → K → matrix2 F nb) : Except tprf_error (ℤ → tensor4 F nb) := do
  let beta := fmesh.beta
  let chi0_n ← fmesh.points.foldlM (fun (chi0_n : ℤ → tensor4 F nb) n =>
    kmesh.foldlM (fun (chi0_n : ℤ → tensor4 F nb) k => do
      let g_da ← g_wk_bracket fmesh_large g_wk n k
      let g_bc ← g_wk_bracket fmesh_large g_wk (n + w) (k - q)
      pure (Function.update chi0_n n (fun a b c d => chi0_n n a b c d - g_da d a * g_bc b c)))
      chi0_n) 0
  pure (fun n a b c d => chi0_n n a b c d * (beta / (kmesh.length : F)))

/-- `chi0q_from_g_wk_PH(nw, nnu, g_wk)`; `fmesh_large` and `kmesh` are the meshes
of `g_wk`. The function stops at its assertion when the mesh of `nnu`
frequencies is not smaller than `fmesh_large`, and reads the propagator from its
table. -/
def chi0q_from_g_wk_PH {F K : Type} [Field F] [AddCommGroup K] [DecidableEq K] {nb : Nat}
    (nw nnu : ℤ) (fmesh_large : gf_mesh_imfreq F) (kmesh : List K)
    (g_wk : ℤ → K → matrix2 F nb) : Except tprf_error (ℤ → ℤ → K → tensor4 F nb) :=
  let beta := fmesh_large.beta
  let bmesh : gf_mesh_imfreq F := ⟨beta, statistic_enum.Boson, nw⟩
  let fmesh : gf_mesh_imfreq F := ⟨beta, statistic_enum.Fermion, nnu⟩
  if fmesh.size < fmesh_large.size then
    bmesh.points.foldlM (fun (chi0_wnk : ℤ → ℤ → K → tensor4 F nb) w =>
      kmesh.foldlM (fun (chi0_wnk : ℤ → ℤ → K → tensor4 F nb) q => do
        let chi0_n ← chi0_n_from_g_wk_PH_on_table w q fmesh fmesh_large kmesh g_wk
        pure (set_slice_wq chi0_wnk w q chi0_n)) chi0_wnk) 0
  else Except.error tprf_error.assertion_failed

/-! ## Lattice Fourier transform and change of representation -/

/-- Phase table `phase k r = exp(i k·r)` of the lattice Fourier transform between
a momentum mesh and its adjoint site mesh, both indexed by the periodic index
group `K`. The transform is a primitive of the container library; the table
records the character relations it rests on. -/
structure lattice_phase (F K : Type) [Field F] [Fintype K] [AddCommGroup K]
    [DecidableEq K] where
  phase : K → K → F
  phase_add_k : ∀ k k1 r, phase (k + k1) r = phase k r * phase k1 r
  phase_neg_r : ∀ k r, phase k (-r) = phase (-k) r
  sum_r : ∀ k, (∑ r, phase k r) = if k = 0 then (Fintype.card K : F) else 0
  card_ne_zero : (Fintype.card K : F) ≠ 0

/-- The library call `fourier` on a function of momentum: the site-space function
`g(r) = (1/N_k) Σ_k exp(-i k·r) g(k)`. -/
def fourier_k_to_r {F K V : Type} [Field F] [Fintype K] [AddCommGroup K] [DecidableEq K]
    [AddCommGroup V] [Module F V] (ph : lattice_phase F K) (g : K → V) : K → V :=
  fun r => ((Fintype.card K : F))⁻¹ • ∑ k, ph.phase (-k) r • g k

/-- The library call `fourier` on a function of the site: the momentum-space
function `g(k) = Σ_r exp(i k·r) g(r)`. -/
def fourier_r_to_k {F K V : Type} [Field F] [Fintype K] [AddCommGroup K] [DecidableEq K]
    [AddCommGroup V] [Module F V] (ph : lattice_phase F K) (g : K → V) : K → V :=
  fun k => ∑ r, ph.phase k r • g r

/-- The library call `make_adjoint_mesh`: the dual mesh has the same periodic
index set. -/
def make_adjoint_mesh {K : Type} (mesh : List K) : List K :=
  mesh

/-- `chi0r_from_chi0q(chi0_wnk)`; `slices` are the parts of the mesh
`bmesh × fmesh` handed to the execution units by `mpi_view`. -/
def chi0r_from_chi0q {F W N K : Type} [Field F] [Fintype K] [AddCommGroup K] [DecidableEq K]
    [DecidableEq W] [DecidableEq N] {nb : Nat} (ph : lattice_phase F K)
    (slices : List (List (W × N))) (chi0_wnk : W → N → K → tensor4 F nb) :
    W → N → K → tensor4 F nb :=
  mpi_all_reduce (slices.map (fun arr =>
    arr.foldl (fun chi0_wnr wn =>
      set_wn chi0_wnr wn.1 wn.2 (fourier_k_to_r ph (chi0_wnk wn.1 wn.2))) 0))

/-- `chi0q_from_chi0r(chi0_wnr)`; `slices` are the parts of the mesh
`bmesh × fmesh` handed to the execution units by `mpi_view`. -/
def chi0q_from_chi0r {F W N K : Type} [Field F] [Fintype K] [AddCommGroup K] [DecidableEq K]
    [DecidableEq W] [DecidableEq N] {nb : Nat} (ph : lattice_phase F K)
    (slices : List (List (W × N))) (chi0_wnr : W → N → K → tensor4 F nb) :
    W → N → K → tensor4 F nb :=
  mpi_all_reduce (slices.map (fun arr =>
    arr.foldl (fun chi0_wnk wn =>
      set_wn chi0_wnk wn.1 wn.2 (fourier_r_to_k ph (chi0_wnr wn.1 wn.2))) 0))

/-- Real-space propagator of a momentum-space propagator: `fourier` applied at
every frequency. -/
def gr_from_gk {F K : Type} [Field F] [Fintype K] [AddCommGroup K] [DecidableEq K] {nb : Nat}
    (ph : lattice_phase F K) (g_wk : ℤ → K → matrix2 F nb) : ℤ → K → matrix2 F nb :=
  fun n => fourier_k_to_r ph (g_wk n)

/-! ## Frequency and momentum sums of the bubble -/

/-- `chi0q_sum_nu(chi0q)`; `mesh` is the fermionic mesh of `chi0q` and `beta` its
inverse temperature. -/
def chi0q_sum_nu {F W N K : Type} [Field F] {nb : Nat} (beta : F) (mesh : List N)
    (chi0q : W → N → K → tensor4 F nb) : W → K → tensor4 F nb :=
  fun iw k a b c d => (mesh.map (fun inu => chi0q iw inu k a b c d)).sum / (beta * beta)

/-- `chi0q_sum_nu_q(chi0q)`; `mesh_b`, `mesh_f`, `mesh_k` are the meshes of
`chi0q`, run through in this order, and `beta` is the inverse temperature. -/
def chi0q_sum_nu_q {F W N K : Type} [Field F] [DecidableEq W] {nb : Nat} (beta : F)
    (mesh_b : List W) (mesh_f : List N) (mesh_k : List K) (chi0q : W → N → K → tensor4 F nb) :
    W → tensor4 F nb :=
  let chi0_w : W → tensor4 F nb :=
    mesh_b.foldl (fun chi0_w w =>
      mesh_f.foldl (fun chi0_w n =>
        mesh_k.foldl (fun chi0_w k => Function.update chi0_w w (chi0_w w + chi0q w n k))
          chi0_w) chi0_w) 0
  let nk : F := (mesh_k.length : F)
  fun w a b c d => chi0_w w a b c d / nk / (beta * beta)

/-! ## Bethe-Salpeter equation -/

/-- The assignment `chi0[n, n] = v` on a two-frequency object. -/
def set_diag {F : Type} {nf nb : Nat} (chi0 : g2_nn_t F nf nb) (n : Fin nf) (v : tensor4 F nb) :
    g2_nn_t F nf nb :=
  Function.update chi0 n (Function.update (chi0 n) n v)

/-- The assignment `chiq[k, w, _, _] = chi`. -/
def set_kw {K W V : Type} [DecidableEq K] [DecidableEq W] (chiq : K → W → V) (k : K) (w : W)
    (chi : V) : K → W → V :=
  Function.update chiq k (Function.update (chiq k) w chi)

/-- Body of the `w` loop of `chiq_from_chi0q_and_gamma_PH`: the state is the
output `chiq` and the buffer `chi0`, which is allocated once per `k`. -/
def chiq_from_chi0q_and_gamma_PH_step {F W K : Type} [Field F] [DecidableEq F] [DecidableEq W]
    [DecidableEq K] {nf nb : Nat} (chi0q : W → Fin nf → K → tensor4 F nb)
    (gamma_ph : W → g2_nn_t F nf nb) (k : K)
    (st : (K → W → g2_nn_t F nf nb) × g2_nn_t F nf nb) (w : W) :
    Except tprf_error ((K → W → g2_nn_t F nf nb) × g2_nn_t F nf nb) := do
  let chi0 := (0 : F) • st.2
  let chi0 := (List.finRange nf).foldl (fun c n => set_diag c n (chi0q w n k)) chi0
  let denom := identity_PH nf nb - product_PH chi0 (gamma_ph w)
  let inv ← inverse_PH denom
  let chi := product_PH inv chi0
  pure (set_kw st.1 k w chi, chi0)

/-- `chiq_from_chi0q_and_gamma_PH(chi0q, gamma_ph)`; `mb` and `mbz` are the
bosonic and momentum meshes of `chi0q`, the fermionic mesh is `Fin nf`. The
outcome is `not_invertible` when the block of some unit has no finite values;
`chiq_from_chi0q_and_gamma_PH_stored` gives the returned container block by
block. -/
def chiq_from_chi0q_and_gamma_PH {F W K : Type} [Field F] [DecidableEq F] [DecidableEq W]
    [DecidableEq K] {nf nb : Nat} (mb : List W) (mbz : List K)
    (chi0q : W → Fin nf → K → tensor4 F nb) (gamma_ph : W → g2_nn_t F nf nb) :
    Except tprf_error (K → W → g2_nn_t F nf nb) :=
  mbz.foldlM (fun chiq k => do
    let st ← mb.foldlM (chiq_from_chi0q_and_gamma_PH_step chi0q gamma_ph k) (chiq, 0)
    pure st.1) 0

/-- Buffers of the tail-corrected solvers, declared before the `(k, w)` loop and
reused by every unit. -/
structure bse_buffers (F : Type) (nwf nb : Nat) where
  chi0_n : Fin (2 * nwf) → tensor4 F nb
  chi0_nn : g2_nn_t F (2 * nwf) nb
  tr_chi : tensor4 F nb
  tr_chi0 : tensor4 F nb
  tr_chi0_tail_corr : tensor4 F nb

/-- One `(k, w)` unit of the tail-corrected solvers after the tail bubble
`chi0_n_tail` has been built (the text is the same in
`chiq_sum_nu_from_g_wk_and_gamma_PH` and
`chiq_sum_nu_from_e_k_sigma_w_and_gamma_PH`). `density` is the library's
density of a scalar function on a mesh, `gamma_w` is `gamma_ph_wnn[w, _, _]`;
the value written to `chi_kw[k, w]` is the field `tr_chi` of the result. -/
def bse_tail_corr_unit {F : Type} [Field F] [DecidableEq F] {nwf nb : Nat}
    (density : gf_mesh_imfreq F → (ℤ → F) → F) (beta : F) (fmesh_tail : gf_mesh_imfreq F)
    (gamma_w : g2_nn_t F (2 * nwf) nb) (chi0_n_tail : ℤ → tensor4 F nb)
    (buf : bse_buffers F nwf nb) : Except tprf_error (bse_buffers F nwf nb) := do
  let chi0_n := (List.finRange (2 * nwf)).foldl
    (fun chi0_n n => Function.update chi0_n n (chi0_n_tail (fermionic_index nwf n))) buf.chi0_n
  let tr_chi0_tail_corr : tensor4 F nb :=
    fun a b c d => density fmesh_tail (fun n => chi0_n_tail n a b c d) / beta
  let tr_chi0 : tensor4 F nb :=
    fun a b c d => ((List.finRange (2 * nwf)).map (fun inu => chi0_n inu a b c d)).sum /
      (beta * beta)
  let chi0_nn := (List.finRange (2 * nwf)).foldl
    (fun chi0_nn n => set_diag chi0_nn n (chi0_n n)) buf.chi0_nn
  let denom := identity_PH (2 * nwf) nb - product_PH chi0_nn gamma_w
  let inv ← inverse_PH denom
  let chi_nn := product_PH inv chi0_nn
  let tr_chi := (0 : F) • buf.tr_chi
  let tr_chi := (List.finRange (2 * nwf)).foldl (fun tr_chi n1 =>
    (List.finRange (2 * nwf)).foldl (fun tr_chi n2 => tr_chi + chi_nn n1 n2) tr_chi) tr_chi
  let tr_chi : tensor4 F nb := fun a b c d => tr_chi a b c d / (beta * beta)
  let tr_chi := tr_chi + (tr_chi0_tail_corr - tr_chi0)
  pure ⟨chi0_n, chi0_nn, tr_chi, tr_chi0, tr_chi0_tail_corr⟩

/-- Tail mesh chosen by the tail-corrected solvers: `tail_corr_nwf` fermionic
frequencies when positive, else the mesh of the vertex. -/
def tail_mesh {F : Type} (beta : F) (fmesh : gf_mesh_imfreq F) (tail_corr_nwf : ℤ) :
    gf_mesh_imfreq F :=
  if tail_corr_nwf > 0 then ⟨beta, statistic_enum.Fermion, tail_corr_nwf⟩ else fmesh

/-- `chiq_sum_nu_from_g_wk_and_gamma_PH(g_wk, gamma_ph_wnn, tail_corr_nwf)`.
`kmesh` is the momentum mesh of `g_wk`; the vertex lives on the fermionic mesh of
`nwf` frequencies at inverse temperature `beta`; `slices` are the parts of
`kmesh × bmesh` handed to the execution units by `mpi_view`; `mem` holds the
contents of the three arrays `tr_chi`, `tr_chi0`, `tr_chi0_tail_corr` at their
declaration. -/
def chiq_sum_nu_from_g_wk_and_gamma_PH {F K : Type} [Field F] [DecidableEq F] [AddCommGroup K]
    [DecidableEq K] {nb : Nat} (density : gf_mesh_imfreq F → (ℤ → F) → F)
    (slices : List (List (K × ℤ))) (mem : Fin 3 → tensor4 F nb) (kmesh : List K)
    (g_wk : ℤ → K → matrix2 F nb) (beta : F) (nwf : ℕ)
    (gamma_ph_wnn : ℤ → g2_nn_t F (2 * nwf) nb) (tail_corr_nwf : ℤ) :
    Except tprf_error (K → ℤ → tensor4 F nb) := do
  let fmesh : gf_mesh_imfreq F := ⟨beta, statistic_enum.Fermion, nwf⟩
  let fmesh_tail := tail_mesh beta fmesh tail_corr_nwf
  if fmesh_tail.size < fmesh.size then throw tprf_error.tail_size
  let parts ← slices.mapM (fun arr => do
    let st ← arr.foldlM (fun (st : (K → ℤ → tensor4 F nb) × bse_buffers F nwf nb) kw => do
      let chi0_n_tail := chi0_n_from_g_wk_PH kw.2 kw.1 fmesh_tail kmesh g_wk
      let buf ← bse_tail_corr_unit density beta fmesh_tail (gamma_ph_wnn kw.2) chi0_n_tail st.2
      pure (set_kw st.1 kw.1 kw.2 buf.tr_chi, buf)) (0, ⟨0, 0, mem 0, mem 1, mem 2⟩)
    pure st.1)
  pure (mpi_all_reduce parts)

/-- `chiq_sum_nu_from_e_k_sigma_w_and_gamma_PH(mu, e_k, sigma_w, gamma_ph_wnn,
tail_corr_nwf)`; parameters as for `chiq_sum_nu_from_g_wk_and_gamma_PH`, with
`kmesh` the mesh of `e_k`. -/
def chiq_sum_nu_from_e_k_sigma_w_and_gamma_PH {F K : Type} [Field F] [DecidableEq F]
    [AddCommGroup K] [DecidableEq K] {nb : Nat} (density : gf_mesh_imfreq F → (ℤ → F) → F)
    (i_pi : F) (slices : List (List (K × ℤ))) (mem : Fin 3 → tensor4 F nb) (mu : F)
    (kmesh : List K) (e_k : K → Matrix (Fin nb) (Fin nb) F)
    (sigma_w : ℤ → Matrix (Fin nb) (Fin nb) F) (beta : F) (nwf : ℕ)
    (gamma_ph_wnn : ℤ → g2_nn_t F (2 * nwf) nb) (tail_corr_nwf : ℤ) :
    Except tprf_error (K → ℤ → tensor4 F nb) := do
  let fmesh : gf_mesh_imfreq F := ⟨beta, statistic_enum.Fermion, nwf⟩
  let fmesh_tail := tail_mesh beta fmesh tail_corr_nwf
  if fmesh_tail.size < fmesh.size then throw tprf_error.tail_size
  let parts ← slices.mapM (fun arr => do
    let st ← arr.foldlM (fun (st : (K → ℤ → tensor4 F nb) × bse_buffers F nwf nb) kw => do
      let chi0_n_tail ←
        chi0_n_from_e_k_sigma_w_PH i_pi kw.2 kw.1 fmesh_tail mu kmesh e_k sigma_w
      let buf ← bse_tail_corr_unit density beta fmesh_tail (gamma_ph_wnn kw.2) chi0_n_tail st.2
      pure (set_kw st.1 kw.1 kw.2 buf.tr_chi, buf)) (0, ⟨0, 0, mem 0, mem 1, mem 2⟩)
    pure st.1)
  pure (mpi_all_reduce parts)

/-- Bubble on the vertex's fermionic mesh as the tail-corrected solver reads it:
the tail bubble at `(w, k)` evaluated at the Matsubara frequency of the mesh
point with linear index `n`. -/
def chi0_on_main_mesh {F K : Type} [Field F] [AddCommGroup K] {nb : Nat}
    (fmesh_tail : gf_mesh_imfreq F) (kmesh : List K) (g_wk : ℤ → K → matrix2 F nb) (nwf : ℕ) :
    ℤ → Fin (2 * nwf) → K → tensor4 F nb :=
  fun w n k => chi0_n_from_g_wk_PH w k fmesh_tail kmesh g_wk (fermionic_index nwf n)

/-- Tail-corrected trace in the words of the specification:
`chi_dressed_traced + (chi0_tail_traced - chi0_traced_on_main_mesh)` with
`chi_dressed_traced = (1/beta^2) Σ_{n1,n2} chi_dressed[n1, n2]`,
`chi0_tail_traced = density(chi0 on the tail mesh)/beta` componentwise and
`chi0_traced_on_main_mesh = (1/beta^2) Σ_n chi0(n)` over the vertex's mesh. -/
def tail_corrected_trace {F : Type} [Field F] {nwf nb : Nat}
    (density : gf_mesh_imfreq F → (ℤ → F) → F) (beta : F) (fmesh_tail : gf_mesh_imfreq F)
    (chi_dressed : g2_nn_t F (2 * nwf) nb) (chi0_n_tail : ℤ → tensor4 F nb) : tensor4 F nb :=
  fun a b c d =>
    (1 / (beta * beta)) * (∑ n1, ∑ n2, chi_dressed n1 n2 a b c d) +
      (density fmesh_tail (fun n => chi0_n_tail n a b c d) / beta -
        (1 / (beta * beta)) * ∑ n : Fin (2 * nwf), chi0_n_tail (fermionic_index nwf n) a b c d)

/-- A two-frequency buffer whose off-diagonal blocks are all zero. -/
def block_diagonal {F : Type} [Field F] {nf nb : Nat} (chi0_nn : g2_nn_t F nf nb) : Prop :=
  ∀ n1 n2 : Fin nf, n1 ≠ n2 → chi0_nn n1 n2 = 0

/-! ## Reference objects of the Bethe-Salpeter equation, in the words of the specification -/

/-- Block-diagonal bubble: diagonal block `(n, n)` is `chi0q[w, n, k]`, every
off-diagonal block is zero. -/
def chi0_blk {F W K : Type} [Field F] {nf nb : Nat} (chi0q : W → Fin nf → K → tensor4 F nb)
    (w : W) (k : K) : g2_nn_t F nf nb :=
  fun n1 n2 => if n1 = n2 then chi0q w n1 k else 0

/-- Kernel `K = I - chi0_blk * gamma(w)` as a matrix of the combined space. -/
def bse_kernel {F W K : Type} [Field F] {nf nb : Nat} (chi0q : W → Fin nf → K → tensor4 F nb)
    (gamma_ph : W → g2_nn_t F nf nb) (w : W) (k : K) :
    Matrix (ph_index nf nb) (ph_index nf nb) F :=
  1 - to_matrix_PH (chi0_blk chi0q w k) * to_matrix_PH (gamma_ph w)

/-- Bubble of the worked example: one orbital, two fermionic frequencies. -/
def chi0q_example : ℤ → Fin 2 → Fin 2 → tensor4 ℚ 1 :=
  fun _ n _ _ _ _ _ => (n : ℕ) + 2

/-- Vertex of the worked example: the identity of the combined space. -/
def gamma_ph_example : ℤ → g2_nn_t ℚ 2 1 :=
  fun _ n1 n2 _ _ _ _ => if n1 = n2 then 1 else 0

/-- Propagator of the worked examples: one orbital, momenta in `Fin 2`. -/
def g_wk_example : ℤ → Fin 2 → matrix2 ℚ 1 :=
  fun n k _ _ => (n : ℚ) + 2 + ((k : ℕ) : ℚ)

/-- Phase table of the two-point lattice, `exp(i k·r) = (-1)^(k r)`. -/
def phase_example : lattice_phase ℚ (Fin 2) where
  phase := fun k r => if k = 1 ∧ r = 1 then -1 else 1
  phase_add_k := by
    intro k k1 r
    fin_cases k <;> fin_cases k1 <;> fin_cases r <;> simp
  phase_neg_r := by
    intro k r
    fin_cases k <;> fin_cases r <;> simp
  sum_r := by
    intro k
    fin_cases k <;> simp [Fin.sum_univ_two]
  card_ne_zero := by simp

/-- Propagator tabulated from a dispersion and a self-energy, in the words of
the specification: `g(ν, k) = [(iν + μ) I − e(k) − Σ(ν)]⁻¹` on the fermionic
frequencies. -/
def g_wk_from_e_k_sigma_w {F K : Type} [Field F] {nb : Nat} (i_pi beta mu : F)
    (e_k : K → Matrix (Fin nb) (Fin nb) F) (sigma_w : ℤ → Matrix (Fin nb) (Fin nb) F) :
    ℤ → K → matrix2 F nb :=
  fun n k =>
    let M : Matrix (Fin nb) (Fin nb) F :=
      (matsubara_value i_pi beta statistic_enum.Fermion n + mu) • 1 - e_k k - sigma_w n
    M.det⁻¹ • M.adjugate

/-- Vertex of the worked example of the tail-corrected solver: it couples the
first fermionic frequency to the second one only. -/
def gamma_ph_tail_example : ℤ → g2_nn_t ℚ (2 * 1) 1 :=
  fun _ n1 n2 _ _ _ _ => if n1.1 = 0 ∧ n2.1 = 1 then 5 else 0

/-! ## Traced Bethe-Salpeter solver and traces -/

/-- Body of the `w` loop of `chiq_sum_nu_from_chi0q_and_gamma_PH`: the state is
the output `chi_kw`, the buffer `chi0` and the array `tr_chi`, both allocated
once per `k`. -/
def chiq_sum_nu_from_chi0q_and_gamma_PH_step {F W K : Type} [Field F] [DecidableEq F]
    [DecidableEq W] [DecidableEq K] {nf nb : Nat} (beta : F)
    (chi0q : W → Fin nf → K → tensor4 F nb) (gamma_ph : W → g2_nn_t F nf nb) (k : K)
    (st : (K → W → tensor4 F nb) × g2_nn_t F nf nb × tensor4 F nb) (w : W) :
    Except tprf_error ((K → W → tensor4 F nb) × g2_nn_t F nf nb × tensor4 F nb) := do
  let chi0 := (0 : F) • st.2.1
  let chi0 := (List.finRange nf).foldl (fun c n => set_diag c n (chi0q w n k)) chi0
  let denom := identity_PH nf nb - product_PH chi0 (gamma_ph w)
  let inv ← inverse_PH denom
  let chi := product_PH inv chi0
  let tr_chi := (0 : F) • st.2.2
  let tr_chi := (List.finRange nf).foldl (fun tr_chi n1 =>
    (List.finRange nf).foldl (fun tr_chi n2 => tr_chi + chi n1 n2) tr_chi) tr_chi
  let tr_chi : tensor4 F nb := fun a b c d => tr_chi a b c d / (beta * beta)
  pure (set_kw st.1 k w tr_chi, chi0, tr_chi)

/-- `chiq_sum_nu_from_chi0q_and_gamma_PH(chi0q, gamma_ph)`; `mb` and `mbz` are
the bosonic and momentum meshes of `chi0q`, `beta` the inverse temperature of
its fermionic mesh `Fin nf`, and `mem k` the contents of the array `tr_chi` at
its declaration in the unit of `k`. -/
def chiq_sum_nu_from_chi0q_and_gamma_PH {F W K : Type} [Field F] [DecidableEq F]
    [DecidableEq W] [DecidableEq K] {nf nb : Nat} (beta : F) (mem : K → tensor4 F nb)
    (mb : List W) (mbz : List K) (chi0q : W → Fin nf → K → tensor4 F nb)
    (gamma_ph : W → g2_nn_t F nf nb) : Except tprf_error (K → W → tensor4 F nb) :=
  mbz.foldlM (fun chi_kw k => do
    let st ← mb.foldlM (chiq_sum_nu_from_chi0q_and_gamma_PH_step beta chi0q gamma_ph k)
      (chi_kw, 0, mem k)
    pure st.1) 0

/-- `chiq_sum_nu(chiq)`; `mesh_k`, `mesh_b` are the momentum and bosonic meshes of
`chiq`, its two fermionic meshes are `Fin nf`, and `beta` is the inverse
temperature. -/
def chiq_sum_nu {F W K : Type} [Field F] [DecidableEq W] [DecidableEq K] {nf nb : Nat}
    (beta : F) (mesh_k : List K) (mesh_b : List W) (chiq : K → W → g2_nn_t F nf nb) :
    K → W → tensor4 F nb :=
  let chiq_w : K → W → tensor4 F nb :=
    mesh_k.foldl (fun chiq_w k =>
      mesh_b.foldl (fun chiq_w w =>
        (List.finRange nf).foldl (fun chiq_w n1 =>
          (List.finRange nf).foldl (fun chiq_w n2 =>
            set_kw chiq_w k w (chiq_w k w + chiq k w n1 n2)) chiq_w) chiq_w) chiq_w) 0
  fun k w a b c d => chiq_w k w a b c d / (beta * beta)

/-- Trace over both fermionic frequencies in the words of the specification:
`Σ_{n1,n2} chi[n1, n2] / beta^2`. -/
def trace_nn {F : Type} [Field F] {nf nb : Nat} (beta : F) (chi : g2_nn_t F nf nb) :
    tensor4 F nb :=
  fun a b c d => 1 / (beta * beta) * ∑ n1, ∑ n2, chi n1 n2 a b c d

/-- Body of the `(k, w)` loop of `chiq_sum_nu_from_g_wk_and_gamma_PH`: the state
is the output `chi_kw` and the buffers declared before the loop. -/
def chiq_sum_nu_from_g_wk_and_gamma_PH_step {F K : Type} [Field F] [DecidableEq F]
    [AddCommGroup K] [DecidableEq K] {nb : Nat} (density : gf_mesh_imfreq F → (ℤ → F) → F)
    (kmesh : List K) (g_wk : ℤ → K → matrix2 F nb) (beta : F) (nwf : ℕ)
    (gamma_ph_wnn : ℤ → g2_nn_t F (2 * nwf) nb) (fmesh_tail : gf_mesh_imfreq F)
    (st : (K → ℤ → tensor4 F nb) × bse_buffers F nwf nb) (kw : K × ℤ) :
    Except tprf_error ((K → ℤ → tensor4 F nb) × bse_buffers F nwf nb) := do
  let chi0_n_tail := chi0_n_from_g_wk_PH kw.2 kw.1 fmesh_tail kmesh g_wk
  let buf ← bse_tail_corr_unit density beta fmesh_tail (gamma_ph_wnn kw.2) chi0_n_tail st.2
  pure (set_kw st.1 kw.1 kw.2 buf.tr_chi, buf)

/-- Constant bubble of the worked examples with a singular kernel. -/
def chi0q_unit_example : ℤ → Fin 2 → Fin 2 → tensor4 ℚ 1 :=
  fun _ _ _ _ _ _ _ => 1

/-- Constant propagator of the worked examples with a singular kernel. -/
def g_wk_unit_example : ℤ → Fin 2 → matrix2 ℚ 1 :=
  fun _ _ _ _ => 1

/-- Frequency-diagonal vertex that makes the kernel of `g_wk_unit_example` at
`beta = 3` vanish. -/
def gamma_ph_singular_example : ℤ → g2_nn_t ℚ (2 * 1) 1 :=
  fun _ n1 n2 _ _ _ _ => if n1 = n2 then -(1 / 3) else 0

/-- Partial output of one execution unit of `chi0r_from_gr_PH`: the unit owning
the sites `arr` fills them in a zero container (the loop body of the function,
before `mpi_all_reduce`). -/
def chi0r_from_gr_PH_unit {F K : Type} [Field F] [AddCommGroup K] [DecidableEq K] {nb : Nat}
    (arr : List K) (nw nnu : ℤ) (fmesh_large : gf_mesh_imfreq F)
    (g_nr : ℤ → K → matrix2 F nb) : ℤ → ℤ → K → tensor4 F nb :=
  let beta := fmesh_large.beta
  let wmesh : gf_mesh_imfreq F := ⟨beta, statistic_enum.Boson, nw⟩
  let nmesh : gf_mesh_imfreq F := ⟨beta, statistic_enum.Fermion, nnu⟩
  arr.foldl (fun chi0_wnr r =>
    set_slice_r chi0_wnr r (chi0r_from_gr_PH_site beta wmesh.points nmesh.points g_nr r)) 0

/-- Frequencies at which `chi0_n_from_g_wk_PH` reads the propagator: `g_wk[n, k]`
and `g_wk[n + w, k - q]` for every `n` of `fmesh`. -/
def chi0_n_from_g_wk_PH_lookups {F : Type} (w : ℤ) (fmesh : gf_mesh_imfreq F) : List ℤ :=
  fmesh.points.flatMap (fun n => [n, n + w])

/-- Frequencies at which `chi0q_from_g_wk_PH(nw, nnu, g_wk)` reads the
propagator, over all `w` of its bosonic mesh. -/
def chi0q_from_g_wk_PH_lookups {F : Type} (nw nnu : ℤ) (fmesh_large : gf_mesh_imfreq F) :
    List ℤ :=
  let beta := fmesh_large.beta
  let bmesh : gf_mesh_imfreq F := ⟨beta, statistic_enum.Boson, nw⟩
  let fmesh : gf_mesh_imfreq F := ⟨beta, statistic_enum.Fermion, nnu⟩
  bmesh.points.flatMap (fun w => chi0_n_from_g_wk_PH_lookups w fmesh)

/-! ## Hubbard atom (`c++/hubbard_atom.cpp`) -/

/-- Functions and constants of the complex numbers the atomic formulas use from
the standard library: `exp`, `sqrt`, `abs`, the imaginary unit and `π`. -/
structure scalar_functions (F : Type) where
  exp : F → F
  sqrt : F → F
  abs : F → F
  I : F
  pi : F

/-- Value of the fermionic Matsubara frequency with index `n` at inverse
temperature `beta`. -/
def fermionic_value {F : Type} [Field F] (sf : scalar_functions F) (beta : F) (n : ℤ) : F :=
  matsubara_value (sf.I * sf.pi) beta statistic_enum.Fermion n

/-- Value of the bosonic Matsubara frequency with index `w` at inverse
temperature `beta`. -/
def bosonic_value {F : Type} [Field F] (sf : scalar_functions F) (beta : F) (w : ℤ) : F :=
  matsubara_value (sf.I * sf.pi) beta statistic_enum.Boson w

/-- Denominator `4 * iw` of `single_particle_greens_function`. -/
def greens_function_inner_denominator {F : Type} [Field F] (iw : F) : F :=
  4 * iw

/-- Denominator `iw - U*U / (4 * iw)` of `single_particle_greens_function`. -/
def greens_function_denominator {F : Type} [Field F] (U iw : F) : F :=
  iw - U * U / greens_function_inner_denominator iw

/-- `single_particle_greens_function(nw, beta, U)` at the fermionic frequency
with index `n`: `g_iw[iw] << 1./(iw - U*U / (4 * iw))`. -/
def single_particle_greens_function {F : Type} [Field F] (sf : scalar_functions F)
    (beta U : F) (n : ℤ) : F :=
  1 / greens_function_denominator U (fermionic_value sf beta n)

/-- Denominator `1 + exp(beta*U*0.5)` in the constant `B` of `chi_ph_magnetic`. -/
def hubbard_B_denominator {F : Type} [Field F] (sf : scalar_functions F) (beta U : F) : F :=
  1 + sf.exp (beta * U * (1 / 2))

/-- Denominator `1 + exp(-beta*U*0.5)` in the zero-frequency value of `C`. -/
def hubbard_C_denominator {F : Type} [Field F] (sf : scalar_functions F) (beta U : F) : F :=
  1 + sf.exp (-beta * U * (1 / 2))

/-- The function `C(w)` of `chi_ph_magnetic`: zero, except at the zeroth bosonic
frequency where it is `-beta*U*0.5 / (1 + exp(-beta*U*0.5))`. -/
def hubbard_C {F : Type} [Field F] (sf : scalar_functions F) (beta U : F) (w : ℤ) : F :=
  if w = 0 then -beta * U * (1 / 2) / hubbard_C_denominator sf beta U else 0

/-- Denominator `1 - C(w)` of `D(w)` and of the square root in `b2`. -/
def hubbard_D_denominator {F : Type} [Field F] (sf : scalar_functions F) (beta U : F)
    (w : ℤ) : F :=
  1 - hubbard_C sf beta U w

/-- The function `D(w) << U*U*0.25 * (1. + C(w))/(1. - C(w))`. -/
def hubbard_D {F : Type} [Field F] (sf : scalar_functions F) (beta U : F) (w : ℤ) : F :=
  U * U * (1 / 4) * (1 + hubbard_C sf beta U w) / hubbard_D_denominator sf beta U w

/-- First factor `-n*n + U*U*0.25` of the common denominator of `a0, b0, b1, b2`;
`n` is the value of the fermionic frequency. -/
def hubbard_pole_factor {F : Type} [Field F] (U n : F) : F :=
  -n * n + U * U * (1 / 4)

/-- Second factor `-(n+w)*(n+w) + U*U*0.25` of the common denominator; `n` and
`w` are the values of the fermionic and bosonic frequencies. -/
def hubbard_shifted_pole_factor {F : Type} [Field F] (U n w : F) : F :=
  -(n + w) * (n + w) + U * U * (1 / 4)

/-- Common denominator of `a0, b0, b1, b2`. -/
def hubbard_denominator {F : Type} [Field F] (U n w : F) : F :=
  hubbard_pole_factor U n * hubbard_shifted_pole_factor U n w

/-- Constant `A = I * U * 0.5`. -/
def hubbard_A {F : Type} [Field F] (sf : scalar_functions F) (U : F) : F :=
  sf.I * U * (1 / 2)

/-- Constant `B = I * U*0.5 * sqrt(abs(3. - exp(beta*U*0.5)) / (1 + exp(beta*U*0.5)))`. -/
def hubbard_B {F : Type} [Field F] (sf : scalar_functions F) (beta U : F) : F :=
  sf.I * U * (1 / 2) *
    sf.sqrt (sf.abs (3 - sf.exp (beta * U * (1 / 2))) / hubbard_B_denominator sf beta U)

/-- The function `a0(w, n)`, with `A0 = 1`. -/
def hubbard_a0 {F : Type} [Field F] (sf : scalar_functions F) (beta U : F) (w n : ℤ) : F :=
  1 * beta * (1 / 2) *
    (-fermionic_value sf beta n * (fermionic_value sf beta n + bosonic_value sf beta w) -
      hubbard_A sf U * hubbard_A sf U) /
    hubbard_denominator U (fermionic_value sf beta n) (bosonic_value sf beta w)

/-- The function `b0(w, n)`, with `B0 = 1`. -/
def hubbard_b0 {F : Type} [Field F] (sf : scalar_functions F) (beta U : F) (w n : ℤ) : F :=
  1 * beta * (1 / 2) *
    (-fermionic_value sf beta n * (fermionic_value sf beta n + bosonic_value sf beta w) -
      hubbard_B sf beta U * hubbard_B sf beta U) /
    hubbard_denominator U (fermionic_value sf beta n) (bosonic_value sf beta w)

/-- The function `b1(w, n)`, with `B1 = 1`. -/
def hubbard_b1 {F : Type} [Field F] (sf : scalar_functions F) (beta U : F) (w n : ℤ) : F :=
  1 * sf.sqrt (U * (1 - hubbard_C sf beta U w)) *
    (-fermionic_value sf beta n * (fermionic_value sf beta n + bosonic_value sf beta w) -
      hubbard_D sf beta U w) /
    hubbard_denominator U (fermionic_value sf beta n) (bosonic_value sf beta w)

/-- The function `b2(w, n)`, with `B2 = I`. -/
def hubbard_b2 {F : Type} [Field F] (sf : scalar_functions F) (beta U : F) (w n : ℤ) : F :=
  sf.I * sf.sqrt (U * U * U * (1 / 4)) *
    sf.sqrt (U * U / hubbard_D_denominator sf beta U w -
      bosonic_value sf beta w * bosonic_value sf beta w) /
    hubbard_denominator U (fermionic_value sf beta n) (bosonic_value sf beta w)

/-- The library's `kronecker` on two Matsubara frequencies given by their
indices. -/
def kronecker {F : Type} [Field F] (n1 n2 : ℤ) : F :=
  if n1 = n2 then 1 else 0

/-- `chi_ph_magnetic(nw, nwf, beta, U)` at the bosonic index `w` and the
fermionic indices `n1`, `n2`; the fermionic frequency `-w - n2` has the index
`-w - n2 - 1`. -/
def chi_ph_magnetic {F : Type} [Field F] (sf : scalar_functions F) (beta U : F)
    (w n1 n2 : ℤ) : F :=
  kronecker n1 n2 * (hubbard_b0 sf beta U w n1 + hubbard_a0 sf beta U w n1) +
    kronecker n1 (-w - n2 - 1) * (hubbard_b0 sf beta U w n1 - hubbard_a0 sf beta U w n1) +
    hubbard_b1 sf beta U w n1 * hubbard_b1 sf beta U w n2 +
    hubbard_b2 sf beta U w n1 * hubbard_b2 sf beta U w n2

/-! ## Bethe-Salpeter loop with the stored blocks -/

/-- Body of the `w` loop of `chiq_from_chi0q_and_gamma_PH` with the block of every
unit kept as the loop stores it: `none` is a block without finite values, the
outcome `not_invertible` of `inverse_PH` handed on by the product with `chi0`.
Between the inversion and the assignment `chiq[k, w, _, _] = chi` the source has
no test, so the block is stored in either case. -/
def chiq_from_chi0q_and_gamma_PH_stored_step {F W K : Type} [Field F] [DecidableEq F]
    [DecidableEq W] [DecidableEq K] {nf nb : Nat} (chi0q : W → Fin nf → K → tensor4 F nb)
    (gamma_ph : W → g2_nn_t F nf nb) (k : K)
    (st : (K → W → Option (g2_nn_t F nf nb)) × g2_nn_t F nf nb) (w : W) :
    (K → W → Option (g2_nn_t F nf nb)) × g2_nn_t F nf nb :=
  let chi0 := (0 : F) • st.2
  let chi0 := (List.finRange nf).foldl (fun c n => set_diag c n (chi0q w n k)) chi0
  let denom := identity_PH nf nb - product_PH chi0 (gamma_ph w)
  let chi := (inverse_PH denom).toOption.map (fun inv => product_PH inv chi0)
  (set_kw st.1 k w chi, chi0)

/-- The container `chiq` that `chiq_from_chi0q_and_gamma_PH(chi0q, gamma_ph)`
returns, block by block: the loops of the source with every block stored as it
was computed, with or without finite values. -/
def chiq_from_chi0q_and_gamma_PH_stored {F W K : Type} [Field F] [DecidableEq F]
    [DecidableEq W] [DecidableEq K] {nf nb : Nat} (mb : List W) (mbz : List K)
    (chi0q : W → Fin nf → K → tensor4 F nb) (gamma_ph : W → g2_nn_t F nf nb) :
    K → W → Option (g2_nn_t F nf nb) :=
  mbz.foldl (fun chiq k =>
    (mb.foldl (chiq_from_chi0q_and_gamma_PH_stored_step chi0q gamma_ph k) (chiq, 0)).1)
    (fun _ _ => some 0)

theorem foldlM_error_of {S X E : Type} (P : E → Prop) (f : S → X → Except E S)
    (h : ∀ s x e, f s x = Except.error e → P e) (l : List X) (s : S) (e : E)
    (he : l.foldlM f s = Except.error e) : P e := by
  induction l generalizing s with
  | nil => simp [List.foldlM, pure, Except.pure] at he
  | cons x xs ih =>
    rw [List.foldlM_cons] at he
    cases hx : f s x with
    | error e1 =>
      rw [hx] at he
      have h1 : e1 = e := Except.error.inj he
      exact h1 ▸ h s x e1 hx
    | ok s1 =>
      rw [hx] at he
      exact ih s1 he

theorem mapM_error_of {X Y E : Type} (P : E → Prop) (f : X → Except E Y)
    (h : ∀ x e, f x = Except.error e → P e) (l : List X) (e : E)
    (he : l.mapM f = Except.error e) : P e := by
  induction l generalizing e with
  | nil =>
    rw [List.mapM_nil] at he
    simp [pure, Except.pure] at he
  | cons x xs ih =>
    rw [List.mapM_cons] at he
    cases hx : f x with
    | error e1 =>
      rw [hx] at he
      have h1 : e1 = e := Except.error.inj he
      exact h1 ▸ h x e1 hx
    | ok y =>
      rw [hx] at he
      cases hxs : xs.mapM f with
      | error e2 =>
        rw [hxs] at he
        have h1 : e2 = e := Except.error.inj he
        exact h1 ▸ ih e2 hxs
      | ok ys =>
        rw [hxs] at he
        simp [bind, Except.bind, pure, Except.pure] at he

theorem bind_error_of {X Y E : Type} (P : E → Prop) (m : Except E X) (f : X → Except E Y)
    (hm : ∀ e, m = Except.error e → P e) (hf : ∀ x e, f x = Except.error e → P e) (e : E)
    (he : m >>= f = Except.error e) : P e := by
  cases hx : m with
  | error e1 =>
    rw [hx] at he
    have h1 : e1 = e := Except.error.inj he
    exact h1 ▸ hm e1 hx
  | ok x =>
    rw [hx] at he
    exact hf x e he

theorem inverse_PH_error_kind {F : Type} [Field F] [DecidableEq F] {nf nb : Nat}
    (A : g2_nn_t F nf nb) (e : tprf_error) (h : inverse_PH A = Except.error e) :
    e = tprf_error.not_invertible := by
  unfold inverse_PH at h
  split at h
  · exact (Except.error.inj h).symm
  · cases h

theorem inverse_matrix_error_kind {F : Type} [Field F] [DecidableEq F] {nb : Nat}
    (M : Matrix (Fin nb) (Fin nb) F) (e : tprf_error) (h : inverse_matrix M = Except.error e) :
    e = tprf_error.not_invertible := by
  unfold inverse_matrix at h
  split at h
  · exact (Except.error.inj h).symm
  · cases h

theorem bse_tail_corr_unit_error_kind {F : Type} [Field F] [DecidableEq F] {nwf nb : Nat}
    (density : gf_mesh_imfreq F → (ℤ → F) → F) (beta : F) (fmesh_tail : gf_mesh_imfreq F)
    (gamma_w : g2_nn_t F (2 * nwf) nb) (chi0_n_tail : ℤ → tensor4 F nb)
    (buf : bse_buffers F nwf nb) (e : tprf_error)
    (h : bse_tail_corr_unit density beta fmesh_tail gamma_w chi0_n_tail buf = Except.error e) :
    e = tprf_error.not_invertible := by
  unfold bse_tail_corr_unit at h
  refine bind_error_of (fun e => e = tprf_error.not_invertible) _ _ ?_ ?_ e h
  · intro e1 h1
    exact inverse_PH_error_kind _ e1 h1
  · intro x e1 h1
    cases h1

theorem chi0_n_from_e_k_sigma_w_PH_error_kind {F K : Type} [Field F] [DecidableEq F]
    [AddCommGroup K] {nb : Nat} (i_pi : F) (w : ℤ) (q : K) (fmesh : gf_mesh_imfreq F) (mu : F)
    (kmesh : List K) (e_k : K → Matrix (Fin nb) (Fin nb) F)
    (sigma_w : ℤ → Matrix (Fin nb) (Fin nb) F) (e : tprf_error)
    (h : chi0_n_from_e_k_sigma_w_PH i_pi w q fmesh mu kmesh e_k sigma_w = Except.error e) :
    e = tprf_error.not_invertible := by
  unfold chi0_n_from_e_k_sigma_w_PH at h
  refine bind_error_of (fun e => e = tprf_error.not_invertible) _ _ ?_ ?_ e h
  · intro e1 h1
    refine foldlM_error_of (fun e => e = tprf_error.not_invertible) _ ?_ _ _ e1 h1
    intro s k e2 h2
    refine foldlM_error_of (fun e => e = tprf_error.not_invertible) _ ?_ _ _ e2 h2
    intro s1 n e3 h3
    refine bind_error_of (fun e => e = tprf_error.not_invertible) _ _ ?_ ?_ e3 h3
    · intro e4 h4
      exact inverse_matrix_error_kind _ e4 h4
    · intro g_da e4 h4
      refine bind_error_of (fun e => e = tprf_error.not_invertible) _ _ ?_ ?_ e4 h4
      · intro e5 h5
        exact inverse_matrix_error_kind _ e5 h5
      · intro g_bc e5 h5
        cases h5
  · intro x e1 h1
    cases h1

theorem fermionic_mesh_size {F : Type} (beta : F) (n : ℤ) :
    (gf_mesh_imfreq.mk beta statistic_enum.Fermion n).size = 2 * n := by
  simp only [gf_mesh_imfreq.size, gf_mesh_imfreq.first_index, gf_mesh_imfreq.last_index,
    if_true]
  ring

theorem tail_check_iff {F : Type} (beta : F) (nwf : ℕ) (tail_corr_nwf : ℤ) :
    (tail_mesh beta ⟨beta, statistic_enum.Fermion, nwf⟩ tail_corr_nwf).size <
        (gf_mesh_imfreq.mk beta statistic_enum.Fermion nwf).size ↔
      (0 < tail_corr_nwf ∧ tail_corr_nwf < nwf) := by
  unfold tail_mesh
  by_cases h : tail_corr_nwf > 0
  · rw [if_pos h, fermionic_mesh_size, fermionic_mesh_size]
    constructor
    · intro h1
      exact ⟨h, by omega⟩
    · intro h1
      omega
  · rw [if_neg h]
    constructor
    · intro h1
      exact absurd h1 (lt_irrefl _)
    · intro h1
      exact absurd h1.1 h

theorem g_wk_solver_tail_size_iff {F K : Type} [Field F] [DecidableEq F]
    [AddCommGroup K] [DecidableEq K] {nb : Nat} (density : gf_mesh_imfreq F → (ℤ → F) → F)
    (slices : List (List (K × ℤ))) (mem : Fin 3 → tensor4 F nb) (kmesh : List K)
    (g_wk : ℤ → K → matrix2 F nb) (beta : F) (nwf : ℕ)
    (gamma_ph_wnn : ℤ → g2_nn_t F (2 * nwf) nb) (tail_corr_nwf : ℤ) :
    chiq_sum_nu_from_g_wk_and_gamma_PH density slices mem kmesh g_wk beta nwf gamma_ph_wnn
        tail_corr_nwf = Except.error tprf_error.tail_size ↔
      (0 < tail_corr_nwf ∧ tail_corr_nwf < nwf) := by
  rw [← tail_check_iff beta nwf tail_corr_nwf]
  unfold chiq_sum_nu_from_g_wk_and_gamma_PH
  by_cases hc : (tail_mesh beta ⟨beta, statistic_enum.Fermion, nwf⟩ tail_corr_nwf).size <
        (gf_mesh_imfreq.mk beta statistic_enum.Fermion nwf).size
  · simp only [hc, if_true, iff_true]
    rfl
  · simp only [hc, if_false, iff_false]
    intro h
    have hk : tprf_error.tail_size = tprf_error.not_invertible := by
      refine bind_error_of (fun e => e = tprf_error.not_invertible) _ _ ?_ ?_ _ h
      · intro e1 h1
        cases h1
      · intro u e1 h1
        refine bind_error_of (fun e => e = tprf_error.not_invertible) _ _ ?_ ?_ _ h1
        · intro e2 h2
          refine mapM_error_of (fun e => e = tprf_error.not_invertible) _ ?_ _ e2 h2
          intro arr e3 h3
          refine bind_error_of (fun e => e = tprf_error.not_invertible) _ _ ?_ ?_ _ h3
          · intro e4 h4
            refine foldlM_error_of (fun e => e = tprf_error.not_invertible) _ ?_ _ _ e4 h4
            intro st kw e5 h5
            refine bind_error_of (fun e => e = tprf_error.not_invertible) _ _ ?_ ?_ _ h5
            · intro e6 h6
              exact bse_tail_corr_unit_error_kind _ _ _ _ _ _ e6 h6
            · intro b e6 h6
              cases h6
          · intro st e4 h4
            cases h4
        · intro parts e2 h2
          cases h2
    cases hk

theorem e_k_solver_tail_size_iff {F K : Type} [Field F] [DecidableEq F]
    [AddCommGroup K] [DecidableEq K] {nb : Nat} (density : gf_mesh_imfreq F → (ℤ → F) → F)
    (i_pi : F) (slices : List (List (K × ℤ))) (mem : Fin 3 → tensor4 F nb) (mu : F)
    (kmesh : List K) (e_k : K → Matrix (Fin nb) (Fin nb) F)
    (sigma_w : ℤ → Matrix (Fin nb) (Fin nb) F) (beta : F) (nwf : ℕ)
    (gamma_ph_wnn : ℤ → g2_nn_t F (2 * nwf) nb) (tail_corr_nwf : ℤ) :
    chiq_sum_nu_from_e_k_sigma_w_and_gamma_PH density i_pi slices mem mu kmesh e_k sigma_w beta
        nwf gamma_ph_wnn tail_corr_nwf = Except.error tprf_error.tail_size ↔
      (0 < tail_corr_nwf ∧ tail_corr_nwf < nwf) := by
  rw [← tail_check_iff beta nwf tail_corr_nwf]
  unfold chiq_sum_nu_from_e_k_sigma_w_and_gamma_PH
  by_cases hc : (tail_mesh beta ⟨beta, statistic_enum.Fermion, nwf⟩ tail_corr_nwf).size <
        (gf_mesh_imfreq.mk beta statistic_enum.Fermion nwf).size
  · simp only [hc, if_true, iff_true]
    rfl
  · simp only [hc, if_false, iff_false]
    intro h
    have hk : tprf_error.tail_size = tprf_error.not_invertible := by
      refine bind_error_of (fun e => e = tprf_error.not_invertible) _ _ ?_ ?_ _ h
      · intro e1 h1
        cases h1
      · intro u e1 h1
        refine bind_error_of (fun e => e = tprf_error.not_invertible) _ _ ?_ ?_ _ h1
        · intro e2 h2
          refine mapM_error_of (fun e => e = tprf_error.not_invertible) _ ?_ _ e2 h2
          intro arr e3 h3
          refine bind_error_of (fun e => e = tprf_error.not_invertible) _ _ ?_ ?_ _ h3
          · intro e4 h4
            refine foldlM_error_of (fun e => e = tprf_error.not_invertible) _ ?_ _ _ e4 h4
            intro st kw e5 h5
            refine bind_error_of (fun e => e = tprf_error.not_invertible) _ _ ?_ ?_ _ h5
            · intro e6 h6
              exact chi0_n_from_e_k_sigma_w_PH_error_kind _ _ _ _ _ _ _ _ e6 h6
            · intro chi0_n_tail e6 h6
              refine bind_error_of (fun e => e = tprf_error.not_invertible) _ _ ?_ ?_ _ h6
              · intro e7 h7
                exact bse_tail_corr_unit_error_kind _ _ _ _ _ _ e7 h7
              · intro b e7 h7
                cases h7
          · intro st e4 h4
            cases h4
        · intro parts e2 h2
          cases h2
    cases hk

/-! ## Lemmas: loops -/

theorem foldl_set_diag {F : Type} {nf nb : Nat} (f : Fin nf → tensor4 F nb) (l : List (Fin nf))
    (c : g2_nn_t F nf nb) (n1 n2 : Fin nf) :
    l.foldl (fun c n => set_diag c n (f n)) c n1 n2 =
      if n1 = n2 ∧ n1 ∈ l then f n1 else c n1 n2 := by
  induction l generalizing c with
  | nil => simp
  | cons x xs ih =>
    rw [List.foldl_cons, ih]
    by_cases h12 : n1 = n2
    · subst h12
      by_cases hx : n1 ∈ xs
      · simp [hx]
      · by_cases h1 : n1 = x
        · subst h1; simp [hx, set_diag]
        · simp [hx, h1, set_diag, Function.update_noteq h1]
    · simp only [h12, false_and, if_false]
      unfold set_diag
      by_cases h1 : n1 = x
      · subst h1
        rw [Function.update_same, Function.update_noteq (Ne.symm h12)]
      · rw [Function.update_noteq h1]

theorem foldl_set_kw_inner {K W V : Type} [DecidableEq K] [DecidableEq W] (f : W → V) (k : K)
    (l : List W) (q : K → W → V) (k1 : K) (w1 : W) :
    l.foldl (fun q w => set_kw q k w (f w)) q k1 w1 =
      if k1 = k ∧ w1 ∈ l then f w1 else q k1 w1 := by
  induction l generalizing q with
  | nil => simp
  | cons x xs ih =>
    rw [List.foldl_cons, ih]
    by_cases hk : k1 = k
    · subst hk
      by_cases hx : w1 ∈ xs
      · simp [hx]
      · by_cases h1 : w1 = x
        · subst h1; simp [hx, set_kw]
        · simp [hx, h1, set_kw, Function.update_noteq h1]
    · simp [hk, set_kw, Function.update_noteq hk]

theorem foldl_set_kw {K W V : Type} [DecidableEq K] [DecidableEq W] (f : K → W → V)
    (lk : List K) (lw : List W) (q : K → W → V) (k1 : K) (w1 : W) :
    lk.foldl (fun q k => lw.foldl (fun q w => set_kw q k w (f k w)) q) q k1 w1 =
      if k1 ∈ lk ∧ w1 ∈ lw then f k1 w1 else q k1 w1 := by
  induction lk generalizing q with
  | nil => simp
  | cons x xs ih =>
    rw [List.foldl_cons, ih, foldl_set_kw_inner]
    by_cases hx : k1 ∈ xs
    · by_cases hw : w1 ∈ lw
      · simp [hx, hw]
      · simp [hw]
    · by_cases h1 : k1 = x
      · subst h1; simp [hx]
      · simp [hx, h1]

/-! ## Lemmas: bare bubble -/

theorem gf_mesh_imfreq_points_nodup {F : Type} (m : gf_mesh_imfreq F) : m.points.Nodup := by
  have hinj : Function.Injective (fun i : ℕ => m.first_index + (i : ℤ)) := by
    intro i j h
    have h1 : (i : ℤ) = (j : ℤ) := add_left_cancel h
    exact_mod_cast h1
  exact List.Nodup.map hinj (List.nodup_range _)

theorem foldl_k_sub {F K : Type} [Field F] {nb : Nat} (g1 g2 : K → matrix2 F nb) (n : ℤ)
    (l : List K) (c0 : ℤ → tensor4 F nb) (m : ℤ) (a b c d : Fin nb) :
    l.foldl (fun (chi0_n : ℤ → tensor4 F nb) k => Function.update chi0_n n
      (fun a b c d => chi0_n n a b c d - g1 k d a * g2 k b c)) c0 m a b c d =
      if m = n then c0 n a b c d - (l.map (fun k => g1 k d a * g2 k b c)).sum
      else c0 m a b c d := by
  induction l generalizing c0 with
  | nil =>
    by_cases h : m = n
    · subst h
      simp
    · simp [h]
  | cons x xs ih =>
    rw [List.foldl_cons, ih]
    by_cases h : m = n
    · subst h
      simp only [if_true, Function.update_same, List.map_cons, List.sum_cons]
      ring
    · simp only [h, if_false]
      rw [Function.update_noteq h]

theorem foldl_n_k_sub {F K : Type} [Field F] {nb : Nat} (g1 g2 : ℤ → K → matrix2 F nb)
    (kmesh : List K) (l : List ℤ) (hl : l.Nodup) (c0 : ℤ → tensor4 F nb) (m : ℤ)
    (a b c d : Fin nb) :
    l.foldl (fun (chi0_n : ℤ → tensor4 F nb) n =>
      kmesh.foldl (fun (chi0_n : ℤ → tensor4 F nb) k => Function.update chi0_n n
        (fun a b c d => chi0_n n a b c d - g1 n k d a * g2 n k b c)) chi0_n) c0 m a b c d =
      if m ∈ l then c0 m a b c d - (kmesh.map (fun k => g1 m k d a * g2 m k b c)).sum
      else c0 m a b c d := by
  induction l generalizing c0 with
  | nil => simp
  | cons x xs ih =>
    rw [List.foldl_cons, ih (List.nodup_cons.mp hl).2]
    have hx : x ∉ xs := (List.nodup_cons.mp hl).1
    by_cases h : m = x
    · subst h
      simp only [hx, if_false, List.mem_cons, true_or, if_true]
      rw [foldl_k_sub (g1 m) (g2 m)]
      simp
    · by_cases h2 : m ∈ xs
      · simp only [h2, if_true, List.mem_cons, or_true]
        rw [foldl_k_sub (g1 x) (g2 x), if_neg h]
      · simp only [h2, if_false, List.mem_cons, h, or_self]
        rw [foldl_k_sub (g1 x) (g2 x), if_neg h]

theorem chi0_n_from_g_wk_PH_apply {F K : Type} [Field F] [AddCommGroup K] {nb : Nat} (w : ℤ)
    (q : K) (fmesh : gf_mesh_imfreq F) (kmesh : List K) (g_wk : ℤ → K → matrix2 F nb) (n : ℤ)
    (hn : n ∈ fmesh.points) (a b c d : Fin nb) :
    chi0_n_from_g_wk_PH w q fmesh kmesh g_wk n a b c d =
      -(fmesh.beta / (kmesh.length : F)) *
        (kmesh.map (fun k1 => g_wk n k1 d a * g_wk (n + w) (k1 - q) b c)).sum := by
  unfold chi0_n_from_g_wk_PH
  simp only []
  rw [foldl_n_k_sub (fun n k => g_wk n k) (fun n k => g_wk (n + w) (k - q)) kmesh fmesh.points
    (gf_mesh_imfreq_points_nodup fmesh), if_pos hn]
  simp only [Pi.zero_apply, zero_sub]
  ring

theorem foldl_set_slice_wq {W N K V : Type} [DecidableEq W] [DecidableEq K] (f : W → K → N → V)
    (lw : List W) (lq : List K) (c0 : W → N → K → V) (w1 : W) (n : N) (q1 : K) :
    lw.foldl (fun c w => lq.foldl (fun c q => set_slice_wq c w q (f w q)) c) c0 w1 n q1 =
      if w1 ∈ lw ∧ q1 ∈ lq then f w1 q1 n else c0 w1 n q1 := by
  have inner : ∀ (w : W) (l : List K) (c : W → N → K → V),
      l.foldl (fun c q => set_slice_wq c w q (f w q)) c w1 n q1 =
        if w1 = w ∧ q1 ∈ l then f w1 q1 n else c w1 n q1 := by
    intro w l
    induction l with
    | nil => intro c; simp
    | cons x xs ih =>
      intro c
      rw [List.foldl_cons, ih]
      by_cases hw : w1 = w
      · subst hw
        by_cases hx : q1 ∈ xs
        · simp [hx]
        · by_cases h1 : q1 = x
          · subst h1; simp [hx, set_slice_wq]
          · simp [hx, h1, set_slice_wq]
      · simp [hw, set_slice_wq]
  induction lw generalizing c0 with
  | nil => simp
  | cons x xs ih =>
    rw [List.foldl_cons, ih, inner]
    by_cases hx : w1 ∈ xs
    · by_cases hq : q1 ∈ lq
      · simp [hx, hq]
      · simp [hq]
    · by_cases h1 : w1 = x
      · subst h1; simp [hx]
      · simp [hx, h1]

/-! ## Lemmas: distribution over execution units -/

theorem sum_scatter {X V : Type} [AddCommMonoid V] (f : X → V)
    (slices : List (List X)) (h : slices.flatten.Nodup) (x : X)
    [∀ arr : List X, Decidable (x ∈ arr)] :
    (slices.map (fun arr => if x ∈ arr then f x else 0)).sum =
      if x ∈ slices.flatten then f x else 0 := by
  induction slices with
  | nil => simp
  | cons arr rest ih =>
    rw [List.flatten_cons, List.nodup_append] at h
    obtain ⟨_, h2, h3⟩ := h
    rw [List.map_cons, List.sum_cons, ih h2, List.flatten_cons]
    by_cases hx : x ∈ arr
    · have hx2 : x ∉ rest.flatten := fun hmem => h3 hx hmem
      simp [hx, hx2]
    · simp [hx]

theorem mpi_all_reduce_apply3 {A B C V : Type} [AddCommMonoid V] (parts : List (A → B → C → V))
    (a : A) (b : B) (c : C) :
    mpi_all_reduce parts a b c = (parts.map (fun p => p a b c)).sum := by
  unfold mpi_all_reduce
  induction parts with
  | nil => rfl
  | cons p ps ih =>
    rw [List.sum_cons, List.map_cons, List.sum_cons, ← ih]
    rfl

theorem mpi_all_reduce_apply2 {A B V : Type} [AddCommMonoid V] (parts : List (A → B → V))
    (a : A) (b : B) :
    mpi_all_reduce parts a b = (parts.map (fun p => p a b)).sum := by
  unfold mpi_all_reduce
  induction parts with
  | nil => rfl
  | cons p ps ih =>
    rw [List.sum_cons, List.map_cons, List.sum_cons, ← ih]
    rfl

theorem foldl_set_wn {W N V : Type} [DecidableEq W] [DecidableEq N] (f : W → N → V)
    (lw : List W) (ln : List N) (c0 : W → N → V) (w1 : W) (n1 : N) :
    lw.foldl (fun c w => ln.foldl (fun c n => set_wn c w n (f w n)) c) c0 w1 n1 =
      if w1 ∈ lw ∧ n1 ∈ ln then f w1 n1 else c0 w1 n1 :=
  foldl_set_kw f lw ln c0 w1 n1

theorem foldl_set_wn_pairs {W N V : Type} [DecidableEq W] [DecidableEq N] (f : W → N → V)
    (l : List (W × N)) (c0 : W → N → V) (w1 : W) (n1 : N) :
    l.foldl (fun c wn => set_wn c wn.1 wn.2 (f wn.1 wn.2)) c0 w1 n1 =
      if (w1, n1) ∈ l then f w1 n1 else c0 w1 n1 := by
  induction l generalizing c0 with
  | nil => simp
  | cons x xs ih =>
    rw [List.foldl_cons, ih]
    by_cases hx : (w1, n1) ∈ xs
    · simp [hx]
    · by_cases h1 : (w1, n1) = x
      · subst h1; simp [hx, set_wn]
      · simp only [hx, if_false, List.mem_cons, h1, or_self]
        unfold set_wn
        by_cases hw : w1 = x.1
        · have hn : n1 ≠ x.2 := fun hn => h1 (Prod.ext hw hn)
          subst hw
          rw [Function.update_same, Function.update_noteq hn]
        · rw [Function.update_noteq hw]

theorem foldl_set_slice_r {W N K V : Type} [DecidableEq K] (f : K → W → N → V) (l : List K)
    (c0 : W → N → K → V) (w : W) (n : N) (r1 : K) :
    l.foldl (fun c r => set_slice_r c r (f r)) c0 w n r1 =
      if r1 ∈ l then f r1 w n else c0 w n r1 := by
  induction l generalizing c0 with
  | nil => simp
  | cons x xs ih =>
    rw [List.foldl_cons, ih]
    by_cases hx : r1 ∈ xs
    · simp [hx]
    · by_cases h1 : r1 = x
      · subst h1; simp [hx, set_slice_r]
      · simp [hx, h1, set_slice_r]

theorem chi0r_from_gr_PH_site_apply {F K : Type} [Field F] [AddCommGroup K] {nb : Nat} (beta : F)
    (wmesh nmesh : List ℤ) (g_nr : ℤ → K → matrix2 F nb) (r : K) (w n : ℤ) :
    chi0r_from_gr_PH_site beta wmesh nmesh g_nr r w n =
      if w ∈ wmesh ∧ n ∈ nmesh then
        (fun a b c d => -beta * g_nr n r d a * g_nr (n + w) (-r) b c)
      else 0 := by
  unfold chi0r_from_gr_PH_site
  exact foldl_set_wn (fun w n => (fun a b c d => -beta * g_nr n r d a * g_nr (n + w) (-r) b c))
    wmesh nmesh 0 w n

theorem chi0r_from_gr_PH_apply {F K : Type} [Field F] [AddCommGroup K] [DecidableEq K]
    {nb : Nat} (slices : List (List K)) (nw nnu : ℤ) (fmesh_large : gf_mesh_imfreq F)
    (g_nr : ℤ → K → matrix2 F nb) (hs : slices.flatten.Nodup) (w n : ℤ) (r : K)
    (hw : w ∈ (gf_mesh_imfreq.mk fmesh_large.beta statistic_enum.Boson nw).points)
    (hn : n ∈ (gf_mesh_imfreq.mk fmesh_large.beta statistic_enum.Fermion nnu).points)
    (hr : r ∈ slices.flatten) :
    chi0r_from_gr_PH slices nw nnu fmesh_large g_nr w n r =
      fun a b c d => -fmesh_large.beta * g_nr n r d a * g_nr (n + w) (-r) b c := by
  unfold chi0r_from_gr_PH
  rw [mpi_all_reduce_apply3, List.map_map]
  have hpart : ∀ arr : List K,
      ((fun p : ℤ → ℤ → K → tensor4 F nb => p w n r) ∘ fun arr : List K =>
        arr.foldl (fun chi0_wnr r => set_slice_r chi0_wnr r (chi0r_from_gr_PH_site
          fmesh_large.beta (gf_mesh_imfreq.mk fmesh_large.beta statistic_enum.Boson nw).points
          (gf_mesh_imfreq.mk fmesh_large.beta statistic_enum.Fermion nnu).points g_nr r)) 0) arr =
      if r ∈ arr then
        (fun a b c d => -fmesh_large.beta * g_nr n r d a * g_nr (n + w) (-r) b c)
      else 0 := by
    intro arr
    simp only [Function.comp]
    rw [foldl_set_slice_r (fun r => chi0r_from_gr_PH_site fmesh_large.beta
      (gf_mesh_imfreq.mk fmesh_large.beta statistic_enum.Boson nw).points
      (gf_mesh_imfreq.mk fmesh_large.beta statistic_enum.Fermion nnu).points g_nr r),
      chi0r_from_gr_PH_site_apply]
    simp only [hw, hn, and_self, if_true]
    rfl
  rw [List.map_congr_left (fun arr _ => hpart arr),
    sum_scatter (fun r => (fun a b c d => -fmesh_large.beta * g_nr n r d a *
      g_nr (n + w) (-r) b c)) slices hs r, if_pos hr]

/-! ## Lemmas: sums -/

theorem list_sum_apply4 {X F : Type} [AddCommMonoid F] {nb : Nat} (f : X → tensor4 F nb)
    (l : List X) (a b c d : Fin nb) :
    (l.map f).sum a b c d = (l.map (fun x => f x a b c d)).sum := by
  induction l with
  | nil => rfl
  | cons x xs ih =>
    rw [List.map_cons, List.sum_cons, List.map_cons, List.sum_cons, ← ih]
    rfl

theorem list_sum_map_div {X F : Type} [Field F] (f : X → F) (l : List X) (c : F) :
    (l.map (fun x => f x / c)).sum = (l.map f).sum / c := by
  induction l with
  | nil => simp
  | cons x xs ih =>
    rw [List.map_cons, List.sum_cons, List.map_cons, List.sum_cons, ih, add_div]

theorem list_sum_map_add {X V : Type} [AddCommMonoid V] (f g : X → V) (l : List X) :
    (l.map (fun x => f x + g x)).sum = (l.map f).sum + (l.map g).sum := by
  induction l with
  | nil => simp
  | cons x xs ih =>
    simp only [List.map_cons, List.sum_cons, ih]
    abel

theorem list_sum_comm {X Y V : Type} [AddCommMonoid V] (f : X → Y → V) (lx : List X)
    (ly : List Y) :
    (lx.map (fun x => (ly.map (fun y => f x y)).sum)).sum =
      (ly.map (fun y => (lx.map (fun x => f x y)).sum)).sum := by
  induction lx with
  | nil => simp
  | cons x xs ih =>
    simp only [List.map_cons, List.sum_cons, ih]
    rw [← list_sum_map_add]

theorem foldl_accumulate_k {W K V : Type} [DecidableEq W] [AddCommMonoid V] (t : K → V) (w : W)
    (lk : List K) (c0 : W → V) (w1 : W) :
    lk.foldl (fun c k => Function.update c w (c w + t k)) c0 w1 =
      if w1 = w then c0 w + (lk.map t).sum else c0 w1 := by
  induction lk generalizing c0 with
  | nil =>
    by_cases h : w1 = w
    · subst h; simp
    · simp [h]
  | cons x xs ih =>
    rw [List.foldl_cons, ih]
    by_cases h : w1 = w
    · subst h
      simp only [if_true, Function.update_same, List.map_cons, List.sum_cons, add_assoc]
    · simp only [h, if_false]
      rw [Function.update_noteq h]

theorem foldl_accumulate_n_k {W N K V : Type} [DecidableEq W] [AddCommMonoid V] (t : N → K → V)
    (w : W) (ln : List N) (lk : List K) (c0 : W → V) (w1 : W) :
    ln.foldl (fun c n => lk.foldl (fun c k => Function.update c w (c w + t n k)) c) c0 w1 =
      if w1 = w then c0 w + (ln.map (fun n => (lk.map (t n)).sum)).sum else c0 w1 := by
  induction ln generalizing c0 with
  | nil =>
    by_cases h : w1 = w
    · subst h; simp
    · simp [h]
  | cons x xs ih =>
    rw [List.foldl_cons, ih]
    by_cases h : w1 = w
    · subst h
      rw [if_pos rfl, if_pos rfl, foldl_accumulate_k, if_pos rfl, List.map_cons, List.sum_cons,
        add_assoc]
    · rw [if_neg h, if_neg h, foldl_accumulate_k, if_neg h]

theorem foldl_accumulate_w_n_k {W N K V : Type} [DecidableEq W] [AddCommMonoid V]
    (t : W → N → K → V) (lw : List W) (hw : lw.Nodup) (ln : List N) (lk : List K) (c0 : W → V)
    (w1 : W) :
    lw.foldl (fun c w => ln.foldl (fun c n =>
      lk.foldl (fun c k => Function.update c w (c w + t w n k)) c) c) c0 w1 =
      if w1 ∈ lw then c0 w1 + (ln.map (fun n => (lk.map (t w1 n)).sum)).sum else c0 w1 := by
  induction lw generalizing c0 with
  | nil => simp
  | cons x xs ih =>
    have hx : x ∉ xs := (List.nodup_cons.mp hw).1
    rw [List.foldl_cons, ih (List.nodup_cons.mp hw).2]
    by_cases h : w1 = x
    · subst h
      rw [if_neg hx, if_pos (List.mem_cons_self _ _), foldl_accumulate_n_k, if_pos rfl]
    · by_cases h2 : w1 ∈ xs
      · rw [if_pos h2, if_pos (List.mem_cons_of_mem _ h2), foldl_accumulate_n_k, if_neg h]
      · rw [if_neg h2, foldl_accumulate_n_k, if_neg h, if_neg]
        simp [h, h2]

/-! ## Lemmas: lattice Fourier transform -/

theorem phase_mul_neg {F K : Type} [Field F] [Fintype K] [AddCommGroup K] [DecidableEq K]
    (ph : lattice_phase F K) (k k1 r : K) :
    ph.phase k r * ph.phase (-k1) r = ph.phase (k - k1) r := by
  rw [sub_eq_add_neg, ph.phase_add_k]

theorem fourier_r_to_k_k_to_r {F K V : Type} [Field F] [Fintype K] [AddCommGroup K]
    [DecidableEq K] [AddCommGroup V] [Module F V] (ph : lattice_phase F K) (g : K → V) :
    fourier_r_to_k ph (fourier_k_to_r ph g) = g := by
  funext k
  unfold fourier_r_to_k fourier_k_to_r
  have h1 : ∀ r : K, ph.phase k r • ((Fintype.card K : F)⁻¹ • ∑ k1, ph.phase (-k1) r • g k1) =
      (Fintype.card K : F)⁻¹ • ∑ k1, ph.phase (k - k1) r • g k1 := by
    intro r
    rw [smul_comm, Finset.smul_sum]
    congr 1
    refine Finset.sum_congr rfl (fun k1 _ => ?_)
    rw [smul_smul, phase_mul_neg]
  rw [Finset.sum_congr rfl (fun r _ => h1 r), ← Finset.smul_sum, Finset.sum_comm]
  have h2 : ∀ k1 : K, (∑ r, ph.phase (k - k1) r • g k1) =
      (if k1 = k then (Fintype.card K : F) else 0) • g k1 := by
    intro k1
    rw [← Finset.sum_smul, ph.sum_r]
    by_cases h : k1 = k
    · subst h; simp
    · have h3 : k - k1 ≠ 0 := fun h4 => h (sub_eq_zero.mp h4).symm
      simp [h, h3]
  rw [Finset.sum_congr rfl (fun k1 _ => h2 k1)]
  simp only [ite_smul, zero_smul, Finset.sum_ite_eq', Finset.mem_univ, if_true]
  rw [smul_smul, inv_mul_cancel₀ ph.card_ne_zero, one_smul]

theorem chi0r_from_chi0q_apply {F W N K : Type} [Field F] [Fintype K] [AddCommGroup K]
    [DecidableEq K] [DecidableEq W] [DecidableEq N] {nb : Nat} (ph : lattice_phase F K)
    (slices : List (List (W × N))) (chi0_wnk : W → N → K → tensor4 F nb)
    (hs : slices.flatten.Nodup) (w : W) (n : N) (hwn : (w, n) ∈ slices.flatten) :
    chi0r_from_chi0q ph slices chi0_wnk w n = fourier_k_to_r ph (chi0_wnk w n) := by
  unfold chi0r_from_chi0q
  rw [mpi_all_reduce_apply2, List.map_map]
  have hpart : ∀ arr : List (W × N),
      ((fun p : W → N → K → tensor4 F nb => p w n) ∘ fun arr : List (W × N) =>
        arr.foldl (fun chi0_wnr wn =>
          set_wn chi0_wnr wn.1 wn.2 (fourier_k_to_r ph (chi0_wnk wn.1 wn.2))) 0) arr =
      if (w, n) ∈ arr then fourier_k_to_r ph (chi0_wnk w n) else 0 := by
    intro arr
    simp only [Function.comp]
    rw [foldl_set_wn_pairs (fun w n => fourier_k_to_r ph (chi0_wnk w n))]
    rfl
  rw [List.map_congr_left (fun arr _ => hpart arr)]
  exact (sum_scatter (fun wn : W × N => fourier_k_to_r ph (chi0_wnk wn.1 wn.2)) slices hs
    (w, n)).trans (if_pos hwn)

theorem chi0q_from_chi0r_apply {F W N K : Type} [Field F] [Fintype K] [AddCommGroup K]
    [DecidableEq K] [DecidableEq W] [DecidableEq N] {nb : Nat} (ph : lattice_phase F K)
    (slices : List (List (W × N))) (chi0_wnr : W → N → K → tensor4 F nb)
    (hs : slices.flatten.Nodup) (w : W) (n : N) (hwn : (w, n) ∈ slices.flatten) :
    chi0q_from_chi0r ph slices chi0_wnr w n = fourier_r_to_k ph (chi0_wnr w n) := by
  unfold chi0q_from_chi0r
  rw [mpi_all_reduce_apply2, List.map_map]
  have hpart : ∀ arr : List (W × N),
      ((fun p : W → N → K → tensor4 F nb => p w n) ∘ fun arr : List (W × N) =>
        arr.foldl (fun chi0_wnk wn =>
          set_wn chi0_wnk wn.1 wn.2 (fourier_r_to_k ph (chi0_wnr wn.1 wn.2))) 0) arr =
      if (w, n) ∈ arr then fourier_r_to_k ph (chi0_wnr w n) else 0 := by
    intro arr
    simp only [Function.comp]
    rw [foldl_set_wn_pairs (fun w n => fourier_r_to_k ph (chi0_wnr w n))]
    rfl
  rw [List.map_congr_left (fun arr _ => hpart arr)]
  exact (sum_scatter (fun wn : W × N => fourier_r_to_k ph (chi0_wnr wn.1 wn.2)) slices hs
    (w, n)).trans (if_pos hwn)

theorem phase_neg_neg {F K : Type} [Field F] [Fintype K] [AddCommGroup K] [DecidableEq K]
    (ph : lattice_phase F K) (k r : K) : ph.phase (-k) (-r) = ph.phase k r := by
  rw [ph.phase_neg_r, neg_neg]

theorem convolution_core {F K : Type} [Field F] [Fintype K] [AddCommGroup K] [DecidableEq K]
    (ph : lattice_phase F K) (beta : F) (q : K) (A B : K → F) :
    (∑ r, ph.phase q r * (-beta * ((Fintype.card K : F)⁻¹ * ∑ k, ph.phase (-k) r * A k) *
      ((Fintype.card K : F)⁻¹ * ∑ k1, ph.phase (-k1) (-r) * B k1))) =
      -(beta / (Fintype.card K : F)) * ∑ k, A k * B (k - q) := by
  have hterm : ∀ r : K,
      ph.phase q r * (-beta * ((Fintype.card K : F)⁻¹ * ∑ k, ph.phase (-k) r * A k) *
        ((Fintype.card K : F)⁻¹ * ∑ k1, ph.phase (-k1) (-r) * B k1)) =
      (-beta * (Fintype.card K : F)⁻¹ * (Fintype.card K : F)⁻¹) *
        ∑ k, ∑ k1, ph.phase (q - k + k1) r * (A k * B k1) := by
    intro r
    have h1 : (∑ k, ph.phase (-k) r * A k) * (∑ k1, ph.phase (-k1) (-r) * B k1) =
        ∑ k, ∑ k1, (ph.phase (-k) r * A k) * (ph.phase k1 r * B k1) := by
      rw [Finset.sum_mul_sum]
      refine Finset.sum_congr rfl (fun k _ => Finset.sum_congr rfl (fun k1 _ => ?_))
      rw [phase_neg_neg]
    have h2 : ph.phase q r * ∑ k, ∑ k1, (ph.phase (-k) r * A k) * (ph.phase k1 r * B k1) =
        ∑ k, ∑ k1, ph.phase (q - k + k1) r * (A k * B k1) := by
      rw [Finset.mul_sum]
      refine Finset.sum_congr rfl (fun k _ => ?_)
      rw [Finset.mul_sum]
      refine Finset.sum_congr rfl (fun k1 _ => ?_)
      rw [ph.phase_add_k, ← phase_mul_neg]
      ring
    rw [← h2, ← h1]
    ring
  rw [Finset.sum_congr rfl (fun r _ => hterm r), ← Finset.mul_sum, Finset.sum_comm]
  have hk : ∀ k : K, (∑ r, ∑ k1, ph.phase (q - k + k1) r * (A k * B k1)) =
      (Fintype.card K : F) * (A k * B (k - q)) := by
    intro k
    rw [Finset.sum_comm]
    have hk1 : ∀ k1 : K, (∑ r, ph.phase (q - k + k1) r * (A k * B k1)) =
        if k1 = k - q then (Fintype.card K : F) * (A k * B k1) else 0 := by
      intro k1
      rw [← Finset.sum_mul, ph.sum_r]
      by_cases h : k1 = k - q
      · have h0 : q - k + k1 = 0 := by rw [h]; abel
        rw [if_pos h0, if_pos h]
      · have h0 : q - k + k1 ≠ 0 := by
          intro h0
          apply h
          have h3 : k1 = -(q - k) := eq_neg_of_add_eq_zero_right h0
          rw [h3]
          abel
        rw [if_neg h0, if_neg h, zero_mul]
    rw [Finset.sum_congr rfl (fun k1 _ => hk1 k1), Finset.sum_ite_eq' Finset.univ (k - q),
      if_pos (Finset.mem_univ _)]
  rw [Finset.sum_congr rfl (fun k _ => hk k), ← Finset.mul_sum]
  have hN := ph.card_ne_zero
  field_simp
  ring

theorem list_sum_eq_univ_sum {K V : Type} [Fintype K] [DecidableEq K] [AddCommMonoid V]
    (kmesh : List K) (hk : kmesh.Nodup) (hall : ∀ k, k ∈ kmesh) (f : K → V) :
    (kmesh.map f).sum = ∑ k, f k := by
  have h : kmesh.toFinset = Finset.univ := by
    ext k
    simp [hall k]
  rw [← h, List.sum_toFinset f hk]

theorem list_length_eq_card {K : Type} [Fintype K] [DecidableEq K] (kmesh : List K)
    (hk : kmesh.Nodup) (hall : ∀ k, k ∈ kmesh) : kmesh.length = Fintype.card K := by
  have h : kmesh.toFinset = Finset.univ := by
    ext k
    simp [hall k]
  rw [← List.toFinset_card_of_nodup hk, h, Finset.card_univ]

theorem gr_from_gk_apply {F K : Type} [Field F] [Fintype K] [AddCommGroup K] [DecidableEq K]
    {nb : Nat} (ph : lattice_phase F K) (g_wk : ℤ → K → matrix2 F nb) (n : ℤ) (r : K)
    (a b : Fin nb) :
    gr_from_gk ph g_wk n r a b =
      (Fintype.card K : F)⁻¹ * ∑ k, ph.phase (-k) r * g_wk n k a b := by
  unfold gr_from_gk fourier_k_to_r
  simp only [Pi.smul_apply, Finset.sum_apply, smul_eq_mul]

theorem fourier_r_to_k_apply4 {F K : Type} [Field F] [Fintype K] [AddCommGroup K]
    [DecidableEq K] {nb : Nat} (ph : lattice_phase F K) (g : K → tensor4 F nb) (k : K)
    (a b c d : Fin nb) :
    fourier_r_to_k ph g k a b c d = ∑ r, ph.phase k r * g r a b c d := by
  unfold fourier_r_to_k
  simp only [Pi.smul_apply, Finset.sum_apply, smul_eq_mul]

/-! ## Lemmas: dispersion-derived bubble -/

theorem e_k_example_points :
    (gf_mesh_imfreq.mk (1 : ℚ) statistic_enum.Fermion 1).points = [-1, 0] := by
  decide

theorem inverse_matrix_fin_one {F : Type} [Field F] [DecidableEq F]
    (M : Matrix (Fin 1) (Fin 1) F) (h : M 0 0 ≠ 0) :
    inverse_matrix M = Except.ok (fun _ _ => (M 0 0)⁻¹) := by
  unfold inverse_matrix
  rw [Matrix.det_fin_one, if_neg h, Matrix.adjugate_fin_one]
  congr 1
  funext i j
  have hi : i = 0 := Subsingleton.elim i 0
  have hj : j = 0 := Subsingleton.elim j 0
  subst hi
  subst hj
  simp

theorem e_k_example_matrix (x : ℚ) :
    ((x + 0) • (1 : Matrix (Fin 1) (Fin 1) ℚ) - 0 - 0) 0 0 = x := by
  simp

/-! ## Lemmas: tail-corrected solver -/

theorem foldl_update_each {X V : Type} [DecidableEq X] (f : X → V) (l : List X) (c0 : X → V)
    (x : X) :
    l.foldl (fun c n => Function.update c n (f n)) c0 x = if x ∈ l then f x else c0 x := by
  induction l generalizing c0 with
  | nil => simp
  | cons y ys ih =>
    rw [List.foldl_cons, ih]
    by_cases hx : x ∈ ys
    · simp [hx]
    · by_cases h1 : x = y
      · subst h1; simp [hx]
      · simp [hx, h1, Function.update_noteq h1]

theorem foldl_add_eq {X V : Type} [AddCommMonoid V] (f : X → V) (l : List X) (t0 : V) :
    l.foldl (fun t x => t + f x) t0 = t0 + (l.map f).sum := by
  induction l generalizing t0 with
  | nil => simp
  | cons y ys ih =>
    rw [List.foldl_cons, ih, List.map_cons, List.sum_cons, add_assoc]

theorem foldl_foldl_add_eq {X Y V : Type} [AddCommMonoid V] (f : X → Y → V) (lx : List X)
    (ly : List Y) (t0 : V) :
    lx.foldl (fun t x => ly.foldl (fun t y => t + f x y) t) t0 =
      t0 + (lx.map (fun x => (ly.map (f x)).sum)).sum := by
  induction lx generalizing t0 with
  | nil => simp
  | cons x xs ih =>
    rw [List.foldl_cons, ih, foldl_add_eq, List.map_cons, List.sum_cons, add_assoc]

theorem finRange_sum_eq {V : Type} [AddCommMonoid V] {m : Nat} (f : Fin m → V) :
    ((List.finRange m).map f).sum = ∑ i, f i := by
  rw [Fin.sum_univ_def]

theorem mapM_ok_of {X Y E : Type} (f : X → Except E Y) (g : X → Y) (l : List X)
    (h : ∀ x ∈ l, f x = Except.ok (g x)) : l.mapM f = Except.ok (l.map g) := by
  induction l with
  | nil => rfl
  | cons x xs ih =>
    rw [List.mapM_cons, h x (List.mem_cons_self x xs),
      ih (fun y hy => h y (List.mem_cons_of_mem x hy))]
    rfl

/-! ## Lemmas: particle-hole grouping -/

theorem to_matrix_from_matrix_PH {F : Type} {nf nb : Nat}
    (M : Matrix (ph_index nf nb) (ph_index nf nb) F) : to_matrix_PH (from_matrix_PH M) = M := by
  funext r c
  rfl

theorem from_matrix_to_matrix_PH {F : Type} {nf nb : Nat} (g : g2_nn_t F nf nb) :
    from_matrix_PH (to_matrix_PH g) = g := by
  rfl

theorem to_matrix_PH_sub {F : Type} [Field F] {nf nb : Nat} (A B : g2_nn_t F nf nb) :
    to_matrix_PH (A - B) = to_matrix_PH A - to_matrix_PH B := by
  rfl

theorem to_matrix_PH_zero {F : Type} [Field F] {nf nb : Nat} :
    to_matrix_PH (0 : g2_nn_t F nf nb) = 0 := by
  rfl

theorem inverse_PH_ok {F : Type} [Field F] [DecidableEq F] {nf nb : Nat} (A : g2_nn_t F nf nb)
    (h : (to_matrix_PH A).det ≠ 0) :
    inverse_PH A = Except.ok (from_matrix_PH (to_matrix_PH A)⁻¹) := by
  unfold inverse_PH
  rw [if_neg h, Matrix.inv_def, Ring.inverse_eq_inv]

theorem inverse_PH_error {F : Type} [Field F] [DecidableEq F] {nf nb : Nat} (A : g2_nn_t F nf nb)
    (h : (to_matrix_PH A).det = 0) :
    inverse_PH A = Except.error tprf_error.not_invertible := by
  unfold inverse_PH
  rw [if_pos h]

/-! ## Lemmas: Bethe-Salpeter loop -/

theorem fill_chi0_eq_blk {F W K : Type} [Field F] {nf nb : Nat}
    (chi0q : W → Fin nf → K → tensor4 F nb) (w : W) (k : K) (c : g2_nn_t F nf nb) :
    (List.finRange nf).foldl (fun c n => set_diag c n (chi0q w n k)) ((0 : F) • c) =
      chi0_blk chi0q w k := by
  funext n1 n2
  rw [foldl_set_diag (fun n => chi0q w n k)]
  unfold chi0_blk
  by_cases h : n1 = n2
  · simp [h, List.mem_finRange]
  · simp [h]

theorem step_ok {F W K : Type} [Field F] [DecidableEq F] [DecidableEq W]
    [DecidableEq K] {nf nb : Nat} (chi0q : W → Fin nf → K → tensor4 F nb)
    (gamma_ph : W → g2_nn_t F nf nb) (k : K) (w : W)
    (st : (K → W → g2_nn_t F nf nb) × g2_nn_t F nf nb)
    (h : (bse_kernel chi0q gamma_ph w k).det ≠ 0) :
    chiq_from_chi0q_and_gamma_PH_step chi0q gamma_ph k st w =
      Except.ok (set_kw st.1 k w (from_matrix_PH ((bse_kernel chi0q gamma_ph w k)⁻¹ *
        to_matrix_PH (chi0_blk chi0q w k))), chi0_blk chi0q w k) := by
  unfold chiq_from_chi0q_and_gamma_PH_step
  simp only [fill_chi0_eq_blk]
  have hden : to_matrix_PH (identity_PH nf nb - product_PH (chi0_blk chi0q w k) (gamma_ph w)) =
      bse_kernel chi0q gamma_ph w k := rfl
  rw [inverse_PH_ok _ (by rw [hden]; exact h), hden]
  rfl

theorem foldlM_step_ok {F W K : Type} [Field F] [DecidableEq F] [DecidableEq W]
    [DecidableEq K] {nf nb : Nat} (chi0q : W → Fin nf → K → tensor4 F nb)
    (gamma_ph : W → g2_nn_t F nf nb) (k : K) (mb : List W)
    (h : ∀ w ∈ mb, (bse_kernel chi0q gamma_ph w k).det ≠ 0)
    (st : (K → W → g2_nn_t F nf nb) × g2_nn_t F nf nb) :
    ∃ c, mb.foldlM (chiq_from_chi0q_and_gamma_PH_step chi0q gamma_ph k) st =
      Except.ok (mb.foldl (fun q w => set_kw q k w (from_matrix_PH
        ((bse_kernel chi0q gamma_ph w k)⁻¹ * to_matrix_PH (chi0_blk chi0q w k)))) st.1, c) := by
  induction mb generalizing st with
  | nil => exact ⟨st.2, rfl⟩
  | cons x xs ih =>
    have hx := step_ok chi0q gamma_ph k x st (h x (List.mem_cons_self x xs))
    obtain ⟨c, hc⟩ := ih (fun w hw => h w (List.mem_cons_of_mem x hw))
      (set_kw st.1 k x (from_matrix_PH ((bse_kernel chi0q gamma_ph x k)⁻¹ *
        to_matrix_PH (chi0_blk chi0q x k))), chi0_blk chi0q x k)
    refine ⟨c, ?_⟩
    rw [List.foldlM_cons, hx]
    exact hc

theorem chiq_from_chi0q_and_gamma_PH_ok {F W K : Type} [Field F] [DecidableEq F] [DecidableEq W]
    [DecidableEq K] {nf nb : Nat} (mb : List W) (mbz : List K)
    (chi0q : W → Fin nf → K → tensor4 F nb) (gamma_ph : W → g2_nn_t F nf nb)
    (h : ∀ k ∈ mbz, ∀ w ∈ mb, (bse_kernel chi0q gamma_ph w k).det ≠ 0)
    (q : K → W → g2_nn_t F nf nb) :
    mbz.foldlM (fun chiq k => do
      let st ← mb.foldlM (chiq_from_chi0q_and_gamma_PH_step chi0q gamma_ph k) (chiq, 0)
      pure st.1) q =
    Except.ok (mbz.foldl (fun q k => mb.foldl (fun q w => set_kw q k w (from_matrix_PH
        ((bse_kernel chi0q gamma_ph w k)⁻¹ * to_matrix_PH (chi0_blk chi0q w k)))) q) q) := by
  induction mbz generalizing q with
  | nil => rfl
  | cons x xs ih =>
    obtain ⟨c, hc⟩ := foldlM_step_ok chi0q gamma_ph x mb (h x (List.mem_cons_self x xs)) (q, 0)
    rw [List.foldlM_cons, hc]
    exact ih (fun k hk => h k (List.mem_cons_of_mem x hk)) _

/-! ## Lemmas: one unit of the tail-corrected solver -/

theorem bse_tail_corr_unit_ok {F : Type} [Field F] [DecidableEq F] {nwf nb : Nat}
    (density : gf_mesh_imfreq F → (ℤ → F) → F) (beta : F) (fmesh_tail : gf_mesh_imfreq F)
    (gamma_w : g2_nn_t F (2 * nwf) nb) (chi0_n_tail : ℤ → tensor4 F nb)
    (buf : bse_buffers F nwf nb) (blk : g2_nn_t F (2 * nwf) nb)
    (hblk : blk = fun n1 n2 => if n1 = n2 then chi0_n_tail (fermionic_index nwf n1) else 0)
    (hbuf : block_diagonal buf.chi0_nn)
    (hdet : (1 - to_matrix_PH blk * to_matrix_PH gamma_w).det ≠ 0) :
    ∃ buf1, bse_tail_corr_unit density beta fmesh_tail gamma_w chi0_n_tail buf =
        Except.ok buf1 ∧ block_diagonal buf1.chi0_nn ∧
      ∀ a b c d : Fin nb, buf1.tr_chi a b c d =
        (∑ n1, ∑ n2, from_matrix_PH
          ((1 - to_matrix_PH blk * to_matrix_PH gamma_w)⁻¹ * to_matrix_PH blk) n1 n2 a b c d) /
            (beta * beta) +
          (density fmesh_tail (fun n => chi0_n_tail n a b c d) / beta -
            (∑ n : Fin (2 * nwf), chi0_n_tail (fermionic_index nwf n) a b c d) /
              (beta * beta)) := by
  have hchi0_n : (List.finRange (2 * nwf)).foldl
      (fun chi0_n n => Function.update chi0_n n (chi0_n_tail (fermionic_index nwf n)))
      buf.chi0_n = fun n => chi0_n_tail (fermionic_index nwf n) := by
    funext n
    rw [foldl_update_each (fun n => chi0_n_tail (fermionic_index nwf n)),
      if_pos (List.mem_finRange n)]
  have hnn : (List.finRange (2 * nwf)).foldl
      (fun chi0_nn n => set_diag chi0_nn n (chi0_n_tail (fermionic_index nwf n)))
      buf.chi0_nn = blk := by
    funext n1 n2
    rw [foldl_set_diag (fun n => chi0_n_tail (fermionic_index nwf n)), hblk]
    by_cases h : n1 = n2
    · simp [h, List.mem_finRange]
    · simp only [h, false_and, if_false]
      exact hbuf n1 n2 h
  have hden : to_matrix_PH (identity_PH (2 * nwf) nb - product_PH blk gamma_w) =
      1 - to_matrix_PH blk * to_matrix_PH gamma_w := rfl
  unfold bse_tail_corr_unit
  simp only [hchi0_n, hnn]
  rw [inverse_PH_ok _ (by rw [hden]; exact hdet), hden]
  refine ⟨_, rfl, ?_, ?_⟩
  · intro n1 n2 h
    show blk n1 n2 = 0
    rw [hblk]
    simp [h]
  · intro a b c d
    show (((List.finRange (2 * nwf)).foldl (fun tr_chi n1 =>
      (List.finRange (2 * nwf)).foldl (fun tr_chi n2 => tr_chi + product_PH (from_matrix_PH
        (1 - to_matrix_PH blk * to_matrix_PH gamma_w)⁻¹) blk n1 n2) tr_chi)
      ((0 : F) • buf.tr_chi)) a b c d / (beta * beta) +
      (density fmesh_tail (fun n => chi0_n_tail n a b c d) / beta -
        ((List.finRange (2 * nwf)).map
          (fun inu => chi0_n_tail (fermionic_index nwf inu) a b c d)).sum / (beta * beta))) = _
    rw [foldl_foldl_add_eq, zero_smul, zero_add, list_sum_apply4, finRange_sum_eq,
      finRange_sum_eq]
    simp only [list_sum_apply4, finRange_sum_eq]
    rfl

theorem g_wk_solver_slice_ok {F K : Type} [Field F] [DecidableEq F] [AddCommGroup K]
    [DecidableEq K] {nb : Nat} (density : gf_mesh_imfreq F → (ℤ → F) → F) (kmesh : List K)
    (g_wk : ℤ → K → matrix2 F nb) (beta : F) (nwf : ℕ)
    (gamma_ph_wnn : ℤ → g2_nn_t F (2 * nwf) nb) (fmesh_tail : gf_mesh_imfreq F)
    (arr : List (K × ℤ))
    (hdet : ∀ kw ∈ arr, (bse_kernel (chi0_on_main_mesh fmesh_tail kmesh g_wk nwf) gamma_ph_wnn
      kw.2 kw.1).det ≠ 0)
    (st : (K → ℤ → tensor4 F nb) × bse_buffers F nwf nb) (hst : block_diagonal st.2.chi0_nn) :
    ∃ buf, arr.foldlM (fun (st : (K → ℤ → tensor4 F nb) × bse_buffers F nwf nb) kw => do
        let chi0_n_tail := chi0_n_from_g_wk_PH kw.2 kw.1 fmesh_tail kmesh g_wk
        let buf ← bse_tail_corr_unit density beta fmesh_tail (gamma_ph_wnn kw.2) chi0_n_tail st.2
        pure (set_kw st.1 kw.1 kw.2 buf.tr_chi, buf)) st =
      Except.ok (arr.foldl (fun q kw => set_kw q kw.1 kw.2
        (tail_corrected_trace density beta fmesh_tail
          (from_matrix_PH ((bse_kernel (chi0_on_main_mesh fmesh_tail kmesh g_wk nwf)
              gamma_ph_wnn kw.2 kw.1)⁻¹ *
            to_matrix_PH (chi0_blk (chi0_on_main_mesh fmesh_tail kmesh g_wk nwf) kw.2 kw.1)))
          (chi0_n_from_g_wk_PH kw.2 kw.1 fmesh_tail kmesh g_wk))) st.1, buf) := by
  induction arr generalizing st with
  | nil => exact ⟨st.2, rfl⟩
  | cons x xs ih =>
    obtain ⟨buf1, h1, h2, h3⟩ := bse_tail_corr_unit_ok density beta fmesh_tail
      (gamma_ph_wnn x.2) (chi0_n_from_g_wk_PH x.2 x.1 fmesh_tail kmesh g_wk) st.2
      (chi0_blk (chi0_on_main_mesh fmesh_tail kmesh g_wk nwf) x.2 x.1) rfl hst
      (hdet x (List.mem_cons_self x xs))
    have hval : buf1.tr_chi = tail_corrected_trace density beta fmesh_tail
        (from_matrix_PH ((bse_kernel (chi0_on_main_mesh fmesh_tail kmesh g_wk nwf)
            gamma_ph_wnn x.2 x.1)⁻¹ *
          to_matrix_PH (chi0_blk (chi0_on_main_mesh fmesh_tail kmesh g_wk nwf) x.2 x.1)))
        (chi0_n_from_g_wk_PH x.2 x.1 fmesh_tail kmesh g_wk) := by
      funext a b c d
      rw [h3 a b c d]
      unfold tail_corrected_trace bse_kernel
      ring
    obtain ⟨buf2, hbuf2⟩ := ih (fun kw hkw => hdet kw (List.mem_cons_of_mem x hkw))
      (set_kw st.1 x.1 x.2 buf1.tr_chi, buf1) h2
    refine ⟨buf2, ?_⟩
    rw [List.foldlM_cons, List.foldl_cons, ← hval]
    simp only [h1]
    exact hbuf2

theorem gamma_ph_tail_example_nilpotent (B : Fin (2 * 1) → tensor4 ℚ 1) (w : ℤ) :
    to_matrix_PH (gamma_ph_tail_example w) *
      to_matrix_PH (fun n1 n2 => if n1 = n2 then B n1 else 0) *
      to_matrix_PH (gamma_ph_tail_example w) = 0 := by
  funext r c
  simp only [Matrix.mul_apply, to_matrix_PH, gamma_ph_tail_example, Matrix.zero_apply]
  refine Finset.sum_eq_zero (fun m _ => ?_)
  by_cases hm : m.1.1 = 0
  · have hsum : (∑ x : ph_index (2 * 1) 1,
        (if r.1.1 = 0 ∧ x.1.1 = 1 then (5 : ℚ) else 0) *
          (if x.1 = m.1 then B x.1 else 0) x.2.1 x.2.2 m.2.2 m.2.1) = 0 := by
      refine Finset.sum_eq_zero (fun x _ => ?_)
      by_cases hx : x.1 = m.1
      · have h1 : ¬ (x.1.1 = 1) := by rw [hx]; omega
        simp [h1]
      · simp [hx]
    rw [hsum, zero_mul]
  · simp [hm]

theorem bse_kernel_tail_example_det (B : ℤ → Fin (2 * 1) → Fin 2 → tensor4 ℚ 1) (w : ℤ)
    (k : Fin 2) : (bse_kernel B gamma_ph_tail_example w k).det ≠ 0 := by
  have hinv : bse_kernel B gamma_ph_tail_example w k *
      (1 + to_matrix_PH (chi0_blk B w k) * to_matrix_PH (gamma_ph_tail_example w)) = 1 := by
    unfold bse_kernel
    have h := gamma_ph_tail_example_nilpotent (fun n => B w n k) w
    have h2 : to_matrix_PH (chi0_blk B w k) * to_matrix_PH (gamma_ph_tail_example w) *
        (to_matrix_PH (chi0_blk B w k) * to_matrix_PH (gamma_ph_tail_example w)) = 0 := by
      have h3 : to_matrix_PH (chi0_blk B w k) * to_matrix_PH (gamma_ph_tail_example w) *
          (to_matrix_PH (chi0_blk B w k) * to_matrix_PH (gamma_ph_tail_example w)) =
          to_matrix_PH (chi0_blk B w k) * (to_matrix_PH (gamma_ph_tail_example w) *
            to_matrix_PH (chi0_blk B w k) * to_matrix_PH (gamma_ph_tail_example w)) := by
        simp only [Matrix.mul_assoc]
      rw [h3]
      unfold chi0_blk
      rw [h, Matrix.mul_zero]
    rw [Matrix.sub_mul, Matrix.mul_add, Matrix.mul_add, h2]
    simp
  exact Matrix.det_ne_zero_of_right_inverse hinv

/-! ## Lemmas: a failing unit fails the loop -/

theorem foldlM_fails_of {S X E : Type} (Inv : S → Prop) (f : S → X → Except E S)
    (hpres : ∀ s x s1, Inv s → f s x = Except.ok s1 → Inv s1) (l : List X) (x : X)
    (hx : x ∈ l) (hfail : ∀ s, Inv s → ∃ e, f s x = Except.error e) (s : S) (hs : Inv s) :
    ∃ e, l.foldlM f s = Except.error e := by
  induction l generalizing s with
  | nil => exact absurd hx (List.not_mem_nil x)
  | cons y ys ih =>
    rw [List.foldlM_cons]
    cases hy : f s y with
    | error e => exact ⟨e, rfl⟩
    | ok s1 =>
      have hx1 : x ∈ ys := by
        rcases List.mem_cons.mp hx with h | h
        · obtain ⟨e, he⟩ := hfail s hs
          rw [h, hy] at he
          cases he
        · exact h
      exact ih hx1 s1 (hpres s y s1 hs hy)

theorem mapM_fails_of {X Y E : Type} (f : X → Except E Y) (l : List X) (x : X) (hx : x ∈ l)
    (hfail : ∃ e, f x = Except.error e) : ∃ e, l.mapM f = Except.error e := by
  induction l with
  | nil => exact absurd hx (List.not_mem_nil x)
  | cons y ys ih =>
    rw [List.mapM_cons]
    cases hy : f y with
    | error e => exact ⟨e, rfl⟩
    | ok v =>
      have hx1 : x ∈ ys := by
        rcases List.mem_cons.mp hx with h | h
        · obtain ⟨e, he⟩ := hfail
          rw [h, hy] at he
          cases he
        · exact h
      obtain ⟨e, he⟩ := ih hx1
      exact ⟨e, by rw [he]; rfl⟩

/-! ## Lemmas: failing and traced Bethe-Salpeter loops -/

theorem step_error {F W K : Type} [Field F] [DecidableEq F] [DecidableEq W]
    [DecidableEq K] {nf nb : Nat} (chi0q : W → Fin nf → K → tensor4 F nb)
    (gamma_ph : W → g2_nn_t F nf nb) (k : K) (w : W)
    (st : (K → W → g2_nn_t F nf nb) × g2_nn_t F nf nb)
    (h : (bse_kernel chi0q gamma_ph w k).det = 0) :
    chiq_from_chi0q_and_gamma_PH_step chi0q gamma_ph k st w =
      Except.error tprf_error.not_invertible := by
  unfold chiq_from_chi0q_and_gamma_PH_step
  simp only [fill_chi0_eq_blk]
  have hden : to_matrix_PH (identity_PH nf nb - product_PH (chi0_blk chi0q w k) (gamma_ph w)) =
      bse_kernel chi0q gamma_ph w k := rfl
  rw [inverse_PH_error _ (by rw [hden]; exact h)]
  rfl

theorem step_error_kind {F W K : Type} [Field F] [DecidableEq F] [DecidableEq W]
    [DecidableEq K] {nf nb : Nat} (chi0q : W → Fin nf → K → tensor4 F nb)
    (gamma_ph : W → g2_nn_t F nf nb) (k : K) (w : W)
    (st : (K → W → g2_nn_t F nf nb) × g2_nn_t F nf nb) (e : tprf_error)
    (h : chiq_from_chi0q_and_gamma_PH_step chi0q gamma_ph k st w = Except.error e) :
    e = tprf_error.not_invertible := by
  unfold chiq_from_chi0q_and_gamma_PH_step at h
  refine bind_error_of (fun e => e = tprf_error.not_invertible) _ _ ?_ ?_ e h
  · intro e1 h1
    exact inverse_PH_error_kind _ e1 h1
  · intro x e1 h1
    cases h1

theorem chiq_from_chi0q_and_gamma_PH_error_kind {F W K : Type} [Field F] [DecidableEq F]
    [DecidableEq W] [DecidableEq K] {nf nb : Nat} (mb : List W) (mbz : List K)
    (chi0q : W → Fin nf → K → tensor4 F nb) (gamma_ph : W → g2_nn_t F nf nb) (e : tprf_error)
    (h : chiq_from_chi0q_and_gamma_PH mb mbz chi0q gamma_ph = Except.error e) :
    e = tprf_error.not_invertible := by
  unfold chiq_from_chi0q_and_gamma_PH at h
  refine foldlM_error_of (fun e => e = tprf_error.not_invertible) _ ?_ _ _ e h
  intro chiq k e1 h1
  refine bind_error_of (fun e => e = tprf_error.not_invertible) _ _ ?_ ?_ e1 h1
  · intro e2 h2
    refine foldlM_error_of (fun e => e = tprf_error.not_invertible) _ ?_ _ _ e2 h2
    intro st w e3 h3
    exact step_error_kind chi0q gamma_ph k w st e3 h3
  · intro st e2 h2
    cases h2

theorem chiq_from_chi0q_and_gamma_PH_fails {F W K : Type} [Field F] [DecidableEq F]
    [DecidableEq W] [DecidableEq K] {nf nb : Nat} (mb : List W) (mbz : List K)
    (chi0q : W → Fin nf → K → tensor4 F nb) (gamma_ph : W → g2_nn_t F nf nb) (k : K) (w : W)
    (hk : k ∈ mbz) (hw : w ∈ mb) (h : (bse_kernel chi0q gamma_ph w k).det = 0) :
    chiq_from_chi0q_and_gamma_PH mb mbz chi0q gamma_ph =
      Except.error tprf_error.not_invertible := by
  have hex : ∃ e, chiq_from_chi0q_and_gamma_PH mb mbz chi0q gamma_ph = Except.error e := by
    unfold chiq_from_chi0q_and_gamma_PH
    refine foldlM_fails_of (fun _ => True) _ (fun _ _ _ _ _ => trivial) mbz k hk ?_ 0 trivial
    intro chiq _
    obtain ⟨e, he⟩ := foldlM_fails_of (fun _ => True)
      (chiq_from_chi0q_and_gamma_PH_step chi0q gamma_ph k) (fun _ _ _ _ _ => trivial) mb w hw
      (fun st _ => ⟨_, step_error chi0q gamma_ph k w st h⟩) (chiq, 0) trivial
    exact ⟨e, by rw [he]; rfl⟩
  obtain ⟨e, he⟩ := hex
  rw [he, chiq_from_chi0q_and_gamma_PH_error_kind mb mbz chi0q gamma_ph e he]

theorem traced_step_ok {F W K : Type} [Field F] [DecidableEq F] [DecidableEq W]
    [DecidableEq K] {nf nb : Nat} (beta : F) (chi0q : W → Fin nf → K → tensor4 F nb)
    (gamma_ph : W → g2_nn_t F nf nb) (k : K) (w : W)
    (st : (K → W → tensor4 F nb) × g2_nn_t F nf nb × tensor4 F nb)
    (h : (bse_kernel chi0q gamma_ph w k).det ≠ 0) :
    chiq_sum_nu_from_chi0q_and_gamma_PH_step beta chi0q gamma_ph k st w =
      Except.ok (set_kw st.1 k w (trace_nn beta (from_matrix_PH
        ((bse_kernel chi0q gamma_ph w k)⁻¹ * to_matrix_PH (chi0_blk chi0q w k)))),
        chi0_blk chi0q w k, trace_nn beta (from_matrix_PH
        ((bse_kernel chi0q gamma_ph w k)⁻¹ * to_matrix_PH (chi0_blk chi0q w k)))) := by
  have htr : ∀ (chi : g2_nn_t F nf nb) (t : tensor4 F nb),
      (fun a b c d => ((List.finRange nf).foldl (fun tr_chi n1 =>
        (List.finRange nf).foldl (fun tr_chi n2 => tr_chi + chi n1 n2) tr_chi)
        ((0 : F) • t)) a b c d / (beta * beta)) = trace_nn beta chi := by
    intro chi t
    funext a b c d
    rw [foldl_foldl_add_eq, zero_smul, zero_add, list_sum_apply4, finRange_sum_eq]
    simp only [list_sum_apply4, finRange_sum_eq]
    unfold trace_nn
    rw [div_eq_mul_inv, one_div, mul_comm]
  have hden : to_matrix_PH (identity_PH nf nb - product_PH (chi0_blk chi0q w k) (gamma_ph w)) =
      bse_kernel chi0q gamma_ph w k := rfl
  unfold chiq_sum_nu_from_chi0q_and_gamma_PH_step
  simp only [fill_chi0_eq_blk]
  rw [inverse_PH_ok _ (by rw [hden]; exact h), hden]
  simp only [bind, Except.bind, pure, Except.pure, htr]
  rfl

theorem traced_step_error {F W K : Type} [Field F] [DecidableEq F] [DecidableEq W]
    [DecidableEq K] {nf nb : Nat} (beta : F) (chi0q : W → Fin nf → K → tensor4 F nb)
    (gamma_ph : W → g2_nn_t F nf nb) (k : K) (w : W)
    (st : (K → W → tensor4 F nb) × g2_nn_t F nf nb × tensor4 F nb)
    (h : (bse_kernel chi0q gamma_ph w k).det = 0) :
    chiq_sum_nu_from_chi0q_and_gamma_PH_step beta chi0q gamma_ph k st w =
      Except.error tprf_error.not_invertible := by
  unfold chiq_sum_nu_from_chi0q_and_gamma_PH_step
  simp only [fill_chi0_eq_blk]
  have hden : to_matrix_PH (identity_PH nf nb - product_PH (chi0_blk chi0q w k) (gamma_ph w)) =
      bse_kernel chi0q gamma_ph w k := rfl
  rw [inverse_PH_error _ (by rw [hden]; exact h)]
  rfl

theorem set_kw_apply {K W V : Type} [DecidableEq K] [DecidableEq W] (q : K → W → V) (k : K)
    (w : W) (v : V) (k1 : K) (w1 : W) :
    set_kw q k w v k1 w1 = if k1 = k ∧ w1 = w then v else q k1 w1 := by
  unfold set_kw
  by_cases hk : k1 = k
  · subst hk
    by_cases hw : w1 = w
    · subst hw; simp
    · simp [hw, Function.update_noteq hw]
  · simp [hk, Function.update_noteq hk]

theorem foldl_accumulate_kw {K W X V : Type} [DecidableEq K] [DecidableEq W] [AddCommMonoid V]
    (f : X → V) (k : K) (w : W) (l : List X) (acc0 : K → W → V) (k1 : K) (w1 : W) :
    l.foldl (fun acc x => set_kw acc k w (acc k w + f x)) acc0 k1 w1 =
      if k1 = k ∧ w1 = w then acc0 k w + (l.map f).sum else acc0 k1 w1 := by
  induction l generalizing acc0 with
  | nil =>
    by_cases h : k1 = k ∧ w1 = w
    · obtain ⟨h1, h2⟩ := h
      subst h1; subst h2; simp
    · simp [h]
  | cons x xs ih =>
    rw [List.foldl_cons, ih]
    by_cases h : k1 = k ∧ w1 = w
    · rw [if_pos h, if_pos h, set_kw_apply, if_pos ⟨rfl, rfl⟩, List.map_cons, List.sum_cons,
        add_assoc]
    · rw [if_neg h, if_neg h, set_kw_apply, if_neg h]

theorem foldl_accumulate_kw_nn {K W X Y V : Type} [DecidableEq K] [DecidableEq W]
    [AddCommMonoid V] (f : X → Y → V) (k : K) (w : W) (lx : List X) (ly : List Y)
    (acc0 : K → W → V) (k1 : K) (w1 : W) :
    lx.foldl (fun acc x => ly.foldl (fun acc y => set_kw acc k w (acc k w + f x y)) acc) acc0
        k1 w1 =
      if k1 = k ∧ w1 = w then acc0 k w + (lx.map (fun x => (ly.map (f x)).sum)).sum
      else acc0 k1 w1 := by
  induction lx generalizing acc0 with
  | nil =>
    by_cases h : k1 = k ∧ w1 = w
    · obtain ⟨h1, h2⟩ := h
      subst h1; subst h2; simp
    · simp [h]
  | cons x xs ih =>
    rw [List.foldl_cons, ih]
    by_cases h : k1 = k ∧ w1 = w
    · rw [if_pos h, if_pos h, foldl_accumulate_kw, if_pos ⟨rfl, rfl⟩, List.map_cons,
        List.sum_cons, add_assoc]
    · rw [if_neg h, if_neg h, foldl_accumulate_kw, if_neg h]

theorem foldl_accumulate_kw_w {K W X Y V : Type} [DecidableEq K] [DecidableEq W]
    [AddCommMonoid V] (f : W → X → Y → V) (k : K) (lw : List W) (hw : lw.Nodup) (lx : List X)
    (ly : List Y) (acc0 : K → W → V) (k1 : K) (w1 : W) :
    lw.foldl (fun acc w => lx.foldl (fun acc x =>
        ly.foldl (fun acc y => set_kw acc k w (acc k w + f w x y)) acc) acc) acc0 k1 w1 =
      if k1 = k ∧ w1 ∈ lw then acc0 k w1 + (lx.map (fun x => (ly.map (f w1 x)).sum)).sum
      else acc0 k1 w1 := by
  induction lw generalizing acc0 with
  | nil => simp
  | cons x xs ih =>
    have hx : x ∉ xs := (List.nodup_cons.mp hw).1
    rw [List.foldl_cons, ih (List.nodup_cons.mp hw).2]
    by_cases hk : k1 = k
    · subst hk
      by_cases h : w1 = x
      · subst h
        simp only [true_and, hx, if_false, List.mem_cons, true_or, if_true]
        rw [foldl_accumulate_kw_nn, if_pos ⟨rfl, rfl⟩]
      · by_cases h2 : w1 ∈ xs
        · simp only [true_and, h2, if_true, List.mem_cons, or_true]
          rw [foldl_accumulate_kw_nn, if_neg (fun hh => h hh.2)]
        · simp only [true_and, h2, if_false, List.mem_cons, h, or_self]
          rw [foldl_accumulate_kw_nn, if_neg (fun hh => h hh.2)]
    · simp only [hk, false_and, if_false]
      rw [foldl_accumulate_kw_nn, if_neg (fun hh => hk hh.1)]

theorem foldl_accumulate_kw_k_w {K W X Y V : Type} [DecidableEq K] [DecidableEq W]
    [AddCommMonoid V] (f : K → W → X → Y → V) (lk : List K) (hk : lk.Nodup) (lw : List W)
    (hw : lw.Nodup) (lx : List X) (ly : List Y) (acc0 : K → W → V) (k1 : K) (w1 : W) :
    lk.foldl (fun acc k => lw.foldl (fun acc w => lx.foldl (fun acc x =>
        ly.foldl (fun acc y => set_kw acc k w (acc k w + f k w x y)) acc) acc) acc) acc0 k1 w1 =
      if k1 ∈ lk ∧ w1 ∈ lw then
        acc0 k1 w1 + (lx.map (fun x => (ly.map (f k1 w1 x)).sum)).sum
      else acc0 k1 w1 := by
  induction lk generalizing acc0 with
  | nil => simp
  | cons x xs ih =>
    have hx : x ∉ xs := (List.nodup_cons.mp hk).1
    rw [List.foldl_cons, ih (List.nodup_cons.mp hk).2]
    by_cases h : k1 = x
    · subst h
      by_cases hw1 : w1 ∈ lw
      · simp only [hx, false_and, if_false, List.mem_cons, true_or, hw1, and_self, if_true]
        rw [foldl_accumulate_kw_w (f k1) k1 lw hw, if_pos ⟨rfl, hw1⟩]
      · simp only [hw1, and_false, if_false]
        rw [foldl_accumulate_kw_w (f k1) k1 lw hw, if_neg (fun hh => hw1 hh.2)]
    · by_cases h2 : k1 ∈ xs ∧ w1 ∈ lw
      · rw [if_pos h2, if_pos ⟨List.mem_cons_of_mem _ h2.1, h2.2⟩,
          foldl_accumulate_kw_w (f x) x lw hw, if_neg (fun hh => h hh.1)]
      · rw [if_neg h2, foldl_accumulate_kw_w (f x) x lw hw, if_neg (fun hh => h hh.1), if_neg]
        intro hh
        apply h2
        refine ⟨?_, hh.2⟩
        rcases List.mem_cons.mp hh.1 with h3 | h3
        · exact absurd h3 h
        · exact h3

theorem chiq_sum_nu_apply {F W K : Type} [Field F] [DecidableEq W] [DecidableEq K]
    {nf nb : Nat} (beta : F) (mesh_k : List K) (mesh_b : List W)
    (chiq : K → W → g2_nn_t F nf nb) (hk : mesh_k.Nodup) (hb : mesh_b.Nodup) (k : K) (w : W) :
    chiq_sum_nu beta mesh_k mesh_b chiq k w =
      if k ∈ mesh_k ∧ w ∈ mesh_b then trace_nn beta (chiq k w) else 0 := by
  funext a b c d
  unfold chiq_sum_nu
  rw [foldl_accumulate_kw_k_w (fun k w n1 n2 => chiq k w n1 n2) mesh_k hk mesh_b hb]
  by_cases h : k ∈ mesh_k ∧ w ∈ mesh_b
  · rw [if_pos h, if_pos h]
    simp only [Pi.zero_apply, zero_add]
    rw [list_sum_apply4, finRange_sum_eq]
    simp only [list_sum_apply4, finRange_sum_eq]
    unfold trace_nn
    rw [div_eq_mul_inv, one_div, mul_comm]
  · rw [if_neg h, if_neg h]
    simp

theorem traced_foldlM_step_ok {F W K : Type} [Field F] [DecidableEq F] [DecidableEq W]
    [DecidableEq K] {nf nb : Nat} (beta : F) (chi0q : W → Fin nf → K → tensor4 F nb)
    (gamma_ph : W → g2_nn_t F nf nb) (k : K) (mb : List W)
    (h : ∀ w ∈ mb, (bse_kernel chi0q gamma_ph w k).det ≠ 0)
    (st : (K → W → tensor4 F nb) × g2_nn_t F nf nb × tensor4 F nb) :
    ∃ c, mb.foldlM (chiq_sum_nu_from_chi0q_and_gamma_PH_step beta chi0q gamma_ph k) st =
      Except.ok (mb.foldl (fun q w => set_kw q k w (trace_nn beta (from_matrix_PH
        ((bse_kernel chi0q gamma_ph w k)⁻¹ * to_matrix_PH (chi0_blk chi0q w k))))) st.1, c) := by
  induction mb generalizing st with
  | nil => exact ⟨st.2, rfl⟩
  | cons x xs ih =>
    have hx := traced_step_ok beta chi0q gamma_ph k x st (h x (List.mem_cons_self x xs))
    obtain ⟨c, hc⟩ := ih (fun w hw => h w (List.mem_cons_of_mem x hw))
      (set_kw st.1 k x (trace_nn beta (from_matrix_PH ((bse_kernel chi0q gamma_ph x k)⁻¹ *
        to_matrix_PH (chi0_blk chi0q x k)))), chi0_blk chi0q x k,
        trace_nn beta (from_matrix_PH ((bse_kernel chi0q gamma_ph x k)⁻¹ *
        to_matrix_PH (chi0_blk chi0q x k))))
    refine ⟨c, ?_⟩
    rw [List.foldlM_cons, hx]
    exact hc

theorem chiq_sum_nu_from_chi0q_and_gamma_PH_ok {F W K : Type} [Field F] [DecidableEq F]
    [DecidableEq W] [DecidableEq K] {nf nb : Nat} (beta : F) (mem : K → tensor4 F nb)
    (mb : List W) (mbz : List K) (chi0q : W → Fin nf → K → tensor4 F nb)
    (gamma_ph : W → g2_nn_t F nf nb)
    (h : ∀ k ∈ mbz, ∀ w ∈ mb, (bse_kernel chi0q gamma_ph w k).det ≠ 0)
    (q : K → W → tensor4 F nb) :
    mbz.foldlM (fun chi_kw k => do
      let st ← mb.foldlM (chiq_sum_nu_from_chi0q_and_gamma_PH_step beta chi0q gamma_ph k)
        (chi_kw, 0, mem k)
      pure st.1) q =
    Except.ok (mbz.foldl (fun q k => mb.foldl (fun q w => set_kw q k w (trace_nn beta
      (from_matrix_PH ((bse_kernel chi0q gamma_ph w k)⁻¹ *
        to_matrix_PH (chi0_blk chi0q w k))))) q) q) := by
  induction mbz generalizing q with
  | nil => rfl
  | cons x xs ih =>
    obtain ⟨c, hc⟩ := traced_foldlM_step_ok beta chi0q gamma_ph x mb
      (h x (List.mem_cons_self x xs)) (q, 0, mem x)
    rw [List.foldlM_cons, hc]
    exact ih (fun k hk => h k (List.mem_cons_of_mem x hk)) _

theorem chiq_sum_nu_from_chi0q_and_gamma_PH_error_kind {F W K : Type} [Field F]
    [DecidableEq F] [DecidableEq W] [DecidableEq K] {nf nb : Nat} (beta : F)
    (mem : K → tensor4 F nb) (mb : List W) (mbz : List K)
    (chi0q : W → Fin nf → K → tensor4 F nb) (gamma_ph : W → g2_nn_t F nf nb) (e : tprf_error)
    (h : chiq_sum_nu_from_chi0q_and_gamma_PH beta mem mb mbz chi0q gamma_ph = Except.error e) :
    e = tprf_error.not_invertible := by
  unfold chiq_sum_nu_from_chi0q_and_gamma_PH at h
  refine foldlM_error_of (fun e => e = tprf_error.not_invertible) _ ?_ _ _ e h
  intro chiq k e1 h1
  refine bind_error_of (fun e => e = tprf_error.not_invertible) _ _ ?_ ?_ e1 h1
  · intro e2 h2
    refine foldlM_error_of (fun e => e = tprf_error.not_invertible) _ ?_ _ _ e2 h2
    intro st w e3 h3
    unfold chiq_sum_nu_from_chi0q_and_gamma_PH_step at h3
    refine bind_error_of (fun e => e = tprf_error.not_invertible) _ _ ?_ ?_ e3 h3
    · intro e4 h4
      exact inverse_PH_error_kind _ e4 h4
    · intro x e4 h4
      cases h4
  · intro st e2 h2
    cases h2

theorem chiq_sum_nu_from_chi0q_and_gamma_PH_fails {F W K : Type} [Field F] [DecidableEq F]
    [DecidableEq W] [DecidableEq K] {nf nb : Nat} (beta : F) (mem : K → tensor4 F nb)
    (mb : List W) (mbz : List K) (chi0q : W → Fin nf → K → tensor4 F nb)
    (gamma_ph : W → g2_nn_t F nf nb) (k : K) (w : W) (hk : k ∈ mbz) (hw : w ∈ mb)
    (h : (bse_kernel chi0q gamma_ph w k).det = 0) :
    chiq_sum_nu_from_chi0q_and_gamma_PH beta mem mb mbz chi0q gamma_ph =
      Except.error tprf_error.not_invertible := by
  have hex : ∃ e, chiq_sum_nu_from_chi0q_and_gamma_PH beta mem mb mbz chi0q gamma_ph =
      Except.error e := by
    unfold chiq_sum_nu_from_chi0q_and_gamma_PH
    refine foldlM_fails_of (fun _ => True) _ (fun _ _ _ _ _ => trivial) mbz k hk ?_ 0 trivial
    intro chi_kw _
    obtain ⟨e, he⟩ := foldlM_fails_of (fun _ => True)
      (chiq_sum_nu_from_chi0q_and_gamma_PH_step beta chi0q gamma_ph k)
      (fun _ _ _ _ _ => trivial) mb w hw
      (fun st _ => ⟨_, traced_step_error beta chi0q gamma_ph k w st h⟩) (chi_kw, 0, mem k)
      trivial
    exact ⟨e, by rw [he]; rfl⟩
  obtain ⟨e, he⟩ := hex
  rw [he, chiq_sum_nu_from_chi0q_and_gamma_PH_error_kind beta mem mb mbz chi0q gamma_ph e he]

/-! ## Lemmas: failing and reordered units of the tail-corrected solver -/

theorem bse_tail_corr_unit_error {F : Type} [Field F] [DecidableEq F] {nwf nb : Nat}
    (density : gf_mesh_imfreq F → (ℤ → F) → F) (beta : F) (fmesh_tail : gf_mesh_imfreq F)
    (gamma_w : g2_nn_t F (2 * nwf) nb) (chi0_n_tail : ℤ → tensor4 F nb)
    (buf : bse_buffers F nwf nb) (blk : g2_nn_t F (2 * nwf) nb)
    (hblk : blk = fun n1 n2 => if n1 = n2 then chi0_n_tail (fermionic_index nwf n1) else 0)
    (hbuf : block_diagonal buf.chi0_nn)
    (hdet : (1 - to_matrix_PH blk * to_matrix_PH gamma_w).det = 0) :
    bse_tail_corr_unit density beta fmesh_tail gamma_w chi0_n_tail buf =
      Except.error tprf_error.not_invertible := by
  have hchi0_n : (List.finRange (2 * nwf)).foldl
      (fun chi0_n n => Function.update chi0_n n (chi0_n_tail (fermionic_index nwf n)))
      buf.chi0_n = fun n => chi0_n_tail (fermionic_index nwf n) := by
    funext n
    rw [foldl_update_each (fun n => chi0_n_tail (fermionic_index nwf n)),
      if_pos (List.mem_finRange n)]
  have hnn : (List.finRange (2 * nwf)).foldl
      (fun chi0_nn n => set_diag chi0_nn n (chi0_n_tail (fermionic_index nwf n)))
      buf.chi0_nn = blk := by
    funext n1 n2
    rw [foldl_set_diag (fun n => chi0_n_tail (fermionic_index nwf n)), hblk]
    by_cases h : n1 = n2
    · simp [h, List.mem_finRange]
    · simp only [h, false_and, if_false]
      exact hbuf n1 n2 h
  have hden : to_matrix_PH (identity_PH (2 * nwf) nb - product_PH blk gamma_w) =
      1 - to_matrix_PH blk * to_matrix_PH gamma_w := rfl
  unfold bse_tail_corr_unit
  simp only [hchi0_n, hnn]
  rw [inverse_PH_error _ (by rw [hden]; exact hdet)]
  rfl

theorem bse_tail_corr_unit_preserves {F : Type} [Field F] [DecidableEq F] {nwf nb : Nat}
    (density : gf_mesh_imfreq F → (ℤ → F) → F) (beta : F) (fmesh_tail : gf_mesh_imfreq F)
    (gamma_w : g2_nn_t F (2 * nwf) nb) (chi0_n_tail : ℤ → tensor4 F nb)
    (buf buf1 : bse_buffers F nwf nb) (hbuf : block_diagonal buf.chi0_nn)
    (h : bse_tail_corr_unit density beta fmesh_tail gamma_w chi0_n_tail buf = Except.ok buf1) :
    block_diagonal buf1.chi0_nn := by
  by_cases hdet : (1 - to_matrix_PH (fun n1 n2 : Fin (2 * nwf) =>
      if n1 = n2 then chi0_n_tail (fermionic_index nwf n1) else 0) *
      to_matrix_PH gamma_w).det = 0
  · rw [bse_tail_corr_unit_error density beta fmesh_tail gamma_w chi0_n_tail buf _ rfl hbuf
      hdet] at h
    cases h
  · obtain ⟨buf2, h2, h3, _⟩ := bse_tail_corr_unit_ok density beta fmesh_tail gamma_w
      chi0_n_tail buf _ rfl hbuf hdet
    rw [h2] at h
    cases h
    exact h3

theorem chiq_sum_nu_from_g_wk_and_gamma_PH_eq_steps {F K : Type} [Field F] [DecidableEq F]
    [AddCommGroup K] [DecidableEq K] {nb : Nat} (density : gf_mesh_imfreq F → (ℤ → F) → F)
    (slices : List (List (K × ℤ))) (mem : Fin 3 → tensor4 F nb) (kmesh : List K)
    (g_wk : ℤ → K → matrix2 F nb) (beta : F) (nwf : ℕ)
    (gamma_ph_wnn : ℤ → g2_nn_t F (2 * nwf) nb) (tail_corr_nwf : ℤ)
    (hcheck : ¬((tail_mesh beta ⟨beta, statistic_enum.Fermion, nwf⟩ tail_corr_nwf).size <
      (gf_mesh_imfreq.mk beta statistic_enum.Fermion nwf).size)) :
    chiq_sum_nu_from_g_wk_and_gamma_PH density slices mem kmesh g_wk beta nwf gamma_ph_wnn
        tail_corr_nwf =
      (slices.mapM (fun arr =>
        (arr.foldlM (chiq_sum_nu_from_g_wk_and_gamma_PH_step density kmesh g_wk beta nwf
          gamma_ph_wnn (tail_mesh beta ⟨beta, statistic_enum.Fermion, nwf⟩ tail_corr_nwf))
          (0, ⟨0, 0, mem 0, mem 1, mem 2⟩)) >>= fun st => pure st.1)) >>=
        fun parts => pure (mpi_all_reduce parts) := by
  unfold chiq_sum_nu_from_g_wk_and_gamma_PH
  simp only [hcheck, if_false]
  rfl

theorem g_wk_solver_slice_invariant {F K : Type} [Field F] [DecidableEq F] [AddCommGroup K]
    [DecidableEq K] {nb : Nat} (density : gf_mesh_imfreq F → (ℤ → F) → F) (kmesh : List K)
    (g_wk : ℤ → K → matrix2 F nb) (beta : F) (nwf : ℕ)
    (gamma_ph_wnn : ℤ → g2_nn_t F (2 * nwf) nb) (fmesh_tail : gf_mesh_imfreq F)
    (arr : List (K × ℤ))
    (hdet : ∀ kw ∈ arr, (bse_kernel (chi0_on_main_mesh fmesh_tail kmesh g_wk nwf) gamma_ph_wnn
      kw.2 kw.1).det ≠ 0)
    (st : (K → ℤ → tensor4 F nb) × bse_buffers F nwf nb) (hst : block_diagonal st.2.chi0_nn) :
    ∃ st1, arr.foldlM (chiq_sum_nu_from_g_wk_and_gamma_PH_step density kmesh g_wk beta nwf
        gamma_ph_wnn fmesh_tail) st = Except.ok st1 ∧ block_diagonal st1.2.chi0_nn ∧
      st1.1 = arr.foldl (fun q kw => set_kw q kw.1 kw.2
        (tail_corrected_trace density beta fmesh_tail
          (from_matrix_PH ((bse_kernel (chi0_on_main_mesh fmesh_tail kmesh g_wk nwf)
              gamma_ph_wnn kw.2 kw.1)⁻¹ *
            to_matrix_PH (chi0_blk (chi0_on_main_mesh fmesh_tail kmesh g_wk nwf) kw.2 kw.1)))
          (chi0_n_from_g_wk_PH kw.2 kw.1 fmesh_tail kmesh g_wk))) st.1 := by
  induction arr generalizing st with
  | nil => exact ⟨st, rfl, hst, rfl⟩
  | cons x xs ih =>
    obtain ⟨buf1, h1, h2, h3⟩ := bse_tail_corr_unit_ok density beta fmesh_tail
      (gamma_ph_wnn x.2) (chi0_n_from_g_wk_PH x.2 x.1 fmesh_tail kmesh g_wk) st.2
      (chi0_blk (chi0_on_main_mesh fmesh_tail kmesh g_wk nwf) x.2 x.1) rfl hst
      (hdet x (List.mem_cons_self x xs))
    have hval : buf1.tr_chi = tail_corrected_trace density beta fmesh_tail
        (from_matrix_PH ((bse_kernel (chi0_on_main_mesh fmesh_tail kmesh g_wk nwf)
            gamma_ph_wnn x.2 x.1)⁻¹ *
          to_matrix_PH (chi0_blk (chi0_on_main_mesh fmesh_tail kmesh g_wk nwf) x.2 x.1)))
        (chi0_n_from_g_wk_PH x.2 x.1 fmesh_tail kmesh g_wk) := by
      funext a b c d
      rw [h3 a b c d]
      unfold tail_corrected_trace bse_kernel
      ring
    obtain ⟨st2, hst2, hinv2, hval2⟩ := ih (fun kw hkw => hdet kw (List.mem_cons_of_mem x hkw))
      (set_kw st.1 x.1 x.2 buf1.tr_chi, buf1) h2
    refine ⟨st2, ?_, hinv2, ?_⟩
    · rw [List.foldlM_cons]
      have hstep : chiq_sum_nu_from_g_wk_and_gamma_PH_step density kmesh g_wk beta nwf
          gamma_ph_wnn fmesh_tail st x = Except.ok (set_kw st.1 x.1 x.2 buf1.tr_chi, buf1) := by
        unfold chiq_sum_nu_from_g_wk_and_gamma_PH_step
        simp only [h1]
        rfl
      rw [hstep]
      exact hst2
    · rw [hval2, List.foldl_cons, ← hval]

theorem g_wk_solver_ok {F K : Type} [Field F] [DecidableEq F] [AddCommGroup K]
    [DecidableEq K] {nb : Nat} (density : gf_mesh_imfreq F → (ℤ → F) → F)
    (slices : List (List (K × ℤ))) (mem : Fin 3 → tensor4 F nb) (kmesh : List K)
    (g_wk : ℤ → K → matrix2 F nb) (beta : F) (nwf : ℕ)
    (gamma_ph_wnn : ℤ → g2_nn_t F (2 * nwf) nb) (tail_corr_nwf : ℤ)
    (htail : ¬(0 < tail_corr_nwf ∧ tail_corr_nwf < nwf)) (hnd : slices.flatten.Nodup)
    (hdet : ∀ kw ∈ slices.flatten, (bse_kernel (chi0_on_main_mesh
      (tail_mesh beta ⟨beta, statistic_enum.Fermion, nwf⟩ tail_corr_nwf) kmesh g_wk nwf)
      gamma_ph_wnn kw.2 kw.1).det ≠ 0) :
    ∃ chi_kw, chiq_sum_nu_from_g_wk_and_gamma_PH density slices mem kmesh g_wk beta nwf
        gamma_ph_wnn tail_corr_nwf = Except.ok chi_kw ∧
      ∀ kw ∈ slices.flatten, chi_kw kw.1 kw.2 =
        tail_corrected_trace density beta
          (tail_mesh beta ⟨beta, statistic_enum.Fermion, nwf⟩ tail_corr_nwf)
          (from_matrix_PH ((bse_kernel (chi0_on_main_mesh
              (tail_mesh beta ⟨beta, statistic_enum.Fermion, nwf⟩ tail_corr_nwf) kmesh g_wk nwf)
              gamma_ph_wnn kw.2 kw.1)⁻¹ *
            to_matrix_PH (chi0_blk (chi0_on_main_mesh
              (tail_mesh beta ⟨beta, statistic_enum.Fermion, nwf⟩ tail_corr_nwf) kmesh g_wk nwf)
              kw.2 kw.1)))
          (chi0_n_from_g_wk_PH kw.2 kw.1
            (tail_mesh beta ⟨beta, statistic_enum.Fermion, nwf⟩ tail_corr_nwf) kmesh g_wk) := by
  have hcheck : ¬((tail_mesh beta ⟨beta, statistic_enum.Fermion, nwf⟩ tail_corr_nwf).size <
      (gf_mesh_imfreq.mk beta statistic_enum.Fermion nwf).size) :=
    fun h => htail ((tail_check_iff beta nwf tail_corr_nwf).mp h)
  rw [chiq_sum_nu_from_g_wk_and_gamma_PH_eq_steps density slices mem kmesh g_wk beta nwf
    gamma_ph_wnn tail_corr_nwf hcheck]
  have hslice : ∀ arr ∈ slices,
      ((arr.foldlM (chiq_sum_nu_from_g_wk_and_gamma_PH_step density kmesh g_wk beta nwf
          gamma_ph_wnn (tail_mesh beta ⟨beta, statistic_enum.Fermion, nwf⟩ tail_corr_nwf))
          (0, ⟨0, 0, mem 0, mem 1, mem 2⟩)) >>= fun st => pure st.1) =
      Except.ok (arr.foldl (fun q kw => set_kw q kw.1 kw.2
        (tail_corrected_trace density beta
          (tail_mesh beta ⟨beta, statistic_enum.Fermion, nwf⟩ tail_corr_nwf)
          (from_matrix_PH ((bse_kernel (chi0_on_main_mesh
              (tail_mesh beta ⟨beta, statistic_enum.Fermion, nwf⟩ tail_corr_nwf) kmesh g_wk nwf)
              gamma_ph_wnn kw.2 kw.1)⁻¹ *
            to_matrix_PH (chi0_blk (chi0_on_main_mesh
              (tail_mesh beta ⟨beta, statistic_enum.Fermion, nwf⟩ tail_corr_nwf) kmesh g_wk nwf)
              kw.2 kw.1)))
          (chi0_n_from_g_wk_PH kw.2 kw.1
            (tail_mesh beta ⟨beta, statistic_enum.Fermion, nwf⟩ tail_corr_nwf) kmesh g_wk)))
        (0 : K → ℤ → tensor4 F nb)) := by
    intro arr harr
    obtain ⟨st1, h1, _, h3⟩ := g_wk_solver_slice_invariant density kmesh g_wk beta nwf
      gamma_ph_wnn (tail_mesh beta ⟨beta, statistic_enum.Fermion, nwf⟩ tail_corr_nwf) arr
      (fun kw hkw => hdet kw (List.mem_flatten.mpr ⟨arr, harr, hkw⟩))
      (0, ⟨0, 0, mem 0, mem 1, mem 2⟩) (fun _ _ _ => rfl)
    rw [h1, ← h3]
    rfl
  rw [mapM_ok_of _ _ slices hslice]
  refine ⟨_, rfl, ?_⟩
  intro kw hmem
  rw [mpi_all_reduce_apply2, List.map_map]
  have hpart : ∀ arr : List (K × ℤ),
      ((fun p : K → ℤ → tensor4 F nb => p kw.1 kw.2) ∘ fun arr : List (K × ℤ) =>
        arr.foldl (fun q kw => set_kw q kw.1 kw.2
          (tail_corrected_trace density beta
            (tail_mesh beta ⟨beta, statistic_enum.Fermion, nwf⟩ tail_corr_nwf)
            (from_matrix_PH ((bse_kernel (chi0_on_main_mesh
                (tail_mesh beta ⟨beta, statistic_enum.Fermion, nwf⟩ tail_corr_nwf) kmesh g_wk
                nwf) gamma_ph_wnn kw.2 kw.1)⁻¹ *
              to_matrix_PH (chi0_blk (chi0_on_main_mesh
                (tail_mesh beta ⟨beta, statistic_enum.Fermion, nwf⟩ tail_corr_nwf) kmesh g_wk
                nwf) kw.2 kw.1)))
            (chi0_n_from_g_wk_PH kw.2 kw.1
              (tail_mesh beta ⟨beta, statistic_enum.Fermion, nwf⟩ tail_corr_nwf) kmesh g_wk)))
          (0 : K → ℤ → tensor4 F nb)) arr =
      if (kw.1, kw.2) ∈ arr then
        tail_corrected_trace density beta
          (tail_mesh beta ⟨beta, statistic_enum.Fermion, nwf⟩ tail_corr_nwf)
          (from_matrix_PH ((bse_kernel (chi0_on_main_mesh
              (tail_mesh beta ⟨beta, statistic_enum.Fermion, nwf⟩ tail_corr_nwf) kmesh g_wk
              nwf) gamma_ph_wnn kw.2 kw.1)⁻¹ *
            to_matrix_PH (chi0_blk (chi0_on_main_mesh
              (tail_mesh beta ⟨beta, statistic_enum.Fermion, nwf⟩ tail_corr_nwf) kmesh g_wk
              nwf) kw.2 kw.1)))
          (chi0_n_from_g_wk_PH kw.2 kw.1
            (tail_mesh beta ⟨beta, statistic_enum.Fermion, nwf⟩ tail_corr_nwf) kmesh g_wk)
      else 0 := by
    intro arr
    exact foldl_set_wn_pairs (fun k w => tail_corrected_trace density beta
      (tail_mesh beta ⟨beta, statistic_enum.Fermion, nwf⟩ tail_corr_nwf)
      (from_matrix_PH ((bse_kernel (chi0_on_main_mesh
          (tail_mesh beta ⟨beta, statistic_enum.Fermion, nwf⟩ tail_corr_nwf) kmesh g_wk
          nwf) gamma_ph_wnn w k)⁻¹ *
        to_matrix_PH (chi0_blk (chi0_on_main_mesh
          (tail_mesh beta ⟨beta, statistic_enum.Fermion, nwf⟩ tail_corr_nwf) kmesh g_wk
          nwf) w k)))
      (chi0_n_from_g_wk_PH w k
        (tail_mesh beta ⟨beta, statistic_enum.Fermion, nwf⟩ tail_corr_nwf) kmesh g_wk))
      arr 0 kw.1 kw.2
  rw [List.map_congr_left (fun arr _ => hpart arr)]
  exact (sum_scatter (fun kw : K × ℤ => tail_corrected_trace density beta
      (tail_mesh beta ⟨beta, statistic_enum.Fermion, nwf⟩ tail_corr_nwf)
      (from_matrix_PH ((bse_kernel (chi0_on_main_mesh
          (tail_mesh beta ⟨beta, statistic_enum.Fermion, nwf⟩ tail_corr_nwf) kmesh g_wk
          nwf) gamma_ph_wnn kw.2 kw.1)⁻¹ *
        to_matrix_PH (chi0_blk (chi0_on_main_mesh
          (tail_mesh beta ⟨beta, statistic_enum.Fermion, nwf⟩ tail_corr_nwf) kmesh g_wk
          nwf) kw.2 kw.1)))
      (chi0_n_from_g_wk_PH kw.2 kw.1
        (tail_mesh beta ⟨beta, statistic_enum.Fermion, nwf⟩ tail_corr_nwf) kmesh g_wk))
    slices hnd (kw.1, kw.2)).trans (if_pos hmem)

theorem g_wk_solver_fails {F K : Type} [Field F] [DecidableEq F] [AddCommGroup K]
    [DecidableEq K] {nb : Nat} (density : gf_mesh_imfreq F → (ℤ → F) → F)
    (slices : List (List (K × ℤ))) (mem : Fin 3 → tensor4 F nb) (kmesh : List K)
    (g_wk : ℤ → K → matrix2 F nb) (beta : F) (nwf : ℕ)
    (gamma_ph_wnn : ℤ → g2_nn_t F (2 * nwf) nb) (tail_corr_nwf : ℤ) (kw : K × ℤ)
    (hkw : kw ∈ slices.flatten)
    (hdet : (bse_kernel (chi0_on_main_mesh
      (tail_mesh beta ⟨beta, statistic_enum.Fermion, nwf⟩ tail_corr_nwf) kmesh g_wk nwf)
      gamma_ph_wnn kw.2 kw.1).det = 0) :
    ∃ e, chiq_sum_nu_from_g_wk_and_gamma_PH density slices mem kmesh g_wk beta nwf
      gamma_ph_wnn tail_corr_nwf = Except.error e := by
  by_cases hcheck : (tail_mesh beta ⟨beta, statistic_enum.Fermion, nwf⟩ tail_corr_nwf).size <
      (gf_mesh_imfreq.mk beta statistic_enum.Fermion nwf).size
  · refine ⟨tprf_error.tail_size, ?_⟩
    unfold chiq_sum_nu_from_g_wk_and_gamma_PH
    simp only [hcheck, if_true]
    rfl
  · rw [chiq_sum_nu_from_g_wk_and_gamma_PH_eq_steps density slices mem kmesh g_wk beta nwf
      gamma_ph_wnn tail_corr_nwf hcheck]
    obtain ⟨arr, harr, hmem⟩ := List.mem_flatten.mp hkw
    have hrank : ∃ e, ((arr.foldlM (chiq_sum_nu_from_g_wk_and_gamma_PH_step density kmesh g_wk
        beta nwf gamma_ph_wnn
        (tail_mesh beta ⟨beta, statistic_enum.Fermion, nwf⟩ tail_corr_nwf))
        (0, ⟨0, 0, mem 0, mem 1, mem 2⟩)) >>= fun st => pure st.1) =
        (Except.error e : Except tprf_error (K → ℤ → tensor4 F nb)) := by
      obtain ⟨e, he⟩ := foldlM_fails_of
        (fun st : (K → ℤ → tensor4 F nb) × bse_buffers F nwf nb => block_diagonal st.2.chi0_nn)
        (chiq_sum_nu_from_g_wk_and_gamma_PH_step density kmesh g_wk beta nwf gamma_ph_wnn
          (tail_mesh beta ⟨beta, statistic_enum.Fermion, nwf⟩ tail_corr_nwf))
        (by
          intro s x s1 hs hstep
          unfold chiq_sum_nu_from_g_wk_and_gamma_PH_step at hstep
          cases hu : bse_tail_corr_unit density beta
              (tail_mesh beta ⟨beta, statistic_enum.Fermion, nwf⟩ tail_corr_nwf)
              (gamma_ph_wnn x.2) (chi0_n_from_g_wk_PH x.2 x.1
                (tail_mesh beta ⟨beta, statistic_enum.Fermion, nwf⟩ tail_corr_nwf) kmesh g_wk)
              s.2 with
          | error e1 =>
            simp only [hu] at hstep
            cases hstep
          | ok buf1 =>
            simp only [hu] at hstep
            have hs1 : s1 = (set_kw s.1 x.1 x.2 buf1.tr_chi, buf1) :=
              (Except.ok.inj hstep).symm
            rw [hs1]
            exact bse_tail_corr_unit_preserves density beta _ _ _ s.2 buf1 hs hu)
        arr kw hmem
        (by
          intro s hs
          refine ⟨tprf_error.not_invertible, ?_⟩
          unfold chiq_sum_nu_from_g_wk_and_gamma_PH_step
          simp only [bse_tail_corr_unit_error density beta _ (gamma_ph_wnn kw.2)
            (chi0_n_from_g_wk_PH kw.2 kw.1
              (tail_mesh beta ⟨beta, statistic_enum.Fermion, nwf⟩ tail_corr_nwf) kmesh g_wk)
            s.2 (chi0_blk (chi0_on_main_mesh
              (tail_mesh beta ⟨beta, statistic_enum.Fermion, nwf⟩ tail_corr_nwf) kmesh g_wk nwf)
              kw.2 kw.1) rfl hs hdet]
          rfl)
        (0, ⟨0, 0, mem 0, mem 1, mem 2⟩) (fun _ _ _ => rfl)
      exact ⟨e, by rw [he]; rfl⟩
    obtain ⟨e, he⟩ := mapM_fails_of (fun arr : List (K × ℤ) =>
      (arr.foldlM (chiq_sum_nu_from_g_wk_and_gamma_PH_step density kmesh g_wk beta nwf
        gamma_ph_wnn (tail_mesh beta ⟨beta, statistic_enum.Fermion, nwf⟩ tail_corr_nwf))
        (0, ⟨0, 0, mem 0, mem 1, mem 2⟩)) >>= fun st => pure st.1) slices arr harr hrank
    exact ⟨e, by rw [he]; rfl⟩

theorem bse_tail_corr_unit_value {F K : Type} [Field F] [DecidableEq F] [AddCommGroup K]
    {nb : Nat} (density : gf_mesh_imfreq F → (ℤ → F) → F) (kmesh : List K)
    (g_wk : ℤ → K → matrix2 F nb) (beta : F) (nwf : ℕ)
    (gamma_ph_wnn : ℤ → g2_nn_t F (2 * nwf) nb) (fmesh_tail : gf_mesh_imfreq F) (kw : K × ℤ)
    (buf : bse_buffers F nwf nb) (hbuf : block_diagonal buf.chi0_nn)
    (hdet : (bse_kernel (chi0_on_main_mesh fmesh_tail kmesh g_wk nwf) gamma_ph_wnn
      kw.2 kw.1).det ≠ 0) :
    ∃ buf1, bse_tail_corr_unit density beta fmesh_tail (gamma_ph_wnn kw.2)
        (chi0_n_from_g_wk_PH kw.2 kw.1 fmesh_tail kmesh g_wk) buf = Except.ok buf1 ∧
      buf1.tr_chi = tail_corrected_trace density beta fmesh_tail
        (from_matrix_PH ((bse_kernel (chi0_on_main_mesh fmesh_tail kmesh g_wk nwf)
            gamma_ph_wnn kw.2 kw.1)⁻¹ *
          to_matrix_PH (chi0_blk (chi0_on_main_mesh fmesh_tail kmesh g_wk nwf) kw.2 kw.1)))
        (chi0_n_from_g_wk_PH kw.2 kw.1 fmesh_tail kmesh g_wk) := by
  obtain ⟨buf1, h1, _, h3⟩ := bse_tail_corr_unit_ok density beta fmesh_tail
    (gamma_ph_wnn kw.2) (chi0_n_from_g_wk_PH kw.2 kw.1 fmesh_tail kmesh g_wk) buf
    (chi0_blk (chi0_on_main_mesh fmesh_tail kmesh g_wk nwf) kw.2 kw.1) rfl hbuf hdet
  refine ⟨buf1, h1, ?_⟩
  funext a b c d
  rw [h3 a b c d]
  unfold tail_corrected_trace bse_kernel
  ring

/-! ## Lemmas: worked examples with a singular kernel -/

theorem bse_kernel_unit_example_det (w : ℤ) (k : Fin 2) :
    (bse_kernel chi0q_unit_example gamma_ph_example w k).det = 0 := by
  have h : bse_kernel chi0q_unit_example gamma_ph_example w k = 0 := by
    funext r c
    obtain ⟨n1, a, b⟩ := r
    obtain ⟨n2, d, e⟩ := c
    have ha : a = d := Subsingleton.elim a d
    have hb : b = e := Subsingleton.elim b e
    by_cases hn : n1 = n2
    · simp [bse_kernel, Matrix.mul_apply, to_matrix_PH, chi0_blk, chi0q_unit_example,
        gamma_ph_example, Fintype.sum_prod_type, Matrix.one_apply, Fin.sum_univ_two, hn, ha, hb]
    · simp [bse_kernel, Matrix.mul_apply, to_matrix_PH, chi0_blk, chi0q_unit_example,
        gamma_ph_example, Fintype.sum_prod_type, Matrix.one_apply, Fin.sum_univ_two, hn]
  rw [h, Matrix.det_zero ⟨((0 : Fin 2), (0 : Fin 1), (0 : Fin 1))⟩]

theorem chi0_on_main_mesh_unit_example (w : ℤ) (n : Fin (2 * 1)) (k : Fin 2) :
    chi0_on_main_mesh (tail_mesh (3 : ℚ) ⟨3, statistic_enum.Fermion, ((1 : ℕ) : ℤ)⟩ 0)
      [(0 : Fin 2), 1] g_wk_unit_example 1 w n k = fun _ _ _ _ => -3 := by
  funext a b c d
  unfold chi0_on_main_mesh
  have hn : fermionic_index 1 n ∈
      (tail_mesh (3 : ℚ) ⟨3, statistic_enum.Fermion, ((1 : ℕ) : ℤ)⟩ 0).points := by
    revert n
    decide
  rw [chi0_n_from_g_wk_PH_apply w k _ _ _ _ hn]
  simp [g_wk_unit_example, tail_mesh]
  norm_num

theorem bse_kernel_singular_example_det (w : ℤ) (k : Fin 2) :
    (bse_kernel (chi0_on_main_mesh
      (tail_mesh (3 : ℚ) ⟨3, statistic_enum.Fermion, ((1 : ℕ) : ℤ)⟩ 0) [(0 : Fin 2), 1]
      g_wk_unit_example 1) gamma_ph_singular_example w k).det = 0 := by
  have h : bse_kernel (chi0_on_main_mesh
      (tail_mesh (3 : ℚ) ⟨3, statistic_enum.Fermion, ((1 : ℕ) : ℤ)⟩ 0) [(0 : Fin 2), 1]
      g_wk_unit_example 1) gamma_ph_singular_example w k = 0 := by
    funext r c
    obtain ⟨n1, a, b⟩ := r
    obtain ⟨n2, d, e⟩ := c
    have ha : a = d := Subsingleton.elim a d
    have hb : b = e := Subsingleton.elim b e
    by_cases hn : n1 = n2
    · have hc := congrFun (congrFun (congrFun (congrFun
        (chi0_on_main_mesh_unit_example w n2 k) d) e) 0) 0
      simp only [Nat.cast_one] at hc
      simp [bse_kernel, Matrix.mul_apply, to_matrix_PH, chi0_blk, gamma_ph_singular_example,
        Fintype.sum_prod_type, Matrix.one_apply, hn, ha, hb, hc]
    · simp [bse_kernel, Matrix.mul_apply, to_matrix_PH, chi0_blk,
        chi0_on_main_mesh_unit_example, gamma_ph_singular_example, Fintype.sum_prod_type,
        Matrix.one_apply, hn]
  rw [h, Matrix.det_zero ⟨((0 : Fin (2 * 1)), (0 : Fin 1), (0 : Fin 1))⟩]

/-! ## Lemmas: Hubbard atom over the complex numbers -/

theorem fermionic_value_complex (sqrt abs : ℂ → ℂ) (beta : ℝ) (n : ℤ) :
    fermionic_value ⟨Complex.exp, sqrt, abs, Complex.I, (Real.pi : ℂ)⟩ (beta : ℂ) n =
      (((2 * (n : ℝ) + 1) * Real.pi / beta : ℝ) : ℂ) * Complex.I := by
  unfold fermionic_value matsubara_value
  simp only [if_true]
  push_cast
  ring

theorem bosonic_value_complex (sqrt abs : ℂ → ℂ) (beta : ℝ) (w : ℤ) :
    bosonic_value ⟨Complex.exp, sqrt, abs, Complex.I, (Real.pi : ℂ)⟩ (beta : ℂ) w =
      (((2 * (w : ℝ)) * Real.pi / beta : ℝ) : ℂ) * Complex.I := by
  unfold bosonic_value matsubara_value
  simp only [show ¬(statistic_enum.Boson = statistic_enum.Fermion) by decide, if_false]
  push_cast
  ring

theorem pole_factor_complex (U a : ℝ) :
    hubbard_pole_factor (U : ℂ) ((a : ℂ) * Complex.I) = ((a ^ 2 + U ^ 2 / 4 : ℝ) : ℂ) := by
  unfold hubbard_pole_factor
  push_cast
  have h : Complex.I * Complex.I = -1 := Complex.I_mul_I
  linear_combination (-(a : ℂ) ^ 2) * h

theorem shifted_pole_factor_complex (U a b : ℝ) :
    hubbard_shifted_pole_factor (U : ℂ) ((a : ℂ) * Complex.I) ((b : ℂ) * Complex.I) =
      (((a + b) ^ 2 + U ^ 2 / 4 : ℝ) : ℂ) := by
  unfold hubbard_shifted_pole_factor
  push_cast
  have h : Complex.I * Complex.I = -1 := Complex.I_mul_I
  linear_combination (-((a : ℂ) + b) ^ 2) * h

theorem fermionic_frequency_ne_zero (beta : ℝ) (hb : 0 < beta) (n : ℤ) :
    (2 * (n : ℝ) + 1) * Real.pi / beta ≠ 0 := by
  have h1 : (2 * (n : ℝ) + 1) ≠ 0 := by
    have h2 : (2 * n + 1 : ℤ) ≠ 0 := by omega
    exact_mod_cast h2
  exact div_ne_zero (mul_ne_zero h1 Real.pi_ne_zero) (ne_of_gt hb)

theorem hubbard_C_zero_complex (sqrt abs : ℂ → ℂ) (beta U : ℝ) :
    hubbard_D_denominator ⟨Complex.exp, sqrt, abs, Complex.I, (Real.pi : ℂ)⟩ (beta : ℂ)
        (U : ℂ) 0 =
      ((1 + beta * U * (1 / 2) / (1 + Real.exp (-beta * U * (1 / 2))) : ℝ) : ℂ) := by
  unfold hubbard_D_denominator hubbard_C hubbard_C_denominator
  simp only [if_true]
  push_cast
  ring

theorem one_add_div_exp_pos (x : ℝ) : 0 < 1 + x / (1 + Real.exp (-x)) := by
  have hpos : 0 < 1 + Real.exp (-x) := by positivity
  have hexp : -x + 1 ≤ Real.exp (-x) := Real.add_one_le_exp (-x)
  have h : 1 + x / (1 + Real.exp (-x)) = (1 + Real.exp (-x) + x) / (1 + Real.exp (-x)) := by
    field_simp
  rw [h]
  apply div_pos _ hpos
  linarith

/-! ## Lemmas: mesh inclusion and the copy of the tail bubble -/

theorem gf_mesh_imfreq_mem_points {F : Type} (m : gf_mesh_imfreq F) (n : ℤ) :
    n ∈ m.points ↔ m.first_index ≤ n ∧ n ≤ m.last_index := by
  unfold gf_mesh_imfreq.points gf_mesh_imfreq.size
  simp only [List.mem_map, List.mem_range]
  constructor
  · rintro ⟨i, hi, rfl⟩
    omega
  · rintro ⟨h1, h2⟩
    refine ⟨(n - m.first_index).toNat, ?_, ?_⟩
    · omega
    · omega

theorem fermionic_mesh_mem_points {F : Type} (beta : F) (nwf n : ℤ) :
    n ∈ (gf_mesh_imfreq.mk beta statistic_enum.Fermion nwf).points ↔ -nwf ≤ n ∧ n < nwf := by
  rw [gf_mesh_imfreq_mem_points]
  simp only [gf_mesh_imfreq.first_index, gf_mesh_imfreq.last_index, if_true]
  omega

theorem fermionic_index_mem_points {F : Type} (beta : F) (nwf : ℕ) (i : Fin (2 * nwf)) :
    fermionic_index nwf i ∈ (gf_mesh_imfreq.mk beta statistic_enum.Fermion nwf).points := by
  rw [fermionic_mesh_mem_points]
  unfold fermionic_index
  have h := i.2
  omega

theorem tail_mesh_beta {F : Type} (beta : F) (nwf : ℕ) (tail_corr_nwf : ℤ) :
    (tail_mesh beta ⟨beta, statistic_enum.Fermion, nwf⟩ tail_corr_nwf).beta = beta := by
  unfold tail_mesh
  by_cases h : tail_corr_nwf > 0
  · rw [if_pos h]
  · rw [if_neg h]

theorem tail_mesh_contains {F : Type} (beta : F) (nwf : ℕ) (tail_corr_nwf : ℤ)
    (hsize : ¬ (tail_mesh beta ⟨beta, statistic_enum.Fermion, nwf⟩ tail_corr_nwf).size <
      (gf_mesh_imfreq.mk beta statistic_enum.Fermion nwf).size)
    (n : ℤ) (hn : n ∈ (gf_mesh_imfreq.mk beta statistic_enum.Fermion nwf).points) :
    n ∈ (tail_mesh beta ⟨beta, statistic_enum.Fermion, nwf⟩ tail_corr_nwf).points := by
  rw [tail_check_iff] at hsize
  unfold tail_mesh
  by_cases h : tail_corr_nwf > 0
  · rw [if_pos h, fermionic_mesh_mem_points]
    rw [fermionic_mesh_mem_points] at hn
    omega
  · rw [if_neg h]
    exact hn

theorem chi0_n_from_g_wk_PH_restrict {F K : Type} [Field F] [AddCommGroup K] {nb : Nat} (w : ℤ)
    (q : K) (fmesh fmesh_tail : gf_mesh_imfreq F) (kmesh : List K)
    (g_wk : ℤ → K → matrix2 F nb) (hbeta : fmesh.beta = fmesh_tail.beta) (n : ℤ)
    (hn : n ∈ fmesh.points) (hnt : n ∈ fmesh_tail.points) :
    chi0_n_from_g_wk_PH w q fmesh_tail kmesh g_wk n =
      chi0_n_from_g_wk_PH w q fmesh kmesh g_wk n := by
  funext a b c d
  rw [chi0_n_from_g_wk_PH_apply w q fmesh_tail kmesh g_wk n hnt,
    chi0_n_from_g_wk_PH_apply w q fmesh kmesh g_wk n hn, hbeta]

theorem bse_tail_corr_unit_chi0_n {F : Type} [Field F] [DecidableEq F] {nwf nb : Nat}
    (density : gf_mesh_imfreq F → (ℤ → F) → F) (beta : F) (fmesh_tail : gf_mesh_imfreq F)
    (gamma_w : g2_nn_t F (2 * nwf) nb) (chi0_n_tail : ℤ → tensor4 F nb)
    (buf buf1 : bse_buffers F nwf nb)
    (h : bse_tail_corr_unit density beta fmesh_tail gamma_w chi0_n_tail buf = Except.ok buf1)
    (i : Fin (2 * nwf)) :
    buf1.chi0_n i = chi0_n_tail (fermionic_index nwf i) := by
  unfold bse_tail_corr_unit at h
  simp only [bind, Except.bind, pure, Except.pure] at h
  split at h
  · cases h
  · cases h
    simp only []
    rw [foldl_update_each (fun n => chi0_n_tail (fermionic_index nwf n)),
      if_pos (List.mem_finRange i)]

/-! ## Lemmas: the atomic Green's function -/

theorem greens_function_two_pole {F : Type} [Field F] (U iw : F) (h2 : (2 : F) ≠ 0)
    (h0 : iw ≠ 0) (hm : iw - U / 2 ≠ 0) (hp : iw + U / 2 ≠ 0) :
    greens_function_denominator U iw ≠ 0 ∧
      1 / greens_function_denominator U iw =
        1 / 2 * (1 / (iw - U / 2) + 1 / (iw + U / 2)) := by
  have h4 : (4 : F) ≠ 0 := by
    have h : (4 : F) = 2 * 2 := by norm_num
    rw [h]
    exact mul_ne_zero h2 h2
  have hin : greens_function_inner_denominator iw ≠ 0 := mul_ne_zero h4 h0
  have hprod : greens_function_denominator U iw * greens_function_inner_denominator iw =
      4 * ((iw - U / 2) * (iw + U / 2)) := by
    unfold greens_function_denominator
    rw [sub_mul, div_mul_cancel₀ _ hin]
    unfold greens_function_inner_denominator
    field_simp
    ring
  have hden : greens_function_denominator U iw ≠ 0 := by
    intro h
    rw [h, zero_mul] at hprod
    exact mul_ne_zero h4 (mul_ne_zero hm hp) hprod.symm
  refine ⟨hden, ?_⟩
  have hval : greens_function_denominator U iw =
      4 * ((iw - U / 2) * (iw + U / 2)) / greens_function_inner_denominator iw := by
    rw [← hprod, mul_div_assoc, div_self hin, mul_one]
  have hm1 : iw * 2 - U ≠ 0 := by
    have h : iw * 2 - U = 2 * (iw - U / 2) := by
      field_simp
    rw [h]
    exact mul_ne_zero h2 hm
  have hp1 : iw * 2 + U ≠ 0 := by
    have h : iw * 2 + U = 2 * (iw + U / 2) := by
      field_simp
    rw [h]
    exact mul_ne_zero h2 hp
  rw [hval]
  unfold greens_function_inner_denominator
  field_simp
  ring

theorem fermionic_value_add_real_ne_zero (sqrt abs : ℂ → ℂ) (beta : ℝ) (hb : 0 < beta)
    (n : ℤ) (x : ℝ) :
    fermionic_value ⟨Complex.exp, sqrt, abs, Complex.I, (Real.pi : ℂ)⟩ (beta : ℂ) n +
      (x : ℂ) ≠ 0 := by
  rw [fermionic_value_complex]
  intro h
  have him := congrArg Complex.im h
  simp at him
  rcases him with h1 | h1
  · rcases h1 with h1 | h1
    · have h2 : (2 * n + 1 : ℤ) ≠ 0 := by omega
      have h3 : ((2 * n + 1 : ℤ) : ℝ) = 0 := by push_cast; exact h1
      exact h2 (by exact_mod_cast h3)
    · exact Real.pi_ne_zero h1
  · exact (ne_of_gt hb) h1

/-! ## Lemmas: the propagator read from its table -/

theorem foldlM_ok_of {S X E : Type} (f : S → X → Except E S) (g : S → X → S) (l : List X)
    (h : ∀ x ∈ l, ∀ s, f s x = Except.ok (g s x)) (s : S) :
    l.foldlM f s = Except.ok (l.foldl g s) := by
  induction l generalizing s with
  | nil => rfl
  | cons x xs ih =>
    rw [List.foldlM_cons, h x (List.mem_cons_self x xs) s, List.foldl_cons]
    exact ih (fun y hy => h y (List.mem_cons_of_mem x hy)) (g s x)

theorem g_wk_bracket_ok {F K : Type} {nb : Nat} (fmesh_large : gf_mesh_imfreq F)
    (g_wk : ℤ → K → matrix2 F nb) (n : ℤ) (k : K) (hn : n ∈ fmesh_large.points) :
    g_wk_bracket fmesh_large g_wk n k = Except.ok (g_wk n k) := by
  unfold g_wk_bracket
  rw [if_pos hn]

theorem g_wk_bracket_congr {F K : Type} {nb : Nat} (fmesh_large : gf_mesh_imfreq F)
    (g_wk g_wk1 : ℤ → K → matrix2 F nb)
    (h : ∀ n ∈ fmesh_large.points, ∀ k, g_wk n k = g_wk1 n k) (n : ℤ) (k : K) :
    g_wk_bracket fmesh_large g_wk n k = g_wk_bracket fmesh_large g_wk1 n k := by
  unfold g_wk_bracket
  by_cases hn : n ∈ fmesh_large.points
  · rw [if_pos hn, if_pos hn, h n hn k]
  · rw [if_neg hn, if_neg hn]

theorem chi0_n_from_g_wk_PH_on_table_ok {F K : Type} [Field F] [AddCommGroup K] {nb : Nat}
    (w : ℤ) (q : K) (fmesh fmesh_large : gf_mesh_imfreq F) (kmesh : List K)
    (g_wk : ℤ → K → matrix2 F nb)
    (h : ∀ n ∈ fmesh.points, n ∈ fmesh_large.points ∧ n + w ∈ fmesh_large.points) :
    chi0_n_from_g_wk_PH_on_table w q fmesh fmesh_large kmesh g_wk =
      Except.ok (chi0_n_from_g_wk_PH w q fmesh kmesh g_wk) := by
  unfold chi0_n_from_g_wk_PH_on_table chi0_n_from_g_wk_PH
  rw [foldlM_ok_of _ (fun (chi0_n : ℤ → tensor4 F nb) n =>
    kmesh.foldl (fun (chi0_n : ℤ → tensor4 F nb) k =>
      Function.update chi0_n n
        (fun a b c d => chi0_n n a b c d - g_wk n k d a * g_wk (n + w) (k - q) b c)) chi0_n)]
  · rfl
  · intro n hn s
    apply foldlM_ok_of
    intro k _ s1
    rw [g_wk_bracket_ok fmesh_large g_wk n k (h n hn).1,
      g_wk_bracket_ok fmesh_large g_wk (n + w) (k - q) (h n hn).2]
    rfl

theorem chi0q_from_g_wk_PH_lookups_mem {F : Type} (nw nnu : ℤ) (fmesh_large : gf_mesh_imfreq F)
    (w n : ℤ)
    (hw : w ∈ (gf_mesh_imfreq.mk fmesh_large.beta statistic_enum.Boson nw).points)
    (hn : n ∈ (gf_mesh_imfreq.mk fmesh_large.beta statistic_enum.Fermion nnu).points) :
    n ∈ chi0q_from_g_wk_PH_lookups nw nnu fmesh_large ∧
      n + w ∈ chi0q_from_g_wk_PH_lookups nw nnu fmesh_large := by
  unfold chi0q_from_g_wk_PH_lookups chi0_n_from_g_wk_PH_lookups
  simp only [List.mem_flatMap]
  exact ⟨⟨w, hw, n, hn, by simp⟩, ⟨w, hw, n, hn, by simp⟩⟩

theorem chi0q_from_g_wk_PH_ok {F K : Type} [Field F] [AddCommGroup K] [DecidableEq K]
    {nb : Nat} (nw nnu : ℤ) (fmesh_large : gf_mesh_imfreq F) (kmesh : List K)
    (g_wk : ℤ → K → matrix2 F nb) (hassert : chi0q_from_g_wk_PH_asserted nnu fmesh_large)
    (hrange : ∀ l ∈ chi0q_from_g_wk_PH_lookups nw nnu fmesh_large, l ∈ fmesh_large.points) :
    chi0q_from_g_wk_PH nw nnu fmesh_large kmesh g_wk =
      Except.ok ((gf_mesh_imfreq.mk fmesh_large.beta statistic_enum.Boson nw).points.foldl
        (fun (chi0_wnk : ℤ → ℤ → K → tensor4 F nb) w =>
          kmesh.foldl (fun (chi0_wnk : ℤ → ℤ → K → tensor4 F nb) q =>
            set_slice_wq chi0_wnk w q (chi0_n_from_g_wk_PH w q
              (gf_mesh_imfreq.mk fmesh_large.beta statistic_enum.Fermion nnu) kmesh g_wk))
            chi0_wnk) 0) := by
  unfold chi0q_from_g_wk_PH_asserted at hassert
  unfold chi0q_from_g_wk_PH
  simp only []
  rw [if_pos hassert]
  apply foldlM_ok_of
  intro w hw s
  apply foldlM_ok_of
  intro q _ s1
  rw [chi0_n_from_g_wk_PH_on_table_ok w q _ fmesh_large kmesh g_wk (fun n hn =>
    ⟨hrange n (chi0q_from_g_wk_PH_lookups_mem nw nnu fmesh_large w n hw hn).1,
      hrange (n + w) (chi0q_from_g_wk_PH_lookups_mem nw nnu fmesh_large w n hw hn).2⟩)]
  rfl

theorem chi0q_from_g_wk_PH_congr {F K : Type} [Field F] [AddCommGroup K] [DecidableEq K]
    {nb : Nat} (nw nnu : ℤ) (fmesh_large : gf_mesh_imfreq F) (kmesh : List K)
    (g_wk g_wk1 : ℤ → K → matrix2 F nb)
    (h : ∀ n ∈ fmesh_large.points, ∀ k, g_wk n k = g_wk1 n k) :
    chi0q_from_g_wk_PH nw nnu fmesh_large kmesh g_wk =
      chi0q_from_g_wk_PH nw nnu fmesh_large kmesh g_wk1 := by
  unfold chi0q_from_g_wk_PH chi0_n_from_g_wk_PH_on_table
  simp only [g_wk_bracket_congr fmesh_large g_wk g_wk1 h]

theorem chi0q_from_g_wk_PH_assertion {F K : Type} [Field F] [AddCommGroup K] [DecidableEq K]
    {nb : Nat} (nw nnu : ℤ) (fmesh_large : gf_mesh_imfreq F) (kmesh : List K)
    (g_wk : ℤ → K → matrix2 F nb) (hassert : ¬ chi0q_from_g_wk_PH_asserted nnu fmesh_large) :
    chi0q_from_g_wk_PH nw nnu fmesh_large kmesh g_wk =
      Except.error tprf_error.assertion_failed := by
  unfold chi0q_from_g_wk_PH_asserted at hassert
  unfold chi0q_from_g_wk_PH
  simp only []
  rw [if_neg hassert]

theorem chi0q_real_space_path_apply {F K : Type} [Field F] [Fintype K] [AddCommGroup K]
    [DecidableEq K] {nb : Nat} (ph : lattice_phase F K) (nw nnu : ℤ)
    (fmesh_large : gf_mesh_imfreq F) (kmesh : List K) (rslices : List (List K))
    (slices : List (List (ℤ × ℤ))) (g_wk g_nr : ℤ → K → matrix2 F nb)
    (hk : kmesh.Nodup) (hall : ∀ k, k ∈ kmesh)
    (hr : mpi_view_of (make_adjoint_mesh kmesh) rslices)
    (hs : mpi_view_of (List.product
      (gf_mesh_imfreq.mk fmesh_large.beta statistic_enum.Boson nw).points
      (gf_mesh_imfreq.mk fmesh_large.beta statistic_enum.Fermion nnu).points) slices)
    (w n : ℤ) (q : K)
    (hw : w ∈ (gf_mesh_imfreq.mk fmesh_large.beta statistic_enum.Boson nw).points)
    (hn : n ∈ (gf_mesh_imfreq.mk fmesh_large.beta statistic_enum.Fermion nnu).points)
    (hgn : ∀ r, g_nr n r = gr_from_gk ph g_wk n r)
    (hgnw : ∀ r, g_nr (n + w) r = gr_from_gk ph g_wk (n + w) r)
    (a b c d : Fin nb) :
    chi0q_from_chi0r ph slices
        (chi0r_from_gr_PH rslices nw nnu fmesh_large g_nr) w n q a b c d =
      -(fmesh_large.beta / (kmesh.length : F)) *
        (kmesh.map (fun k1 => g_wk n k1 d a * g_wk (n + w) (k1 - q) b c)).sum := by
  unfold mpi_view_of at hr hs
  unfold make_adjoint_mesh at hr
  have hnd : (List.product
      (gf_mesh_imfreq.mk fmesh_large.beta statistic_enum.Boson nw).points
      (gf_mesh_imfreq.mk fmesh_large.beta statistic_enum.Fermion nnu).points).Nodup :=
    List.Nodup.product (gf_mesh_imfreq_points_nodup _) (gf_mesh_imfreq_points_nodup _)
  have hmem : (w, n) ∈ List.product
      (gf_mesh_imfreq.mk fmesh_large.beta statistic_enum.Boson nw).points
      (gf_mesh_imfreq.mk fmesh_large.beta statistic_enum.Fermion nnu).points :=
    List.mem_product.mpr ⟨hw, hn⟩
  rw [chi0q_from_chi0r_apply ph slices _ (hs ▸ hnd) w n (hs ▸ hmem), fourier_r_to_k_apply4]
  have hsite : ∀ r : K,
      chi0r_from_gr_PH rslices nw nnu fmesh_large g_nr w n r a b c d =
        -fmesh_large.beta *
          ((Fintype.card K : F)⁻¹ * ∑ k, ph.phase (-k) r * g_wk n k d a) *
          ((Fintype.card K : F)⁻¹ * ∑ k1, ph.phase (-k1) (-r) * g_wk (n + w) k1 b c) := by
    intro r
    rw [chi0r_from_gr_PH_apply rslices nw nnu fmesh_large g_nr (hr ▸ hk) w n r
      hw hn (hr ▸ hall r), hgn, hgnw]
    simp only [gr_from_gk_apply]
  rw [Finset.sum_congr rfl (fun r _ => congrArg (fun x => ph.phase q r * x) (hsite r)),
    convolution_core ph fmesh_large.beta q (fun k => g_wk n k d a)
      (fun k => g_wk (n + w) k b c),
    list_sum_eq_univ_sum kmesh hk hall, list_length_eq_card kmesh hk hall]

/-! ## Lemmas: Bethe-Salpeter loop with the stored blocks -/

theorem stored_step_apply {F W K : Type} [Field F] [DecidableEq F] [DecidableEq W]
    [DecidableEq K] {nf nb : Nat} (chi0q : W → Fin nf → K → tensor4 F nb)
    (gamma_ph : W → g2_nn_t F nf nb) (k : K) (w : W)
    (st : (K → W → Option (g2_nn_t F nf nb)) × g2_nn_t F nf nb) :
    chiq_from_chi0q_and_gamma_PH_stored_step chi0q gamma_ph k st w =
      (set_kw st.1 k w (if (bse_kernel chi0q gamma_ph w k).det = 0 then none
        else some (from_matrix_PH ((bse_kernel chi0q gamma_ph w k)⁻¹ *
          to_matrix_PH (chi0_blk chi0q w k)))), chi0_blk chi0q w k) := by
  unfold chiq_from_chi0q_and_gamma_PH_stored_step
  simp only [fill_chi0_eq_blk]
  have hden : to_matrix_PH (identity_PH nf nb - product_PH (chi0_blk chi0q w k) (gamma_ph w)) =
      bse_kernel chi0q gamma_ph w k := rfl
  by_cases h : (bse_kernel chi0q gamma_ph w k).det = 0
  · rw [inverse_PH_error _ (by rw [hden]; exact h), if_pos h]
    rfl
  · rw [inverse_PH_ok _ (by rw [hden]; exact h), if_neg h, hden]
    rfl

theorem foldl_stored_step {F W K : Type} [Field F] [DecidableEq F] [DecidableEq W]
    [DecidableEq K] {nf nb : Nat} (chi0q : W → Fin nf → K → tensor4 F nb)
    (gamma_ph : W → g2_nn_t F nf nb) (k : K) (mb : List W)
    (st : (K → W → Option (g2_nn_t F nf nb)) × g2_nn_t F nf nb) :
    (mb.foldl (chiq_from_chi0q_and_gamma_PH_stored_step chi0q gamma_ph k) st).1 =
      mb.foldl (fun q w => set_kw q k w (if (bse_kernel chi0q gamma_ph w k).det = 0 then none
        else some (from_matrix_PH ((bse_kernel chi0q gamma_ph w k)⁻¹ *
          to_matrix_PH (chi0_blk chi0q w k))))) st.1 := by
  induction mb generalizing st with
  | nil => rfl
  | cons x xs ih =>
    rw [List.foldl_cons, List.foldl_cons, ih, stored_step_apply]

theorem chiq_from_chi0q_and_gamma_PH_stored_apply {F W K : Type} [Field F] [DecidableEq F]
    [DecidableEq W] [DecidableEq K] {nf nb : Nat} (mb : List W) (mbz : List K)
    (chi0q : W → Fin nf → K → tensor4 F nb) (gamma_ph : W → g2_nn_t F nf nb) (k : K) (w : W)
    (hk : k ∈ mbz) (hw : w ∈ mb) :
    chiq_from_chi0q_and_gamma_PH_stored mb mbz chi0q gamma_ph k w =
      if (bse_kernel chi0q gamma_ph w k).det = 0 then none
      else some (from_matrix_PH ((bse_kernel chi0q gamma_ph w k)⁻¹ *
        to_matrix_PH (chi0_blk chi0q w k))) := by
  unfold chiq_from_chi0q_and_gamma_PH_stored
  simp only [foldl_stored_step]
  rw [foldl_set_kw (fun k w => if (bse_kernel chi0q gamma_ph w k).det = 0 then none
    else some (from_matrix_PH ((bse_kernel chi0q gamma_ph w k)⁻¹ *
      to_matrix_PH (chi0_blk chi0q w k)))), if_pos ⟨hk, hw⟩]

theorem chiq_from_chi0q_and_gamma_PH_ok_stored {F W K : Type} [Field F] [DecidableEq F]
    [DecidableEq W] [DecidableEq K] {nf nb : Nat} (mb : List W) (mbz : List K)
    (chi0q : W → Fin nf → K → tensor4 F nb) (gamma_ph : W → g2_nn_t F nf nb)
    (chiq : K → W → g2_nn_t F nf nb)
    (h : chiq_from_chi0q_and_gamma_PH mb mbz chi0q gamma_ph = Except.ok chiq) (k : K) (w : W)
    (hk : k ∈ mbz) (hw : w ∈ mb) :
    chiq_from_chi0q_and_gamma_PH_stored mb mbz chi0q gamma_ph k w = some (chiq k w) := by
  have hall : ∀ k ∈ mbz, ∀ w ∈ mb, (bse_kernel chi0q gamma_ph w k).det ≠ 0 := by
    intro k1 hk1 w1 hw1 hdet
    rw [chiq_from_chi0q_and_gamma_PH_fails mb mbz chi0q gamma_ph k1 w1 hk1 hw1 hdet] at h
    cases h
  unfold chiq_from_chi0q_and_gamma_PH at h
  rw [chiq_from_chi0q_and_gamma_PH_ok mb mbz chi0q gamma_ph hall 0] at h
  cases h
  rw [chiq_from_chi0q_and_gamma_PH_stored_apply mb mbz chi0q gamma_ph k w hk hw,
    if_neg (hall k hk w hw),
    foldl_set_kw (fun k w => from_matrix_PH ((bse_kernel chi0q gamma_ph w k)⁻¹ *
      to_matrix_PH (chi0_blk chi0q w k))), if_pos ⟨hk, hw⟩]

/-- C2: when every kernel `K = I - chi0_blk * gamma_ph[w]` is invertible,
`chiq_from_chi0q_and_gamma_PH` returns, at every `(k, w)` of the meshes,
`K⁻¹ * chi0_blk` with product, identity and inverse taken in the combined
frequency x orbital-pair space of the particle-hole channel. -/
theorem chiq_from_chi0q_and_gamma_PH_eq_inv_kernel_mul {F W K : Type} [Field F] [DecidableEq F]
    [DecidableEq W] [DecidableEq K] {nf nb : Nat} (mb : List W) (mbz : List K)
    (chi0q : W → Fin nf → K → tensor4 F nb) (gamma_ph : W → g2_nn_t F nf nb)
    (h : ∀ k ∈ mbz, ∀ w ∈ mb, (bse_kernel chi0q gamma_ph w k).det ≠ 0) :
    ∃ chiq, chiq_from_chi0q_and_gamma_PH mb mbz chi0q gamma_ph = Except.ok chiq ∧
      ∀ k ∈ mbz, ∀ w ∈ mb, to_matrix_PH (chiq k w) =
        (1 - to_matrix_PH (chi0_blk chi0q w k) * to_matrix_PH (gamma_ph w))⁻¹ *
          to_matrix_PH (chi0_blk chi0q w k) := by
  refine ⟨_, chiq_from_chi0q_and_gamma_PH_ok mb mbz chi0q gamma_ph h 0, ?_⟩
  intro k hk w hw
  rw [foldl_set_kw (fun k w => from_matrix_PH ((bse_kernel chi0q gamma_ph w k)⁻¹ *
    to_matrix_PH (chi0_blk chi0q w k))), if_pos ⟨hk, hw⟩, to_matrix_from_matrix_PH]
  rfl

/-- C1: with a vertex that vanishes identically the Bethe-Salpeter solver
returns, at every `(k, w)`, the block-diagonal bubble: `chi0q[w, n1, k]` for
`n1 = n2` and the zero tensor for `n1 ≠ n2`. -/
theorem chiq_from_chi0q_and_gamma_PH_zero_vertex {F W K : Type} [Field F] [DecidableEq F]
    [DecidableEq W] [DecidableEq K] {nf nb : Nat} (mb : List W) (mbz : List K)
    (chi0q : W → Fin nf → K → tensor4 F nb) (gamma_ph : W → g2_nn_t F nf nb)
    (hg : ∀ w, gamma_ph w = 0) :
    ∃ chiq, chiq_from_chi0q_and_gamma_PH mb mbz chi0q gamma_ph = Except.ok chiq ∧
      ∀ k ∈ mbz, ∀ w ∈ mb, ∀ n1 n2 : Fin nf,
        chiq k w n1 n2 = if n1 = n2 then chi0q w n1 k else 0 := by
  have hK : ∀ k w, bse_kernel chi0q gamma_ph w k = 1 := by
    intro k w
    unfold bse_kernel
    rw [hg w, to_matrix_PH_zero, mul_zero, sub_zero]
  have hdet : ∀ k ∈ mbz, ∀ w ∈ mb, (bse_kernel chi0q gamma_ph w k).det ≠ 0 := by
    intro k _ w _
    rw [hK k w, Matrix.det_one]
    exact one_ne_zero
  refine ⟨_, chiq_from_chi0q_and_gamma_PH_ok mb mbz chi0q gamma_ph hdet 0, ?_⟩
  intro k hk w hw n1 n2
  rw [foldl_set_kw (fun k w => from_matrix_PH ((bse_kernel chi0q gamma_ph w k)⁻¹ *
    to_matrix_PH (chi0_blk chi0q w k))), if_pos ⟨hk, hw⟩, hK k w, inv_one, one_mul,
    from_matrix_to_matrix_PH]
  rfl


theorem bse_kernel_example_det (k : Fin 2) (w : ℤ) :
    (bse_kernel chi0q_example gamma_ph_example w k).det ≠ 0 := by
  have h : bse_kernel chi0q_example gamma_ph_example w k =
      Matrix.diagonal (fun i => -((i.1 : ℕ) : ℚ) - 1) := by
    funext r c
    obtain ⟨n1, a, b⟩ := r
    obtain ⟨n2, d, e⟩ := c
    have ha : a = d := Subsingleton.elim a d
    have hb : b = e := Subsingleton.elim b e
    by_cases hn : n1 = n2
    · simp [bse_kernel, Matrix.mul_apply, to_matrix_PH, chi0_blk, chi0q_example,
        gamma_ph_example, Fintype.sum_prod_type, Matrix.diagonal, Matrix.one_apply,
        Fin.sum_univ_two, hn, ha, hb]
      ring
    · simp [bse_kernel, Matrix.mul_apply, to_matrix_PH, chi0_blk, chi0q_example,
        gamma_ph_example, Fintype.sum_prod_type, Matrix.diagonal, Matrix.one_apply,
        Fin.sum_univ_two, hn]
  rw [h, Matrix.det_diagonal, Finset.prod_ne_zero_iff]
  intro i _
  have : (0 : ℚ) ≤ ((i.1 : ℕ) : ℚ) := Nat.cast_nonneg _
  linarith

/-- Worked example for C2: two momenta, one bosonic frequency, two fermionic
frequencies, one orbital, the vertex being the identity of the combined space. -/
theorem chiq_from_chi0q_and_gamma_PH_eq_inv_kernel_mul_witness :
    (∀ k ∈ [(0 : Fin 2), 1], ∀ w ∈ [(0 : ℤ)],
      (bse_kernel chi0q_example gamma_ph_example w k).det ≠ 0) ∧
    ∃ chiq, chiq_from_chi0q_and_gamma_PH [(0 : ℤ)] [(0 : Fin 2), 1] chi0q_example
        gamma_ph_example = Except.ok chiq ∧
      ∀ k ∈ [(0 : Fin 2), 1], ∀ w ∈ [(0 : ℤ)], to_matrix_PH (chiq k w) =
        (1 - to_matrix_PH (chi0_blk chi0q_example w k) * to_matrix_PH (gamma_ph_example w))⁻¹ *
          to_matrix_PH (chi0_blk chi0q_example w k) :=
  ⟨fun k _ w _ => bse_kernel_example_det k w,
    chiq_from_chi0q_and_gamma_PH_eq_inv_kernel_mul [(0 : ℤ)] [(0 : Fin 2), 1] chi0q_example
      gamma_ph_example (fun k _ w _ => bse_kernel_example_det k w)⟩

/-- Worked example for C1: the bubble of the example with the zero vertex. -/
theorem chiq_from_chi0q_and_gamma_PH_zero_vertex_witness :
    (∀ w : ℤ, (fun _ => (0 : g2_nn_t ℚ 2 1)) w = 0) ∧
    ∃ chiq, chiq_from_chi0q_and_gamma_PH [(0 : ℤ)] [(0 : Fin 2), 1] chi0q_example
        (fun _ => 0) = Except.ok chiq ∧
      ∀ k ∈ [(0 : Fin 2), 1], ∀ w ∈ [(0 : ℤ)], ∀ n1 n2 : Fin 2,
        chiq k w n1 n2 = if n1 = n2 then chi0q_example w n1 k else 0 :=
  ⟨fun _ => rfl,
    chiq_from_chi0q_and_gamma_PH_zero_vertex [(0 : ℤ)] [(0 : Fin 2), 1] chi0q_example
      (fun _ => 0) (fun _ => rfl)⟩

/-- C4: both tail-corrected solvers raise the configuration error, whatever the
propagator, the vertex and the distribution of the `(k, w)` units, exactly when
`tail_corr_nwf > 0` and `tail_corr_nwf` is smaller than the vertex's number of
fermionic frequencies; with `tail_corr_nwf = 0` the tail mesh is the vertex's
own fermionic mesh. -/
theorem tail_mesh_configuration_check {F K : Type} [Field F] [DecidableEq F]
    [AddCommGroup K] [DecidableEq K] {nb : Nat} (density : gf_mesh_imfreq F → (ℤ → F) → F)
    (i_pi : F) (slices : List (List (K × ℤ))) (mem : Fin 3 → tensor4 F nb) (mu : F)
    (kmesh : List K) (g_wk : ℤ → K → matrix2 F nb) (e_k : K → Matrix (Fin nb) (Fin nb) F)
    (sigma_w : ℤ → Matrix (Fin nb) (Fin nb) F) (beta : F) (nwf : ℕ)
    (gamma_ph_wnn : ℤ → g2_nn_t F (2 * nwf) nb) (tail_corr_nwf : ℤ) :
    (chiq_sum_nu_from_g_wk_and_gamma_PH density slices mem kmesh g_wk beta nwf gamma_ph_wnn
        tail_corr_nwf = Except.error tprf_error.tail_size ↔
      (0 < tail_corr_nwf ∧ tail_corr_nwf < nwf)) ∧
    (chiq_sum_nu_from_e_k_sigma_w_and_gamma_PH density i_pi slices mem mu kmesh e_k sigma_w beta
        nwf gamma_ph_wnn tail_corr_nwf = Except.error tprf_error.tail_size ↔
      (0 < tail_corr_nwf ∧ tail_corr_nwf < nwf)) ∧
    tail_mesh beta ⟨beta, statistic_enum.Fermion, nwf⟩ 0 = ⟨beta, statistic_enum.Fermion, nwf⟩ ∧
    chiq_sum_nu_from_g_wk_and_gamma_PH density slices mem kmesh g_wk beta nwf gamma_ph_wnn 0 ≠
      Except.error tprf_error.tail_size ∧
    chiq_sum_nu_from_e_k_sigma_w_and_gamma_PH density i_pi slices mem mu kmesh e_k sigma_w beta
      nwf gamma_ph_wnn 0 ≠ Except.error tprf_error.tail_size := by
  refine ⟨g_wk_solver_tail_size_iff density slices mem kmesh g_wk beta nwf gamma_ph_wnn
    tail_corr_nwf, e_k_solver_tail_size_iff density i_pi slices mem mu kmesh e_k sigma_w beta nwf
    gamma_ph_wnn tail_corr_nwf, rfl, ?_, ?_⟩
  · intro h
    have h0 := (g_wk_solver_tail_size_iff density slices mem kmesh g_wk beta nwf gamma_ph_wnn
      0).mp h
    exact lt_irrefl _ h0.1
  · intro h
    have h0 := (e_k_solver_tail_size_iff density i_pi slices mem mu kmesh e_k sigma_w beta nwf
      gamma_ph_wnn 0).mp h
    exact lt_irrefl _ h0.1

/-- C5: for every fermionic frequency `n` of `fmesh` and orbital indices
`a, b, c, d`, `chi0_n_from_g_wk_PH` returns
`-(beta/N_k) * Σ_{k'} g(n, k')[d,a] * g(n + w, k' - q)[b,c]`, the sum running over
the momentum mesh and `N_k` being its number of points. -/
theorem chi0_n_from_g_wk_PH_momentum_convolution {F K : Type} [Field F] [AddCommGroup K]
    {nb : Nat} (w : ℤ) (q : K) (fmesh : gf_mesh_imfreq F) (kmesh : List K)
    (g_wk : ℤ → K → matrix2 F nb) (n : ℤ) (hn : n ∈ fmesh.points) (a b c d : Fin nb) :
    chi0_n_from_g_wk_PH w q fmesh kmesh g_wk n a b c d =
      -(fmesh.beta / (kmesh.length : F)) *
        (kmesh.map (fun k1 => g_wk n k1 d a * g_wk (n + w) (k1 - q) b c)).sum :=
  chi0_n_from_g_wk_PH_apply w q fmesh kmesh g_wk n hn a b c d

/-- Worked example for C5: two momenta, the fermionic mesh `{-1, 0}`, one orbital. -/
theorem chi0_n_from_g_wk_PH_momentum_convolution_witness :
    (0 : ℤ) ∈ (gf_mesh_imfreq.mk (3 : ℚ) statistic_enum.Fermion 1).points ∧
    chi0_n_from_g_wk_PH 1 1 (gf_mesh_imfreq.mk (3 : ℚ) statistic_enum.Fermion 1)
        [(0 : Fin 2), 1] g_wk_example 0 0 0 0 0 =
      -((gf_mesh_imfreq.mk (3 : ℚ) statistic_enum.Fermion 1).beta /
          (([(0 : Fin 2), 1].length : ℕ) : ℚ)) *
        ([(0 : Fin 2), 1].map
          (fun k1 => g_wk_example 0 k1 0 0 * g_wk_example (0 + 1) (k1 - 1) 0 0)).sum :=
  ⟨by decide, chi0_n_from_g_wk_PH_momentum_convolution 1 1
    (gf_mesh_imfreq.mk (3 : ℚ) statistic_enum.Fermion 1) [(0 : Fin 2), 1] g_wk_example 0
    (by decide) 0 0 0 0⟩

/-- C6: for every bosonic `w`, fermionic `n`, site `r` of the meshes and orbital
indices `a, b, c, d`, `chi0r_from_gr_PH` returns
`-beta * g(n, r)[d,a] * g(n + w, -r)[b,c]`, however the sites are split into
disjoint slices over the execution units. -/
theorem chi0r_from_gr_PH_real_space_formula {F K : Type} [Field F] [AddCommGroup K]
    [DecidableEq K] {nb : Nat} (rmesh : List K) (slices : List (List K)) (nw nnu : ℤ)
    (fmesh_large : gf_mesh_imfreq F) (g_nr : ℤ → K → matrix2 F nb)
    (hv : mpi_view_of rmesh slices) (hnd : rmesh.Nodup) (w n : ℤ) (r : K)
    (hw : w ∈ (gf_mesh_imfreq.mk fmesh_large.beta statistic_enum.Boson nw).points)
    (hn : n ∈ (gf_mesh_imfreq.mk fmesh_large.beta statistic_enum.Fermion nnu).points)
    (hr : r ∈ rmesh) (a b c d : Fin nb) :
    chi0r_from_gr_PH slices nw nnu fmesh_large g_nr w n r a b c d =
      -fmesh_large.beta * g_nr n r d a * g_nr (n + w) (-r) b c := by
  unfold mpi_view_of at hv
  rw [chi0r_from_gr_PH_apply slices nw nnu fmesh_large g_nr (hv ▸ hnd) w n r hw hn (hv ▸ hr)]

/-- Worked example for C6: two sites owned by two execution units. -/
theorem chi0r_from_gr_PH_real_space_formula_witness :
    mpi_view_of [(0 : Fin 2), 1] [[0], [1]] ∧ [(0 : Fin 2), 1].Nodup ∧
    (0 : ℤ) ∈ (gf_mesh_imfreq.mk (gf_mesh_imfreq.mk (3 : ℚ) statistic_enum.Fermion 4).beta
      statistic_enum.Boson 1).points ∧
    (-1 : ℤ) ∈ (gf_mesh_imfreq.mk (gf_mesh_imfreq.mk (3 : ℚ) statistic_enum.Fermion 4).beta
      statistic_enum.Fermion 1).points ∧
    (1 : Fin 2) ∈ [(0 : Fin 2), 1] ∧
    chi0r_from_gr_PH [[(0 : Fin 2)], [1]] 1 1 (gf_mesh_imfreq.mk (3 : ℚ) statistic_enum.Fermion 4)
        g_wk_example 0 (-1) 1 0 0 0 0 =
      -(gf_mesh_imfreq.mk (3 : ℚ) statistic_enum.Fermion 4).beta * g_wk_example (-1) 1 0 0 *
        g_wk_example (-1 + 0) (-1) 0 0 :=
  ⟨rfl, by decide, by decide, by decide, by decide,
    chi0r_from_gr_PH_real_space_formula [(0 : Fin 2), 1] [[0], [1]] 1 1
      (gf_mesh_imfreq.mk (3 : ℚ) statistic_enum.Fermion 4) g_wk_example rfl (by decide) 0 (-1) 1
      (by decide) (by decide) (by decide) 0 0 0 0⟩

/-- C10: at every bosonic `w` of the mesh, `chi0q_sum_nu_q` equals the direct
nested sum `(1/(N_k * beta^2)) * Σ_k Σ_n chi0q[w, n, k]`, which is the momentum
average `(1/N_k) * Σ_k chi0q_sum_nu(chi0q)[w, k]`. -/
theorem chi0q_sum_nu_q_reduction_consistency {F W N K : Type} [Field F] [DecidableEq W]
    {nb : Nat} (beta : F) (mesh_b : List W) (mesh_f : List N) (mesh_k : List K)
    (chi0q : W → N → K → tensor4 F nb) (hb : mesh_b.Nodup) (w : W) (hw : w ∈ mesh_b)
    (a b c d : Fin nb) :
    chi0q_sum_nu_q beta mesh_b mesh_f mesh_k chi0q w a b c d =
        1 / ((mesh_k.length : F) * (beta * beta)) *
          (mesh_k.map (fun k => (mesh_f.map (fun n => chi0q w n k a b c d)).sum)).sum ∧
    chi0q_sum_nu_q beta mesh_b mesh_f mesh_k chi0q w a b c d =
        1 / (mesh_k.length : F) *
          (mesh_k.map (fun k => chi0q_sum_nu beta mesh_f chi0q w k a b c d)).sum := by
  have h1 : chi0q_sum_nu_q beta mesh_b mesh_f mesh_k chi0q w a b c d =
      (mesh_k.map (fun k => (mesh_f.map (fun n => chi0q w n k a b c d)).sum)).sum /
        (mesh_k.length : F) / (beta * beta) := by
    unfold chi0q_sum_nu_q
    rw [foldl_accumulate_w_n_k (fun w n k => chi0q w n k) mesh_b hb, if_pos hw]
    simp only [Pi.zero_apply, zero_add]
    rw [list_sum_apply4]
    simp only [list_sum_apply4]
    rw [list_sum_comm]
  refine ⟨?_, ?_⟩
  · rw [h1]
    ring
  · rw [h1]
    unfold chi0q_sum_nu
    rw [list_sum_map_div]
    ring

/-- Worked example for C10: a bubble on two bosonic points, two fermionic points
and two momenta. -/
theorem chi0q_sum_nu_q_reduction_consistency_witness :
    [(0 : ℤ), 1].Nodup ∧ (1 : ℤ) ∈ [(0 : ℤ), 1] ∧
    chi0q_sum_nu_q (3 : ℚ) [(0 : ℤ), 1] [(0 : Fin 2), 1] [(0 : Fin 2), 1] chi0q_example
        1 0 0 0 0 =
        1 / ((([(0 : Fin 2), 1].length : ℕ) : ℚ) * (3 * 3)) *
          ([(0 : Fin 2), 1].map
            (fun k => ([(0 : Fin 2), 1].map (fun n => chi0q_example 1 n k 0 0 0 0)).sum)).sum ∧
    chi0q_sum_nu_q (3 : ℚ) [(0 : ℤ), 1] [(0 : Fin 2), 1] [(0 : Fin 2), 1] chi0q_example
        1 0 0 0 0 =
        1 / (([(0 : Fin 2), 1].length : ℕ) : ℚ) *
          ([(0 : Fin 2), 1].map
            (fun k => chi0q_sum_nu (3 : ℚ) [(0 : Fin 2), 1] chi0q_example 1 k 0 0 0 0)).sum :=
  ⟨by decide, by decide,
    chi0q_sum_nu_q_reduction_consistency (3 : ℚ) [(0 : ℤ), 1] [(0 : Fin 2), 1] [(0 : Fin 2), 1]
      chi0q_example (by decide) 1 (by decide) 0 0 0 0⟩

/-- C9: transforming a momentum-space bubble to real space and back reproduces
it at every `(w, n, k)` of the meshes, however the `(w, n)` pairs are split over
the execution units in either transform; the meshes are unchanged, the adjoint
of the adjoint mesh being the original mesh. -/
theorem chi0q_from_chi0r_chi0r_from_chi0q_round_trip {F W N K : Type} [Field F] [Fintype K]
    [AddCommGroup K] [DecidableEq K] [DecidableEq W] [DecidableEq N] {nb : Nat}
    (ph : lattice_phase F K) (bmesh : List W) (fmesh : List N) (kmesh : List K)
    (slices1 slices2 : List (List (W × N))) (chi0q : W → N → K → tensor4 F nb)
    (h1 : mpi_view_of (List.product bmesh fmesh) slices1)
    (h2 : mpi_view_of (List.product bmesh fmesh) slices2)
    (hb : bmesh.Nodup) (hf : fmesh.Nodup) (w : W) (hw : w ∈ bmesh) (n : N) (hn : n ∈ fmesh)
    (k : K) :
    chi0q_from_chi0r ph slices2 (chi0r_from_chi0q ph slices1 chi0q) w n k = chi0q w n k ∧
      make_adjoint_mesh (make_adjoint_mesh kmesh) = kmesh := by
  unfold mpi_view_of at h1 h2
  have hnd : (List.product bmesh fmesh).Nodup := List.Nodup.product hb hf
  have hmem : (w, n) ∈ List.product bmesh fmesh := List.mem_product.mpr ⟨hw, hn⟩
  refine ⟨?_, rfl⟩
  rw [chi0q_from_chi0r_apply ph slices2 _ (h2 ▸ hnd) w n (h2 ▸ hmem),
    chi0r_from_chi0q_apply ph slices1 _ (h1 ▸ hnd) w n (h1 ▸ hmem), fourier_r_to_k_k_to_r]

/-- Worked example for C9: the two-point lattice, two fermionic points split over
two execution units in the forward transform and kept on one in the backward
transform. -/
theorem chi0q_from_chi0r_chi0r_from_chi0q_round_trip_witness :
    mpi_view_of (List.product [(0 : ℤ)] [(0 : Fin 2), 1]) [[(0, 0)], [(0, 1)]] ∧
    mpi_view_of (List.product [(0 : ℤ)] [(0 : Fin 2), 1]) [[(0, 0), (0, 1)]] ∧
    [(0 : ℤ)].Nodup ∧ [(0 : Fin 2), 1].Nodup ∧ (0 : ℤ) ∈ [(0 : ℤ)] ∧
    (1 : Fin 2) ∈ [(0 : Fin 2), 1] ∧
    (chi0q_from_chi0r phase_example [[(0, 0), (0, 1)]]
        (chi0r_from_chi0q phase_example [[(0, 0)], [(0, 1)]] chi0q_example) 0 1 1 =
      chi0q_example 0 1 1 ∧
      make_adjoint_mesh (make_adjoint_mesh [(0 : Fin 2), 1]) = [(0 : Fin 2), 1]) :=
  ⟨by decide, by decide, by decide, by decide, by decide, by decide,
    chi0q_from_chi0r_chi0r_from_chi0q_round_trip phase_example [(0 : ℤ)] [(0 : Fin 2), 1]
      [(0 : Fin 2), 1] [[(0, 0)], [(0, 1)]] [[(0, 0), (0, 1)]] chi0q_example (by decide)
      (by decide) (by decide) (by decide) 0 (by decide) 1 (by decide) 1⟩

/-- C7 (failing input): one orbital, one momentum, `e_k = 0`, `sigma_w = 0`,
`mu = 0`, `beta = 1`, bosonic index `w = 1`, fermionic mesh `{-1, 0}`, with the
unit `1` standing for `iπ`. At `n = 0` the code returns `-1`, because its second
propagator is inverted at the unshifted frequency `ν_0 = 1`, whereas the
momentum-convolution bubble of the tabulated propagator is `-1/3`, its second
propagator being taken at `ν_0 + ω_1 = 3`. -/
theorem chi0_n_from_e_k_sigma_w_PH_shifted_frequency_example :
    (∃ chi0, chi0_n_from_e_k_sigma_w_PH (1 : ℚ) 1 (0 : Fin 1)
        (gf_mesh_imfreq.mk (1 : ℚ) statistic_enum.Fermion 1) 0 [(0 : Fin 1)]
        (fun _ => (0 : Matrix (Fin 1) (Fin 1) ℚ)) (fun _ => 0) = Except.ok chi0 ∧
      chi0 0 0 0 0 0 = -1) ∧
    chi0_n_from_g_wk_PH 1 (0 : Fin 1) (gf_mesh_imfreq.mk (1 : ℚ) statistic_enum.Fermion 1)
      [(0 : Fin 1)]
      (g_wk_from_e_k_sigma_w (1 : ℚ) 1 0 (fun _ => (0 : Matrix (Fin 1) (Fin 1) ℚ)) (fun _ => 0))
      0 0 0 0 0 = -(1 / 3) := by
  have hm1 : matsubara_value (1 : ℚ) 1 statistic_enum.Fermion (-1) = -1 := by
    simp [matsubara_value]; norm_num
  have h0 : matsubara_value (1 : ℚ) 1 statistic_enum.Fermion 0 = 1 := by
    simp [matsubara_value]
  have h1 : matsubara_value (1 : ℚ) 1 statistic_enum.Fermion 1 = 3 := by
    simp [matsubara_value]; norm_num
  constructor
  · unfold chi0_n_from_e_k_sigma_w_PH
    simp only [e_k_example_points, List.foldlM_cons, List.foldlM_nil, hm1, h0]
    rw [inverse_matrix_fin_one _ (by rw [e_k_example_matrix]; norm_num)]
    simp only [bind, Except.bind, pure, Except.pure]
    rw [inverse_matrix_fin_one _ (by rw [e_k_example_matrix]; norm_num)]
    simp only [bind, Except.bind, pure, Except.pure]
    refine ⟨_, rfl, ?_⟩
    simp only [e_k_example_matrix]
    simp
  · rw [chi0_n_from_g_wk_PH_apply _ _ _ _ _ _ (by decide)]
    simp only [g_wk_from_e_k_sigma_w, h0, h1, Matrix.det_fin_one, Matrix.adjugate_fin_one,
      e_k_example_matrix, zero_add]
    simp

/-- C3: for an admissible tail size and invertible kernels,
`chiq_sum_nu_from_g_wk_and_gamma_PH` returns at every `(k, w)` of the meshes
`chi_dressed_traced + (chi0_tail_traced - chi0_traced_on_main_mesh)`, where the
dressed response is `K⁻¹ * chi0_blk` of the bubble on the vertex's fermionic
mesh, the tail trace is `density(chi0 on the tail mesh)/beta` and both other
traces are sums over the vertex's mesh divided by `beta^2`; this holds however
the `(k, w)` units are split over the execution units and whatever the arrays
held at their declaration. -/
theorem chiq_sum_nu_from_g_wk_and_gamma_PH_tail_corrected {F K : Type} [Field F]
    [DecidableEq F] [AddCommGroup K] [DecidableEq K] {nb : Nat}
    (density : gf_mesh_imfreq F → (ℤ → F) → F) (slices : List (List (K × ℤ)))
    (mem : Fin 3 → tensor4 F nb) (kmesh : List K) (bmesh : List ℤ)
    (g_wk : ℤ → K → matrix2 F nb) (beta : F) (nwf : ℕ)
    (gamma_ph_wnn : ℤ → g2_nn_t F (2 * nwf) nb) (tail_corr_nwf : ℤ)
    (htail : ¬(0 < tail_corr_nwf ∧ tail_corr_nwf < nwf))
    (hv : mpi_view_of (List.product kmesh bmesh) slices) (hk : kmesh.Nodup) (hb : bmesh.Nodup)
    (hdet : ∀ k ∈ kmesh, ∀ w ∈ bmesh, (bse_kernel (chi0_on_main_mesh
      (tail_mesh beta ⟨beta, statistic_enum.Fermion, nwf⟩ tail_corr_nwf) kmesh g_wk nwf)
      gamma_ph_wnn w k).det ≠ 0) :
    ∃ chi_kw, chiq_sum_nu_from_g_wk_and_gamma_PH density slices mem kmesh g_wk beta nwf
        gamma_ph_wnn tail_corr_nwf = Except.ok chi_kw ∧
      ∀ k ∈ kmesh, ∀ w ∈ bmesh, chi_kw k w =
        tail_corrected_trace density beta
          (tail_mesh beta ⟨beta, statistic_enum.Fermion, nwf⟩ tail_corr_nwf)
          (from_matrix_PH ((1 - to_matrix_PH (chi0_blk (chi0_on_main_mesh
              (tail_mesh beta ⟨beta, statistic_enum.Fermion, nwf⟩ tail_corr_nwf) kmesh g_wk nwf)
              w k) * to_matrix_PH (gamma_ph_wnn w))⁻¹ *
            to_matrix_PH (chi0_blk (chi0_on_main_mesh
              (tail_mesh beta ⟨beta, statistic_enum.Fermion, nwf⟩ tail_corr_nwf) kmesh g_wk nwf)
              w k)))
          (chi0_n_from_g_wk_PH w k
            (tail_mesh beta ⟨beta, statistic_enum.Fermion, nwf⟩ tail_corr_nwf) kmesh g_wk) := by
  unfold mpi_view_of at hv
  have hnd : slices.flatten.Nodup := hv ▸ List.Nodup.product hk hb
  have hcheck : ¬((tail_mesh beta ⟨beta, statistic_enum.Fermion, nwf⟩ tail_corr_nwf).size <
      (gf_mesh_imfreq.mk beta statistic_enum.Fermion nwf).size) :=
    fun h => htail ((tail_check_iff beta nwf tail_corr_nwf).mp h)
  have hslice : ∀ arr ∈ slices, (do
      let st ← arr.foldlM (fun (st : (K → ℤ → tensor4 F nb) × bse_buffers F nwf nb) kw => do
        let chi0_n_tail := chi0_n_from_g_wk_PH kw.2 kw.1
          (tail_mesh beta ⟨beta, statistic_enum.Fermion, nwf⟩ tail_corr_nwf) kmesh g_wk
        let buf ← bse_tail_corr_unit density beta
          (tail_mesh beta ⟨beta, statistic_enum.Fermion, nwf⟩ tail_corr_nwf)
          (gamma_ph_wnn kw.2) chi0_n_tail st.2
        pure (set_kw st.1 kw.1 kw.2 buf.tr_chi, buf)) (0, ⟨0, 0, mem 0, mem 1, mem 2⟩)
      pure st.1) =
      Except.ok (arr.foldl (fun q kw => set_kw q kw.1 kw.2
        (tail_corrected_trace density beta
          (tail_mesh beta ⟨beta, statistic_enum.Fermion, nwf⟩ tail_corr_nwf)
          (from_matrix_PH ((bse_kernel (chi0_on_main_mesh
              (tail_mesh beta ⟨beta, statistic_enum.Fermion, nwf⟩ tail_corr_nwf) kmesh g_wk nwf)
              gamma_ph_wnn kw.2 kw.1)⁻¹ *
            to_matrix_PH (chi0_blk (chi0_on_main_mesh
              (tail_mesh beta ⟨beta, statistic_enum.Fermion, nwf⟩ tail_corr_nwf) kmesh g_wk nwf)
              kw.2 kw.1)))
          (chi0_n_from_g_wk_PH kw.2 kw.1
            (tail_mesh beta ⟨beta, statistic_enum.Fermion, nwf⟩ tail_corr_nwf) kmesh g_wk)))
        (0 : K → ℤ → tensor4 F nb)) := by
    intro arr harr
    have hd : ∀ kw ∈ arr, (bse_kernel (chi0_on_main_mesh
        (tail_mesh beta ⟨beta, statistic_enum.Fermion, nwf⟩ tail_corr_nwf) kmesh g_wk nwf)
        gamma_ph_wnn kw.2 kw.1).det ≠ 0 := by
      intro kw hkw
      have hm : kw ∈ List.product kmesh bmesh :=
        hv ▸ List.mem_flatten.mpr ⟨arr, harr, hkw⟩
      have hm2 : kw.1 ∈ kmesh ∧ kw.2 ∈ bmesh := List.mem_product.mp hm
      exact hdet kw.1 hm2.1 kw.2 hm2.2
    obtain ⟨buf, hbuf⟩ := g_wk_solver_slice_ok density kmesh g_wk beta nwf gamma_ph_wnn
      (tail_mesh beta ⟨beta, statistic_enum.Fermion, nwf⟩ tail_corr_nwf) arr hd
      (0, ⟨0, 0, mem 0, mem 1, mem 2⟩) (fun _ _ _ => rfl)
    rw [hbuf]
    rfl
  unfold chiq_sum_nu_from_g_wk_and_gamma_PH
  simp only [hcheck, if_false]
  rw [mapM_ok_of _ _ slices hslice]
  refine ⟨_, rfl, ?_⟩
  intro k hkm w hwm
  have hmem : (k, w) ∈ slices.flatten := hv ▸ List.mem_product.mpr ⟨hkm, hwm⟩
  rw [mpi_all_reduce_apply2, List.map_map]
  have hpart : ∀ arr : List (K × ℤ),
      ((fun p : K → ℤ → tensor4 F nb => p k w) ∘ fun arr : List (K × ℤ) =>
        arr.foldl (fun q kw => set_kw q kw.1 kw.2
          (tail_corrected_trace density beta
            (tail_mesh beta ⟨beta, statistic_enum.Fermion, nwf⟩ tail_corr_nwf)
            (from_matrix_PH ((bse_kernel (chi0_on_main_mesh
                (tail_mesh beta ⟨beta, statistic_enum.Fermion, nwf⟩ tail_corr_nwf) kmesh g_wk
                nwf) gamma_ph_wnn kw.2 kw.1)⁻¹ *
              to_matrix_PH (chi0_blk (chi0_on_main_mesh
                (tail_mesh beta ⟨beta, statistic_enum.Fermion, nwf⟩ tail_corr_nwf) kmesh g_wk
                nwf) kw.2 kw.1)))
            (chi0_n_from_g_wk_PH kw.2 kw.1
              (tail_mesh beta ⟨beta, statistic_enum.Fermion, nwf⟩ tail_corr_nwf) kmesh g_wk)))
          (0 : K → ℤ → tensor4 F nb)) arr =
      if (k, w) ∈ arr then
        tail_corrected_trace density beta
          (tail_mesh beta ⟨beta, statistic_enum.Fermion, nwf⟩ tail_corr_nwf)
          (from_matrix_PH ((bse_kernel (chi0_on_main_mesh
              (tail_mesh beta ⟨beta, statistic_enum.Fermion, nwf⟩ tail_corr_nwf) kmesh g_wk
              nwf) gamma_ph_wnn w k)⁻¹ *
            to_matrix_PH (chi0_blk (chi0_on_main_mesh
              (tail_mesh beta ⟨beta, statistic_enum.Fermion, nwf⟩ tail_corr_nwf) kmesh g_wk
              nwf) w k)))
          (chi0_n_from_g_wk_PH w k
            (tail_mesh beta ⟨beta, statistic_enum.Fermion, nwf⟩ tail_corr_nwf) kmesh g_wk)
      else 0 := by
    intro arr
    exact foldl_set_wn_pairs (fun k w => tail_corrected_trace density beta
      (tail_mesh beta ⟨beta, statistic_enum.Fermion, nwf⟩ tail_corr_nwf)
      (from_matrix_PH ((bse_kernel (chi0_on_main_mesh
          (tail_mesh beta ⟨beta, statistic_enum.Fermion, nwf⟩ tail_corr_nwf) kmesh g_wk
          nwf) gamma_ph_wnn w k)⁻¹ *
        to_matrix_PH (chi0_blk (chi0_on_main_mesh
          (tail_mesh beta ⟨beta, statistic_enum.Fermion, nwf⟩ tail_corr_nwf) kmesh g_wk
          nwf) w k)))
      (chi0_n_from_g_wk_PH w k
        (tail_mesh beta ⟨beta, statistic_enum.Fermion, nwf⟩ tail_corr_nwf) kmesh g_wk))
      arr 0 k w
  rw [List.map_congr_left (fun arr _ => hpart arr)]
  exact (sum_scatter (fun kw : K × ℤ => tail_corrected_trace density beta
      (tail_mesh beta ⟨beta, statistic_enum.Fermion, nwf⟩ tail_corr_nwf)
      (from_matrix_PH ((bse_kernel (chi0_on_main_mesh
          (tail_mesh beta ⟨beta, statistic_enum.Fermion, nwf⟩ tail_corr_nwf) kmesh g_wk
          nwf) gamma_ph_wnn kw.2 kw.1)⁻¹ *
        to_matrix_PH (chi0_blk (chi0_on_main_mesh
          (tail_mesh beta ⟨beta, statistic_enum.Fermion, nwf⟩ tail_corr_nwf) kmesh g_wk
          nwf) kw.2 kw.1)))
      (chi0_n_from_g_wk_PH kw.2 kw.1
        (tail_mesh beta ⟨beta, statistic_enum.Fermion, nwf⟩ tail_corr_nwf) kmesh g_wk))
    slices hnd (k, w)).trans (if_pos hmem)

/-- Worked example for C3: two momenta on two execution units, one bosonic
frequency, a vertex on two fermionic frequencies, a tail mesh of four. -/
theorem chiq_sum_nu_from_g_wk_and_gamma_PH_tail_corrected_witness :
    ¬(0 < (2 : ℤ) ∧ (2 : ℤ) < ((1 : ℕ) : ℤ)) ∧
    mpi_view_of (List.product [(0 : Fin 2), 1] [(0 : ℤ)]) [[(0, 0)], [(1, 0)]] ∧
    [(0 : Fin 2), 1].Nodup ∧ [(0 : ℤ)].Nodup ∧
    (∀ k ∈ [(0 : Fin 2), 1], ∀ w ∈ [(0 : ℤ)], (bse_kernel (chi0_on_main_mesh
      (tail_mesh (3 : ℚ) ⟨3, statistic_enum.Fermion, ((1 : ℕ) : ℤ)⟩ 2) [(0 : Fin 2), 1]
      g_wk_example 1) gamma_ph_tail_example w k).det ≠ 0) ∧
    ∃ chi_kw, chiq_sum_nu_from_g_wk_and_gamma_PH (fun _ f => f 0 + 1) [[(0, 0)], [(1, 0)]]
        (fun _ _ _ _ _ => 7) [(0 : Fin 2), 1] g_wk_example (3 : ℚ) 1 gamma_ph_tail_example 2 =
          Except.ok chi_kw ∧
      ∀ k ∈ [(0 : Fin 2), 1], ∀ w ∈ [(0 : ℤ)], chi_kw k w =
        tail_corrected_trace (fun _ f => f 0 + 1) (3 : ℚ)
          (tail_mesh (3 : ℚ) ⟨3, statistic_enum.Fermion, ((1 : ℕ) : ℤ)⟩ 2)
          (from_matrix_PH ((1 - to_matrix_PH (chi0_blk (chi0_on_main_mesh
              (tail_mesh (3 : ℚ) ⟨3, statistic_enum.Fermion, ((1 : ℕ) : ℤ)⟩ 2) [(0 : Fin 2), 1]
              g_wk_example 1) w k) * to_matrix_PH (gamma_ph_tail_example w))⁻¹ *
            to_matrix_PH (chi0_blk (chi0_on_main_mesh
              (tail_mesh (3 : ℚ) ⟨3, statistic_enum.Fermion, ((1 : ℕ) : ℤ)⟩ 2) [(0 : Fin 2), 1]
              g_wk_example 1) w k)))
          (chi0_n_from_g_wk_PH w k
            (tail_mesh (3 : ℚ) ⟨3, statistic_enum.Fermion, ((1 : ℕ) : ℤ)⟩ 2) [(0 : Fin 2), 1]
            g_wk_example) :=
  ⟨by decide, by decide, by decide, by decide,
    fun k _ w _ => bse_kernel_tail_example_det _ w k,
    chiq_sum_nu_from_g_wk_and_gamma_PH_tail_corrected (fun _ f => f 0 + 1)
      [[(0, 0)], [(1, 0)]] (fun _ _ _ _ _ => 7) [(0 : Fin 2), 1] [(0 : ℤ)] g_wk_example (3 : ℚ) 1
      gamma_ph_tail_example 2 (by decide) (by decide) (by decide) (by decide)
      (fun k _ w _ => bse_kernel_tail_example_det _ w k)⟩

/-- C11: at every `(w, k)`, `chi0q_sum_nu` is the naive frequency sum
`(1/beta^2) * Σ_n chi0q[w, n, k]` over the fermionic mesh. -/
theorem chi0q_sum_nu_naive_frequency_sum {F W N K : Type} [Field F] {nb : Nat} (beta : F)
    (mesh : List N) (chi0q : W → N → K → tensor4 F nb) (w : W) (k : K) (a b c d : Fin nb) :
    chi0q_sum_nu beta mesh chi0q w k a b c d =
      1 / (beta ^ 2) * (mesh.map (fun n => chi0q w n k a b c d)).sum := by
  unfold chi0q_sum_nu
  rw [pow_two, div_eq_mul_inv, one_div, mul_comm]

/-- C12 (counterexample): with `beta = 2` and a bubble whose frequency sum is `5`,
`chi0q_sum_nu` returns `5/4`, not `(1/beta) * 5 = 5/2`. -/
theorem chi0q_sum_nu_not_divided_by_beta :
    chi0q_sum_nu (2 : ℚ) [(0 : Fin 2), 1] chi0q_example 0 0 0 0 0 0 = 5 / 4 ∧
    1 / (2 : ℚ) * ([(0 : Fin 2), 1].map (fun n => chi0q_example 0 n 0 0 0 0 0)).sum = 5 / 2 ∧
    chi0q_sum_nu (2 : ℚ) [(0 : Fin 2), 1] chi0q_example 0 0 0 0 0 0 ≠
      1 / (2 : ℚ) * ([(0 : Fin 2), 1].map (fun n => chi0q_example 0 n 0 0 0 0 0)).sum := by
  have h1 : chi0q_sum_nu (2 : ℚ) [(0 : Fin 2), 1] chi0q_example 0 0 0 0 0 0 = 5 / 4 := by
    simp [chi0q_sum_nu, chi0q_example]
    norm_num
  have h2 : 1 / (2 : ℚ) * ([(0 : Fin 2), 1].map
      (fun n => chi0q_example 0 n 0 0 0 0 0)).sum = 5 / 2 := by
    simp [chi0q_example]
    norm_num
  refine ⟨h1, h2, ?_⟩
  rw [h1, h2]
  norm_num

/-- C12 (amended): the operator that sums a bubble over its one fermionic
frequency divides by `beta` twice, that is by `beta^2`: at every `(w, k)`,
`chi0q_sum_nu(chi0q)[w, k] = (1/beta) * ((1/beta) * Σ_n chi0q[w, n, k])`. -/
theorem chi0q_sum_nu_divides_by_beta_squared {F W N K : Type} [Field F] {nb : Nat} (beta : F)
    (mesh : List N) (chi0q : W → N → K → tensor4 F nb) (w : W) (k : K) (a b c d : Fin nb) :
    chi0q_sum_nu beta mesh chi0q w k a b c d =
      1 / beta * (1 / beta * (mesh.map (fun n => chi0q w n k a b c d)).sum) := by
  unfold chi0q_sum_nu
  rw [div_eq_mul_inv, mul_inv, one_div]
  ring

/-- C13: on meshes without repeated points the traced Bethe-Salpeter solver
returns what `chiq_sum_nu` makes of the output of the full solver, and fails
when the full solver fails; at every `(k, w)` of the meshes that trace is
`(1/beta^2) * Σ_{n1,n2} chi_dressed[k, w, n1, n2]`. -/
theorem chiq_sum_nu_from_chi0q_and_gamma_PH_eq_trace_of_full {F W K : Type} [Field F]
    [DecidableEq F] [DecidableEq W] [DecidableEq K] {nf nb : Nat} (beta : F)
    (mem : K → tensor4 F nb) (mb : List W) (mbz : List K)
    (chi0q : W → Fin nf → K → tensor4 F nb) (gamma_ph : W → g2_nn_t F nf nb)
    (hb : mb.Nodup) (hk : mbz.Nodup) :
    chiq_sum_nu_from_chi0q_and_gamma_PH beta mem mb mbz chi0q gamma_ph =
        Except.map (chiq_sum_nu beta mbz mb)
          (chiq_from_chi0q_and_gamma_PH mb mbz chi0q gamma_ph) ∧
      ∀ chi_dressed : K → W → g2_nn_t F nf nb, ∀ k ∈ mbz, ∀ w ∈ mb, ∀ a b c d : Fin nb,
        chiq_sum_nu beta mbz mb chi_dressed k w a b c d =
          1 / (beta * beta) * ∑ n1, ∑ n2, chi_dressed k w n1 n2 a b c d := by
  constructor
  · by_cases hall : ∀ k ∈ mbz, ∀ w ∈ mb, (bse_kernel chi0q gamma_ph w k).det ≠ 0
    · unfold chiq_sum_nu_from_chi0q_and_gamma_PH chiq_from_chi0q_and_gamma_PH
      rw [chiq_sum_nu_from_chi0q_and_gamma_PH_ok beta mem mb mbz chi0q gamma_ph hall 0,
        chiq_from_chi0q_and_gamma_PH_ok mb mbz chi0q gamma_ph hall 0]
      simp only [Except.map]
      congr 1
      funext k w
      rw [chiq_sum_nu_apply beta mbz mb _ hk hb,
        foldl_set_kw (fun k w => trace_nn beta (from_matrix_PH
          ((bse_kernel chi0q gamma_ph w k)⁻¹ * to_matrix_PH (chi0_blk chi0q w k)))),
        foldl_set_kw (fun k w => from_matrix_PH
          ((bse_kernel chi0q gamma_ph w k)⁻¹ * to_matrix_PH (chi0_blk chi0q w k)))]
      by_cases h : k ∈ mbz ∧ w ∈ mb
      · simp only [h, and_self, if_true]
      · simp only [h, if_false]
        rfl
    · have hex : ∃ k ∈ mbz, ∃ w ∈ mb, (bse_kernel chi0q gamma_ph w k).det = 0 := by
        by_contra hno
        apply hall
        intro k hk1 w hw1 hdet
        exact hno ⟨k, hk1, w, hw1, hdet⟩
      obtain ⟨k, hk1, w, hw1, hdet⟩ := hex
      rw [chiq_sum_nu_from_chi0q_and_gamma_PH_fails beta mem mb mbz chi0q gamma_ph k w hk1 hw1
        hdet, chiq_from_chi0q_and_gamma_PH_fails mb mbz chi0q gamma_ph k w hk1 hw1 hdet]
      rfl
  · intro chi_dressed k hk1 w hw1 a b c d
    rw [chiq_sum_nu_apply beta mbz mb chi_dressed hk hb, if_pos ⟨hk1, hw1⟩]
    rfl

/-- Worked example for C13: the bubble and the vertex of the example of C2. -/
theorem chiq_sum_nu_from_chi0q_and_gamma_PH_eq_trace_of_full_witness :
    [(0 : ℤ)].Nodup ∧ [(0 : Fin 2), 1].Nodup ∧
    (chiq_sum_nu_from_chi0q_and_gamma_PH (3 : ℚ) (fun _ _ _ _ _ => 7) [(0 : ℤ)]
        [(0 : Fin 2), 1] chi0q_example gamma_ph_example =
        Except.map (chiq_sum_nu (3 : ℚ) [(0 : Fin 2), 1] [(0 : ℤ)])
          (chiq_from_chi0q_and_gamma_PH [(0 : ℤ)] [(0 : Fin 2), 1] chi0q_example
            gamma_ph_example) ∧
      ∀ chi_dressed : Fin 2 → ℤ → g2_nn_t ℚ 2 1, ∀ k ∈ [(0 : Fin 2), 1], ∀ w ∈ [(0 : ℤ)],
        ∀ a b c d : Fin 1,
        chiq_sum_nu (3 : ℚ) [(0 : Fin 2), 1] [(0 : ℤ)] chi_dressed k w a b c d =
          1 / ((3 : ℚ) * 3) * ∑ n1, ∑ n2, chi_dressed k w n1 n2 a b c d) :=
  ⟨by decide, by decide,
    chiq_sum_nu_from_chi0q_and_gamma_PH_eq_trace_of_full (3 : ℚ) (fun _ _ _ _ _ => 7) [(0 : ℤ)]
      [(0 : Fin 2), 1] chi0q_example gamma_ph_example (by decide) (by decide)⟩

/-- C19: with a vertex that vanishes identically and an admissible tail size,
`chiq_sum_nu_from_g_wk_and_gamma_PH` returns at every `(k, w)` of the meshes
`density(chi0_n_tail[a,b,c,d])/beta` with
`chi0_n_tail = chi0_n_from_g_wk_PH(w, k, fmesh_tail, g_wk)`: the two sums over
the main mesh cancel. -/
theorem chiq_sum_nu_from_g_wk_and_gamma_PH_zero_vertex {F K : Type} [Field F]
    [DecidableEq F] [AddCommGroup K] [DecidableEq K] {nb : Nat}
    (density : gf_mesh_imfreq F → (ℤ → F) → F) (slices : List (List (K × ℤ)))
    (mem : Fin 3 → tensor4 F nb) (kmesh : List K) (bmesh : List ℤ)
    (g_wk : ℤ → K → matrix2 F nb) (beta : F) (nwf : ℕ)
    (gamma_ph_wnn : ℤ → g2_nn_t F (2 * nwf) nb) (tail_corr_nwf : ℤ)
    (hg : ∀ w, gamma_ph_wnn w = 0)
    (htail : ¬(0 < tail_corr_nwf ∧ tail_corr_nwf < nwf))
    (hv : mpi_view_of (List.product kmesh bmesh) slices) (hk : kmesh.Nodup)
    (hb : bmesh.Nodup) :
    ∃ chi_kw, chiq_sum_nu_from_g_wk_and_gamma_PH density slices mem kmesh g_wk beta nwf
        gamma_ph_wnn tail_corr_nwf = Except.ok chi_kw ∧
      ∀ k ∈ kmesh, ∀ w ∈ bmesh, ∀ a b c d : Fin nb, chi_kw k w a b c d =
        density (tail_mesh beta ⟨beta, statistic_enum.Fermion, nwf⟩ tail_corr_nwf)
          (fun n => chi0_n_from_g_wk_PH w k
            (tail_mesh beta ⟨beta, statistic_enum.Fermion, nwf⟩ tail_corr_nwf) kmesh g_wk
            n a b c d) / beta := by
  unfold mpi_view_of at hv
  have hK : ∀ (k : K) (w : ℤ), bse_kernel (chi0_on_main_mesh
      (tail_mesh beta ⟨beta, statistic_enum.Fermion, nwf⟩ tail_corr_nwf) kmesh g_wk nwf)
      gamma_ph_wnn w k = 1 := by
    intro k w
    unfold bse_kernel
    rw [hg w, to_matrix_PH_zero, mul_zero, sub_zero]
  obtain ⟨chi_kw, hok, hval⟩ := g_wk_solver_ok density slices mem kmesh g_wk beta nwf
    gamma_ph_wnn tail_corr_nwf htail (hv ▸ List.Nodup.product hk hb)
    (by
      intro kw _
      rw [hK kw.1 kw.2, Matrix.det_one]
      exact one_ne_zero)
  refine ⟨chi_kw, hok, ?_⟩
  intro k hkm w hwm a b c d
  have hmem : (k, w) ∈ slices.flatten := hv ▸ List.mem_product.mpr ⟨hkm, hwm⟩
  have h1 := hval (k, w) hmem
  simp only [hK k w, inv_one, one_mul, from_matrix_to_matrix_PH] at h1
  rw [h1]
  unfold tail_corrected_trace chi0_blk chi0_on_main_mesh
  have hsum : ∀ n1 : Fin (2 * nwf),
      (∑ n2 : Fin (2 * nwf), (if n1 = n2 then chi0_n_from_g_wk_PH w k
        (tail_mesh beta ⟨beta, statistic_enum.Fermion, nwf⟩ tail_corr_nwf) kmesh g_wk
        (fermionic_index nwf n1) else 0) a b c d) =
      chi0_n_from_g_wk_PH w k
        (tail_mesh beta ⟨beta, statistic_enum.Fermion, nwf⟩ tail_corr_nwf) kmesh g_wk
        (fermionic_index nwf n1) a b c d := by
    intro n1
    rw [Finset.sum_eq_single n1]
    · simp
    · intro n2 _ hne
      simp [Ne.symm hne]
    · intro hno
      exact absurd (Finset.mem_univ n1) hno
  rw [Finset.sum_congr rfl (fun n1 _ => hsum n1)]
  ring

/-- C16: for an admissible tail size and invertible kernels, any two orderings
and distributions of the same `(k, w)` units make
`chiq_sum_nu_from_g_wk_and_gamma_PH` write the same value to `chi_kw[k, w]`,
whatever the arrays held at their declaration; this value is the one obtained by
processing the unit alone with zeroed buffers, and after every iteration of a
unit's loop the reused buffer `chi0_nn` is block-diagonal. -/
theorem chiq_sum_nu_from_g_wk_and_gamma_PH_order_independent {F K : Type} [Field F]
    [DecidableEq F] [AddCommGroup K] [DecidableEq K] {nb : Nat}
    (density : gf_mesh_imfreq F → (ℤ → F) → F) (slices1 slices2 : List (List (K × ℤ)))
    (mem1 mem2 : Fin 3 → tensor4 F nb) (kmesh : List K) (g_wk : ℤ → K → matrix2 F nb)
    (beta : F) (nwf : ℕ) (gamma_ph_wnn : ℤ → g2_nn_t F (2 * nwf) nb) (tail_corr_nwf : ℤ)
    (htail : ¬(0 < tail_corr_nwf ∧ tail_corr_nwf < nwf))
    (hperm : slices1.flatten.Perm slices2.flatten) (hnd : slices1.flatten.Nodup)
    (hdet : ∀ kw ∈ slices1.flatten, (bse_kernel (chi0_on_main_mesh
      (tail_mesh beta ⟨beta, statistic_enum.Fermion, nwf⟩ tail_corr_nwf) kmesh g_wk nwf)
      gamma_ph_wnn kw.2 kw.1).det ≠ 0) :
    ∃ chi1 chi2,
      chiq_sum_nu_from_g_wk_and_gamma_PH density slices1 mem1 kmesh g_wk beta nwf gamma_ph_wnn
        tail_corr_nwf = Except.ok chi1 ∧
      chiq_sum_nu_from_g_wk_and_gamma_PH density slices2 mem2 kmesh g_wk beta nwf gamma_ph_wnn
        tail_corr_nwf = Except.ok chi2 ∧
      (∀ kw ∈ slices1.flatten, chi1 kw.1 kw.2 = chi2 kw.1 kw.2 ∧
        ∃ buf, bse_tail_corr_unit density beta
            (tail_mesh beta ⟨beta, statistic_enum.Fermion, nwf⟩ tail_corr_nwf)
            (gamma_ph_wnn kw.2)
            (chi0_n_from_g_wk_PH kw.2 kw.1
              (tail_mesh beta ⟨beta, statistic_enum.Fermion, nwf⟩ tail_corr_nwf) kmesh g_wk)
            ⟨0, 0, 0, 0, 0⟩ = Except.ok buf ∧ chi1 kw.1 kw.2 = buf.tr_chi) ∧
      ∀ arr ∈ slices1, ∀ p : List (K × ℤ), p <+: arr →
        ∃ st, p.foldlM (chiq_sum_nu_from_g_wk_and_gamma_PH_step density kmesh g_wk beta nwf
            gamma_ph_wnn (tail_mesh beta ⟨beta, statistic_enum.Fermion, nwf⟩ tail_corr_nwf))
            (0, ⟨0, 0, mem1 0, mem1 1, mem1 2⟩) = Except.ok st ∧
          block_diagonal st.2.chi0_nn := by
  obtain ⟨chi1, hok1, hval1⟩ := g_wk_solver_ok density slices1 mem1 kmesh g_wk beta nwf
    gamma_ph_wnn tail_corr_nwf htail hnd hdet
  obtain ⟨chi2, hok2, hval2⟩ := g_wk_solver_ok density slices2 mem2 kmesh g_wk beta nwf
    gamma_ph_wnn tail_corr_nwf htail (hperm.nodup_iff.mp hnd)
    (fun kw hkw => hdet kw (hperm.mem_iff.mpr hkw))
  refine ⟨chi1, chi2, hok1, hok2, ?_, ?_⟩
  · intro kw hkw
    refine ⟨?_, ?_⟩
    · rw [hval1 kw hkw, hval2 kw (hperm.mem_iff.mp hkw)]
    · obtain ⟨buf, hbuf, hv⟩ := bse_tail_corr_unit_value density kmesh g_wk beta nwf
        gamma_ph_wnn (tail_mesh beta ⟨beta, statistic_enum.Fermion, nwf⟩ tail_corr_nwf) kw
        ⟨0, 0, 0, 0, 0⟩ (fun _ _ _ => rfl) (hdet kw hkw)
      exact ⟨buf, hbuf, by rw [hval1 kw hkw, hv]⟩
  · intro arr harr p hp
    obtain ⟨st, hst, hinv, _⟩ := g_wk_solver_slice_invariant density kmesh g_wk beta nwf
      gamma_ph_wnn (tail_mesh beta ⟨beta, statistic_enum.Fermion, nwf⟩ tail_corr_nwf) p
      (fun kw hkw => hdet kw (List.mem_flatten.mpr ⟨arr, harr, hp.subset hkw⟩))
      (0, ⟨0, 0, mem1 0, mem1 1, mem1 2⟩) (fun _ _ _ => rfl)
    exact ⟨st, hst, hinv⟩

/-- Worked example for C19: two momenta on two execution units, one bosonic
frequency, the zero vertex on two fermionic frequencies, a tail mesh of four. -/
theorem chiq_sum_nu_from_g_wk_and_gamma_PH_zero_vertex_witness :
    (∀ w : ℤ, (fun _ => (0 : g2_nn_t ℚ (2 * 1) 1)) w = 0) ∧
    ¬(0 < (2 : ℤ) ∧ (2 : ℤ) < ((1 : ℕ) : ℤ)) ∧
    mpi_view_of (List.product [(0 : Fin 2), 1] [(0 : ℤ)]) [[(0, 0)], [(1, 0)]] ∧
    [(0 : Fin 2), 1].Nodup ∧ [(0 : ℤ)].Nodup ∧
    ∃ chi_kw, chiq_sum_nu_from_g_wk_and_gamma_PH (fun _ f => f 0 + 1) [[(0, 0)], [(1, 0)]]
        (fun _ _ _ _ _ => 7) [(0 : Fin 2), 1] g_wk_example (3 : ℚ) 1 (fun _ => 0) 2 =
          Except.ok chi_kw ∧
      ∀ k ∈ [(0 : Fin 2), 1], ∀ w ∈ [(0 : ℤ)], ∀ a b c d : Fin 1, chi_kw k w a b c d =
        (fun (_ : gf_mesh_imfreq ℚ) (f : ℤ → ℚ) => f 0 + 1)
          (tail_mesh (3 : ℚ) ⟨3, statistic_enum.Fermion, ((1 : ℕ) : ℤ)⟩ 2)
          (fun n => chi0_n_from_g_wk_PH w k
            (tail_mesh (3 : ℚ) ⟨3, statistic_enum.Fermion, ((1 : ℕ) : ℤ)⟩ 2) [(0 : Fin 2), 1]
            g_wk_example n a b c d) / 3 :=
  ⟨fun _ => rfl, by decide, by decide, by decide, by decide,
    chiq_sum_nu_from_g_wk_and_gamma_PH_zero_vertex (fun _ f => f 0 + 1) [[(0, 0)], [(1, 0)]]
      (fun _ _ _ _ _ => 7) [(0 : Fin 2), 1] [(0 : ℤ)] g_wk_example (3 : ℚ) 1 (fun _ => 0) 2
      (fun _ => rfl) (by decide) (by decide) (by decide) (by decide)⟩

/-- Worked example for C16: the two units `(0, 0)` and `(1, 0)` handled by two
execution units in one run and by one execution unit in the opposite order in
the other, with different contents of the arrays at their declaration. -/
theorem chiq_sum_nu_from_g_wk_and_gamma_PH_order_independent_witness :
    ¬(0 < (2 : ℤ) ∧ (2 : ℤ) < ((1 : ℕ) : ℤ)) ∧
    [[((0 : Fin 2), (0 : ℤ))], [(1, 0)]].flatten.Perm [[((1 : Fin 2), (0 : ℤ)), (0, 0)]].flatten ∧
    [[((0 : Fin 2), (0 : ℤ))], [(1, 0)]].flatten.Nodup ∧
    (∀ kw ∈ [[((0 : Fin 2), (0 : ℤ))], [(1, 0)]].flatten, (bse_kernel (chi0_on_main_mesh
      (tail_mesh (3 : ℚ) ⟨3, statistic_enum.Fermion, ((1 : ℕ) : ℤ)⟩ 2) [(0 : Fin 2), 1]
      g_wk_example 1) gamma_ph_tail_example kw.2 kw.1).det ≠ 0) ∧
    ∃ chi1 chi2,
      chiq_sum_nu_from_g_wk_and_gamma_PH (fun _ f => f 0 + 1) [[((0 : Fin 2), (0 : ℤ))], [(1, 0)]]
        (fun _ _ _ _ _ => 7) [(0 : Fin 2), 1] g_wk_example (3 : ℚ) 1 gamma_ph_tail_example 2 =
          Except.ok chi1 ∧
      chiq_sum_nu_from_g_wk_and_gamma_PH (fun _ f => f 0 + 1) [[((1 : Fin 2), (0 : ℤ)), (0, 0)]]
        (fun _ _ _ _ _ => 11) [(0 : Fin 2), 1] g_wk_example (3 : ℚ) 1 gamma_ph_tail_example 2 =
          Except.ok chi2 ∧
      (∀ kw ∈ [[((0 : Fin 2), (0 : ℤ))], [(1, 0)]].flatten, chi1 kw.1 kw.2 = chi2 kw.1 kw.2 ∧
        ∃ buf, bse_tail_corr_unit (fun _ f => f 0 + 1) (3 : ℚ)
            (tail_mesh (3 : ℚ) ⟨3, statistic_enum.Fermion, ((1 : ℕ) : ℤ)⟩ 2)
            (gamma_ph_tail_example kw.2)
            (chi0_n_from_g_wk_PH kw.2 kw.1
              (tail_mesh (3 : ℚ) ⟨3, statistic_enum.Fermion, ((1 : ℕ) : ℤ)⟩ 2) [(0 : Fin 2), 1]
              g_wk_example)
            ⟨0, 0, 0, 0, 0⟩ = Except.ok buf ∧ chi1 kw.1 kw.2 = buf.tr_chi) ∧
      ∀ arr ∈ [[((0 : Fin 2), (0 : ℤ))], [(1, 0)]], ∀ p : List (Fin 2 × ℤ), p <+: arr →
        ∃ st, p.foldlM (chiq_sum_nu_from_g_wk_and_gamma_PH_step (fun _ f => f 0 + 1)
            [(0 : Fin 2), 1] g_wk_example (3 : ℚ) 1 gamma_ph_tail_example
            (tail_mesh (3 : ℚ) ⟨3, statistic_enum.Fermion, ((1 : ℕ) : ℤ)⟩ 2))
            (0, ⟨0, 0, (fun _ _ _ _ _ => 7 : Fin 3 → tensor4 ℚ 1) 0,
              (fun _ _ _ _ _ => 7 : Fin 3 → tensor4 ℚ 1) 1,
              (fun _ _ _ _ _ => 7 : Fin 3 → tensor4 ℚ 1) 2⟩) = Except.ok st ∧
          block_diagonal st.2.chi0_nn :=
  ⟨by decide, by decide, by decide, fun kw _ => bse_kernel_tail_example_det _ kw.2 kw.1,
    chiq_sum_nu_from_g_wk_and_gamma_PH_order_independent (fun _ f => f 0 + 1)
      [[((0 : Fin 2), (0 : ℤ))], [(1, 0)]] [[((1 : Fin 2), (0 : ℤ)), (0, 0)]]
      (fun _ _ _ _ _ => 7) (fun _ _ _ _ _ => 11) [(0 : Fin 2), 1] g_wk_example (3 : ℚ) 1
      gamma_ph_tail_example 2 (by decide) (by decide) (by decide)
      (fun kw _ => bse_kernel_tail_example_det _ kw.2 kw.1)⟩


/-- C15: in `chi0r_from_gr_PH` the output is the sum of the partial outputs of
the execution units; a unit's partial output is the bubble formula on the sites
it owns and zero on every other site; and for disjoint slices covering the site
mesh the sum of the partial outputs is the output of a single unit owning every
site. -/
theorem chi0r_from_gr_PH_disjoint_ownership_merge {F K : Type} [Field F] [AddCommGroup K]
    [DecidableEq K] {nb : Nat} (rmesh : List K) (slices : List (List K)) (nw nnu : ℤ)
    (fmesh_large : gf_mesh_imfreq F) (g_nr : ℤ → K → matrix2 F nb)
    (hv : mpi_view_of rmesh slices) (hnd : rmesh.Nodup) :
    chi0r_from_gr_PH slices nw nnu fmesh_large g_nr =
        mpi_all_reduce (slices.map
          (fun arr => chi0r_from_gr_PH_unit arr nw nnu fmesh_large g_nr)) ∧
      (∀ arr ∈ slices, ∀ r ∈ arr,
        ∀ w ∈ (gf_mesh_imfreq.mk fmesh_large.beta statistic_enum.Boson nw).points,
        ∀ n ∈ (gf_mesh_imfreq.mk fmesh_large.beta statistic_enum.Fermion nnu).points,
        ∀ a b c d : Fin nb,
          chi0r_from_gr_PH_unit arr nw nnu fmesh_large g_nr w n r a b c d =
            -fmesh_large.beta * g_nr n r d a * g_nr (n + w) (-r) b c) ∧
      (∀ arr ∈ slices, ∀ r, r ∉ arr → ∀ w n : ℤ,
        chi0r_from_gr_PH_unit arr nw nnu fmesh_large g_nr w n r = 0) ∧
      mpi_all_reduce (slices.map
          (fun arr => chi0r_from_gr_PH_unit arr nw nnu fmesh_large g_nr)) =
        chi0r_from_gr_PH_unit rmesh nw nnu fmesh_large g_nr := by
  unfold mpi_view_of at hv
  have hunit : ∀ (arr : List K) (w n : ℤ) (r : K),
      chi0r_from_gr_PH_unit arr nw nnu fmesh_large g_nr w n r =
        if r ∈ arr then chi0r_from_gr_PH_site fmesh_large.beta
          (gf_mesh_imfreq.mk fmesh_large.beta statistic_enum.Boson nw).points
          (gf_mesh_imfreq.mk fmesh_large.beta statistic_enum.Fermion nnu).points g_nr r w n
        else 0 := by
    intro arr w n r
    unfold chi0r_from_gr_PH_unit
    rw [foldl_set_slice_r (fun r => chi0r_from_gr_PH_site fmesh_large.beta
      (gf_mesh_imfreq.mk fmesh_large.beta statistic_enum.Boson nw).points
      (gf_mesh_imfreq.mk fmesh_large.beta statistic_enum.Fermion nnu).points g_nr r)]
    rfl
  refine ⟨rfl, ?_, ?_, ?_⟩
  · intro arr _ r hr w hw n hn a b c d
    rw [hunit, if_pos hr, chi0r_from_gr_PH_site_apply, if_pos ⟨hw, hn⟩]
  · intro arr _ r hr w n
    rw [hunit, if_neg hr]
  · funext w n r
    rw [mpi_all_reduce_apply3, List.map_map, hunit]
    have hpart : ∀ arr : List K,
        ((fun p : ℤ → ℤ → K → tensor4 F nb => p w n r) ∘
          fun arr => chi0r_from_gr_PH_unit arr nw nnu fmesh_large g_nr) arr =
        if r ∈ arr then chi0r_from_gr_PH_site fmesh_large.beta
          (gf_mesh_imfreq.mk fmesh_large.beta statistic_enum.Boson nw).points
          (gf_mesh_imfreq.mk fmesh_large.beta statistic_enum.Fermion nnu).points g_nr r w n
        else 0 := by
      intro arr
      exact hunit arr w n r
    rw [List.map_congr_left (fun arr _ => hpart arr),
      sum_scatter (fun r => chi0r_from_gr_PH_site fmesh_large.beta
        (gf_mesh_imfreq.mk fmesh_large.beta statistic_enum.Boson nw).points
        (gf_mesh_imfreq.mk fmesh_large.beta statistic_enum.Fermion nnu).points g_nr r w n)
        slices (hv ▸ hnd) r, hv]

/-- Worked example for C15: two sites owned by two execution units. -/
theorem chi0r_from_gr_PH_disjoint_ownership_merge_witness :
    mpi_view_of [(0 : Fin 2), 1] [[0], [1]] ∧ [(0 : Fin 2), 1].Nodup ∧
    (chi0r_from_gr_PH [[(0 : Fin 2)], [1]] 1 1
        (gf_mesh_imfreq.mk (3 : ℚ) statistic_enum.Fermion 4) g_wk_example =
        mpi_all_reduce ([[(0 : Fin 2)], [1]].map (fun arr => chi0r_from_gr_PH_unit arr 1 1
          (gf_mesh_imfreq.mk (3 : ℚ) statistic_enum.Fermion 4) g_wk_example)) ∧
      (∀ arr ∈ [[(0 : Fin 2)], [1]], ∀ r ∈ arr,
        ∀ w ∈ (gf_mesh_imfreq.mk (gf_mesh_imfreq.mk (3 : ℚ) statistic_enum.Fermion 4).beta
          statistic_enum.Boson 1).points,
        ∀ n ∈ (gf_mesh_imfreq.mk (gf_mesh_imfreq.mk (3 : ℚ) statistic_enum.Fermion 4).beta
          statistic_enum.Fermion 1).points,
        ∀ a b c d : Fin 1,
          chi0r_from_gr_PH_unit arr 1 1 (gf_mesh_imfreq.mk (3 : ℚ) statistic_enum.Fermion 4)
              g_wk_example w n r a b c d =
            -(gf_mesh_imfreq.mk (3 : ℚ) statistic_enum.Fermion 4).beta * g_wk_example n r d a *
              g_wk_example (n + w) (-r) b c) ∧
      (∀ arr ∈ [[(0 : Fin 2)], [1]], ∀ r, r ∉ arr → ∀ w n : ℤ,
        chi0r_from_gr_PH_unit arr 1 1 (gf_mesh_imfreq.mk (3 : ℚ) statistic_enum.Fermion 4)
          g_wk_example w n r = 0) ∧
      mpi_all_reduce ([[(0 : Fin 2)], [1]].map (fun arr => chi0r_from_gr_PH_unit arr 1 1
          (gf_mesh_imfreq.mk (3 : ℚ) statistic_enum.Fermion 4) g_wk_example)) =
        chi0r_from_gr_PH_unit [(0 : Fin 2), 1] 1 1
          (gf_mesh_imfreq.mk (3 : ℚ) statistic_enum.Fermion 4) g_wk_example) :=
  ⟨by decide, by decide,
    chi0r_from_gr_PH_disjoint_ownership_merge [(0 : Fin 2), 1] [[0], [1]] 1 1
      (gf_mesh_imfreq.mk (3 : ℚ) statistic_enum.Fermion 4) g_wk_example (by decide)
      (by decide)⟩

/-- C20 (failing input): `nw = 3`, `nnu = 1` and a propagator tabulated on the
fermionic mesh of two frequencies, indices `-2 .. 1`. The assertion
`fmesh.size() < fmesh_large.size()` holds (`2 < 4`), yet for `n = 0` and `w = 2`
the shifted lookup `g_wk[n + w, k - q]` addresses the index `2`, outside the
tabulated mesh. -/
theorem chi0q_from_g_wk_PH_shifted_lookup_out_of_range :
    (1 : ℤ) ≤ 3 ∧ (1 : ℤ) ≤ 1 ∧
    chi0q_from_g_wk_PH_asserted 1 (gf_mesh_imfreq.mk (1 : ℚ) statistic_enum.Fermion 2) ∧
    (gf_mesh_imfreq.mk (1 : ℚ) statistic_enum.Fermion 2).points = [-2, -1, 0, 1] ∧
    (0 : ℤ) ∈ (gf_mesh_imfreq.mk (1 : ℚ) statistic_enum.Fermion 1).points ∧
    (2 : ℤ) ∈ (gf_mesh_imfreq.mk (1 : ℚ) statistic_enum.Boson 3).points ∧
    (0 + 2 : ℤ) ∈ chi0q_from_g_wk_PH_lookups 3 1
      (gf_mesh_imfreq.mk (1 : ℚ) statistic_enum.Fermion 2) ∧
    (0 + 2 : ℤ) ∉ (gf_mesh_imfreq.mk (1 : ℚ) statistic_enum.Fermion 2).points := by
  refine ⟨by decide, by decide, ?_, by decide, by decide, by decide, by decide, by decide⟩
  unfold chi0q_from_g_wk_PH_asserted
  decide


/-- C17: over the complex numbers, for `beta > 0`, real `U ≠ 0`, every bosonic
index `w` and fermionic index `n`, no denominator of `chi_ph_magnetic` and
`single_particle_greens_function` vanishes: `-n^2 + U^2/4`,
`-(n+w)^2 + U^2/4` and their product, `1 - C(w)` with
`C(0) = -(beta*U/2)/(1 + exp(-beta*U/2))` and `C(w) = 0` otherwise, the two
`1 + exp(±beta*U/2)`, `4*iw` and `iw - U^2/(4*iw)`. -/
theorem hubbard_atom_no_division_by_zero (sqrt abs : ℂ → ℂ) (beta U : ℝ) (hb : 0 < beta)
    (hU : U ≠ 0) (w n : ℤ) :
    hubbard_pole_factor (U : ℂ)
        (fermionic_value ⟨Complex.exp, sqrt, abs, Complex.I, (Real.pi : ℂ)⟩ (beta : ℂ) n) ≠ 0 ∧
      hubbard_shifted_pole_factor (U : ℂ)
        (fermionic_value ⟨Complex.exp, sqrt, abs, Complex.I, (Real.pi : ℂ)⟩ (beta : ℂ) n)
        (bosonic_value ⟨Complex.exp, sqrt, abs, Complex.I, (Real.pi : ℂ)⟩ (beta : ℂ) w) ≠ 0 ∧
      hubbard_denominator (U : ℂ)
        (fermionic_value ⟨Complex.exp, sqrt, abs, Complex.I, (Real.pi : ℂ)⟩ (beta : ℂ) n)
        (bosonic_value ⟨Complex.exp, sqrt, abs, Complex.I, (Real.pi : ℂ)⟩ (beta : ℂ) w) ≠ 0 ∧
      hubbard_D_denominator ⟨Complex.exp, sqrt, abs, Complex.I, (Real.pi : ℂ)⟩ (beta : ℂ)
        (U : ℂ) w ≠ 0 ∧
      hubbard_C ⟨Complex.exp, sqrt, abs, Complex.I, (Real.pi : ℂ)⟩ (beta : ℂ) (U : ℂ) 0 =
        -(beta : ℂ) * U * (1 / 2) / (1 + Complex.exp (-(beta : ℂ) * U * (1 / 2))) ∧
      (w ≠ 0 →
        hubbard_C ⟨Complex.exp, sqrt, abs, Complex.I, (Real.pi : ℂ)⟩ (beta : ℂ) (U : ℂ) w =
          0) ∧
      hubbard_C_denominator ⟨Complex.exp, sqrt, abs, Complex.I, (Real.pi : ℂ)⟩ (beta : ℂ)
        (U : ℂ) ≠ 0 ∧
      hubbard_B_denominator ⟨Complex.exp, sqrt, abs, Complex.I, (Real.pi : ℂ)⟩ (beta : ℂ)
        (U : ℂ) ≠ 0 ∧
      greens_function_inner_denominator
        (fermionic_value ⟨Complex.exp, sqrt, abs, Complex.I, (Real.pi : ℂ)⟩ (beta : ℂ) n) ≠ 0 ∧
      greens_function_denominator (U : ℂ)
        (fermionic_value ⟨Complex.exp, sqrt, abs, Complex.I, (Real.pi : ℂ)⟩ (beta : ℂ) n) ≠
          0 := by
  have ha := fermionic_frequency_ne_zero beta hb n
  have hU2 : 0 < U ^ 2 / 4 := by positivity
  have hpole : hubbard_pole_factor (U : ℂ)
      (fermionic_value ⟨Complex.exp, sqrt, abs, Complex.I, (Real.pi : ℂ)⟩ (beta : ℂ) n) ≠
        0 := by
    rw [fermionic_value_complex, pole_factor_complex]
    exact Complex.ofReal_ne_zero.mpr (ne_of_gt (add_pos_of_nonneg_of_pos (sq_nonneg _) hU2))
  have hshift : hubbard_shifted_pole_factor (U : ℂ)
      (fermionic_value ⟨Complex.exp, sqrt, abs, Complex.I, (Real.pi : ℂ)⟩ (beta : ℂ) n)
      (bosonic_value ⟨Complex.exp, sqrt, abs, Complex.I, (Real.pi : ℂ)⟩ (beta : ℂ) w) ≠
        0 := by
    rw [fermionic_value_complex, bosonic_value_complex, shifted_pole_factor_complex]
    exact Complex.ofReal_ne_zero.mpr (ne_of_gt (add_pos_of_nonneg_of_pos (sq_nonneg _) hU2))
  have hin : greens_function_inner_denominator
      (fermionic_value ⟨Complex.exp, sqrt, abs, Complex.I, (Real.pi : ℂ)⟩ (beta : ℂ) n) ≠
        0 := by
    rw [fermionic_value_complex]
    unfold greens_function_inner_denominator
    exact mul_ne_zero (by norm_num)
      (mul_ne_zero (Complex.ofReal_ne_zero.mpr ha) Complex.I_ne_zero)
  refine ⟨hpole, hshift, mul_ne_zero hpole hshift, ?_, ?_, ?_, ?_, ?_, hin, ?_⟩
  · by_cases hw : w = 0
    · subst hw
      rw [hubbard_C_zero_complex]
      apply Complex.ofReal_ne_zero.mpr
      have h := one_add_div_exp_pos (beta * U * (1 / 2))
      have e : -(beta * U * (1 / 2)) = -beta * U * (1 / 2) := by ring
      rw [e] at h
      exact ne_of_gt h
    · unfold hubbard_D_denominator hubbard_C
      rw [if_neg hw, sub_zero]
      exact one_ne_zero
  · unfold hubbard_C hubbard_C_denominator
    rw [if_pos rfl]
  · intro hw
    unfold hubbard_C
    rw [if_neg hw]
  · unfold hubbard_C_denominator
    have h : (1 : ℂ) + Complex.exp (-(beta : ℂ) * U * (1 / 2)) =
        ((1 + Real.exp (-beta * U * (1 / 2)) : ℝ) : ℂ) := by
      push_cast
      ring_nf
    show (1 : ℂ) + Complex.exp (-(beta : ℂ) * U * (1 / 2)) ≠ 0
    rw [h]
    exact Complex.ofReal_ne_zero.mpr (ne_of_gt (by positivity))
  · unfold hubbard_B_denominator
    have h : (1 : ℂ) + Complex.exp ((beta : ℂ) * U * (1 / 2)) =
        ((1 + Real.exp (beta * U * (1 / 2)) : ℝ) : ℂ) := by
      push_cast
      ring_nf
    show (1 : ℂ) + Complex.exp ((beta : ℂ) * U * (1 / 2)) ≠ 0
    rw [h]
    exact Complex.ofReal_ne_zero.mpr (ne_of_gt (by positivity))
  · intro h0
    have hmul : greens_function_denominator (U : ℂ)
        (fermionic_value ⟨Complex.exp, sqrt, abs, Complex.I, (Real.pi : ℂ)⟩ (beta : ℂ) n) *
        greens_function_inner_denominator
          (fermionic_value ⟨Complex.exp, sqrt, abs, Complex.I, (Real.pi : ℂ)⟩ (beta : ℂ) n) =
        -(4 * hubbard_pole_factor (U : ℂ)
          (fermionic_value ⟨Complex.exp, sqrt, abs, Complex.I, (Real.pi : ℂ)⟩ (beta : ℂ)
            n)) := by
      unfold greens_function_denominator
      rw [sub_mul, div_mul_cancel₀ _ hin]
      unfold greens_function_inner_denominator hubbard_pole_factor
      ring
    rw [h0, zero_mul] at hmul
    have h4 : (4 : ℂ) * hubbard_pole_factor (U : ℂ)
        (fermionic_value ⟨Complex.exp, sqrt, abs, Complex.I, (Real.pi : ℂ)⟩ (beta : ℂ) n) =
          0 := by
      rw [← neg_eq_zero]
      exact hmul.symm
    rcases mul_eq_zero.mp h4 with h5 | h5
    · norm_num at h5
    · exact hpole h5

/-- Worked example for C17: `beta = 2`, `U = 1`, the zeroth bosonic and
fermionic frequencies. -/
theorem hubbard_atom_no_division_by_zero_witness :
    (0 : ℝ) < 2 ∧ (1 : ℝ) ≠ 0 ∧
    (hubbard_pole_factor (((1 : ℝ)) : ℂ)
        (fermionic_value ⟨Complex.exp, id, id, Complex.I, (Real.pi : ℂ)⟩ (((2 : ℝ)) : ℂ) 0) ≠ 0 ∧
      hubbard_shifted_pole_factor (((1 : ℝ)) : ℂ)
        (fermionic_value ⟨Complex.exp, id, id, Complex.I, (Real.pi : ℂ)⟩ (((2 : ℝ)) : ℂ) 0)
        (bosonic_value ⟨Complex.exp, id, id, Complex.I, (Real.pi : ℂ)⟩ (((2 : ℝ)) : ℂ) 0) ≠ 0 ∧
      hubbard_denominator (((1 : ℝ)) : ℂ)
        (fermionic_value ⟨Complex.exp, id, id, Complex.I, (Real.pi : ℂ)⟩ (((2 : ℝ)) : ℂ) 0)
        (bosonic_value ⟨Complex.exp, id, id, Complex.I, (Real.pi : ℂ)⟩ (((2 : ℝ)) : ℂ) 0) ≠ 0 ∧
      hubbard_D_denominator ⟨Complex.exp, id, id, Complex.I, (Real.pi : ℂ)⟩ (((2 : ℝ)) : ℂ)
        (((1 : ℝ)) : ℂ) 0 ≠ 0 ∧
      hubbard_C ⟨Complex.exp, id, id, Complex.I, (Real.pi : ℂ)⟩ (((2 : ℝ)) : ℂ)
          (((1 : ℝ)) : ℂ) 0 =
        -(((2 : ℝ)) : ℂ) * (((1 : ℝ)) : ℂ) * (1 / 2) /
          (1 + Complex.exp (-(((2 : ℝ)) : ℂ) * (((1 : ℝ)) : ℂ) * (1 / 2))) ∧
      ((0 : ℤ) ≠ 0 →
        hubbard_C ⟨Complex.exp, id, id, Complex.I, (Real.pi : ℂ)⟩ (((2 : ℝ)) : ℂ)
          (((1 : ℝ)) : ℂ) 0 = 0) ∧
      hubbard_C_denominator ⟨Complex.exp, id, id, Complex.I, (Real.pi : ℂ)⟩ (((2 : ℝ)) : ℂ)
        (((1 : ℝ)) : ℂ) ≠ 0 ∧
      hubbard_B_denominator ⟨Complex.exp, id, id, Complex.I, (Real.pi : ℂ)⟩ (((2 : ℝ)) : ℂ)
        (((1 : ℝ)) : ℂ) ≠ 0 ∧
      greens_function_inner_denominator
        (fermionic_value ⟨Complex.exp, id, id, Complex.I, (Real.pi : ℂ)⟩ (((2 : ℝ)) : ℂ) 0) ≠ 0 ∧
      greens_function_denominator (((1 : ℝ)) : ℂ)
        (fermionic_value ⟨Complex.exp, id, id, Complex.I, (Real.pi : ℂ)⟩ (((2 : ℝ)) : ℂ) 0) ≠
          0) :=
  ⟨by norm_num, by norm_num,
    hubbard_atom_no_division_by_zero id id 2 1 (by norm_num) (by norm_num) 0 0⟩

/-- C21: for two meshes with the same `beta`, `fmesh` contained in `fmesh_tail`,
the bubble `chi0_n_from_g_wk_PH(w, q, fmesh_tail, g_wk)` at a frequency `n` of
`fmesh` is `chi0_n_from_g_wk_PH(w, q, fmesh, g_wk)[n]`. In the Bethe-Salpeter
loop, once the tail-size check has passed, the tail mesh has the vertex's `beta`
and contains the vertex's mesh, and the main-mesh bubble copied from the tail
bubble (as read by the solver and as left in the buffer `chi0_n`) is the bubble
of the same propagator on the vertex's mesh. -/
theorem chi0_n_from_g_wk_PH_mesh_independent {F K : Type} [Field F] [DecidableEq F]
    [AddCommGroup K] {nb : Nat} (w : ℤ) (q : K) (fmesh fmesh_tail : gf_mesh_imfreq F)
    (kmesh : List K) (g_wk : ℤ → K → matrix2 F nb) (hbeta : fmesh.beta = fmesh_tail.beta)
    (hsub : ∀ n ∈ fmesh.points, n ∈ fmesh_tail.points) :
    (∀ n ∈ fmesh.points, chi0_n_from_g_wk_PH w q fmesh_tail kmesh g_wk n =
        chi0_n_from_g_wk_PH w q fmesh kmesh g_wk n) ∧
      ∀ (beta : F) (nwf : ℕ) (tail_corr_nwf : ℤ),
        ¬ (tail_mesh beta ⟨beta, statistic_enum.Fermion, nwf⟩ tail_corr_nwf).size <
            (gf_mesh_imfreq.mk beta statistic_enum.Fermion nwf).size →
          (tail_mesh beta ⟨beta, statistic_enum.Fermion, nwf⟩ tail_corr_nwf).beta = beta ∧
          (∀ n ∈ (gf_mesh_imfreq.mk beta statistic_enum.Fermion nwf).points,
            n ∈ (tail_mesh beta ⟨beta, statistic_enum.Fermion, nwf⟩ tail_corr_nwf).points) ∧
          (∀ i : Fin (2 * nwf),
            chi0_on_main_mesh (tail_mesh beta ⟨beta, statistic_enum.Fermion, nwf⟩
                tail_corr_nwf) kmesh g_wk nwf w i q =
              chi0_n_from_g_wk_PH w q ⟨beta, statistic_enum.Fermion, nwf⟩ kmesh g_wk
                (fermionic_index nwf i)) ∧
          ∀ (density : gf_mesh_imfreq F → (ℤ → F) → F) (gamma_w : g2_nn_t F (2 * nwf) nb)
            (buf buf1 : bse_buffers F nwf nb),
            bse_tail_corr_unit density beta
                (tail_mesh beta ⟨beta, statistic_enum.Fermion, nwf⟩ tail_corr_nwf) gamma_w
                (chi0_n_from_g_wk_PH w q
                  (tail_mesh beta ⟨beta, statistic_enum.Fermion, nwf⟩ tail_corr_nwf)
                  kmesh g_wk) buf = Except.ok buf1 →
              ∀ i : Fin (2 * nwf), buf1.chi0_n i =
                chi0_n_from_g_wk_PH w q ⟨beta, statistic_enum.Fermion, nwf⟩ kmesh g_wk
                  (fermionic_index nwf i) := by
  refine ⟨fun n hn => chi0_n_from_g_wk_PH_restrict w q fmesh fmesh_tail kmesh g_wk hbeta n hn
    (hsub n hn), ?_⟩
  intro beta nwf tail_corr_nwf hsize
  have hcopy : ∀ i : Fin (2 * nwf),
      chi0_n_from_g_wk_PH w q (tail_mesh beta ⟨beta, statistic_enum.Fermion, nwf⟩
          tail_corr_nwf) kmesh g_wk (fermionic_index nwf i) =
        chi0_n_from_g_wk_PH w q ⟨beta, statistic_enum.Fermion, nwf⟩ kmesh g_wk
          (fermionic_index nwf i) := by
    intro i
    exact chi0_n_from_g_wk_PH_restrict w q ⟨beta, statistic_enum.Fermion, nwf⟩ _ kmesh g_wk
      (tail_mesh_beta beta nwf tail_corr_nwf).symm _ (fermionic_index_mem_points beta nwf i)
      (tail_mesh_contains beta nwf tail_corr_nwf hsize _
        (fermionic_index_mem_points beta nwf i))
  refine ⟨tail_mesh_beta beta nwf tail_corr_nwf,
    tail_mesh_contains beta nwf tail_corr_nwf hsize, hcopy, ?_⟩
  intro density gamma_w buf buf1 h i
  rw [bse_tail_corr_unit_chi0_n density beta _ gamma_w _ buf buf1 h i]
  exact hcopy i

/-- Worked example for C21: the mesh `{-1, 0}` inside the mesh `{-2, .., 1}` at
`beta = 3`, two momenta, one orbital. -/
theorem chi0_n_from_g_wk_PH_mesh_independent_witness :
    (gf_mesh_imfreq.mk (3 : ℚ) statistic_enum.Fermion 1).beta =
      (gf_mesh_imfreq.mk (3 : ℚ) statistic_enum.Fermion 2).beta ∧
    (∀ n ∈ (gf_mesh_imfreq.mk (3 : ℚ) statistic_enum.Fermion 1).points,
      n ∈ (gf_mesh_imfreq.mk (3 : ℚ) statistic_enum.Fermion 2).points) ∧
    (∀ n ∈ (gf_mesh_imfreq.mk (3 : ℚ) statistic_enum.Fermion 1).points,
      chi0_n_from_g_wk_PH 1 1 (gf_mesh_imfreq.mk (3 : ℚ) statistic_enum.Fermion 2)
          [(0 : Fin 2), 1] g_wk_example n =
        chi0_n_from_g_wk_PH 1 1 (gf_mesh_imfreq.mk (3 : ℚ) statistic_enum.Fermion 1)
          [(0 : Fin 2), 1] g_wk_example n) :=
  ⟨rfl, by decide,
    (chi0_n_from_g_wk_PH_mesh_independent 1 1
      (gf_mesh_imfreq.mk (3 : ℚ) statistic_enum.Fermion 1)
      (gf_mesh_imfreq.mk (3 : ℚ) statistic_enum.Fermion 2) [(0 : Fin 2), 1] g_wk_example rfl
      (by decide)).1⟩

/-- C22: over the complex numbers, for `beta > 0`, real `U` and every fermionic
Matsubara frequency `iw`, `single_particle_greens_function` returns
`1/(iw - U^2/(4*iw))`, none of `iw`, `iw - U/2`, `iw + U/2` and
`iw - U^2/(4*iw)` vanishes, and the value equals
`(1/2) * (1/(iw - U/2) + 1/(iw + U/2))`. -/
theorem single_particle_greens_function_two_pole_average (sqrt abs : ℂ → ℂ) (beta U : ℝ)
    (hb : 0 < beta) (n : ℤ) :
    single_particle_greens_function ⟨Complex.exp, sqrt, abs, Complex.I, (Real.pi : ℂ)⟩
        (beta : ℂ) (U : ℂ) n =
      1 / (fermionic_value ⟨Complex.exp, sqrt, abs, Complex.I, (Real.pi : ℂ)⟩ (beta : ℂ) n -
        (U : ℂ) ^ 2 /
          (4 * fermionic_value ⟨Complex.exp, sqrt, abs, Complex.I, (Real.pi : ℂ)⟩
            (beta : ℂ) n)) ∧
    fermionic_value ⟨Complex.exp, sqrt, abs, Complex.I, (Real.pi : ℂ)⟩ (beta : ℂ) n ≠ 0 ∧
    fermionic_value ⟨Complex.exp, sqrt, abs, Complex.I, (Real.pi : ℂ)⟩ (beta : ℂ) n -
      (U : ℂ) / 2 ≠ 0 ∧
    fermionic_value ⟨Complex.exp, sqrt, abs, Complex.I, (Real.pi : ℂ)⟩ (beta : ℂ) n +
      (U : ℂ) / 2 ≠ 0 ∧
    fermionic_value ⟨Complex.exp, sqrt, abs, Complex.I, (Real.pi : ℂ)⟩ (beta : ℂ) n -
      (U : ℂ) ^ 2 /
        (4 * fermionic_value ⟨Complex.exp, sqrt, abs, Complex.I, (Real.pi : ℂ)⟩
          (beta : ℂ) n) ≠ 0 ∧
    single_particle_greens_function ⟨Complex.exp, sqrt, abs, Complex.I, (Real.pi : ℂ)⟩
        (beta : ℂ) (U : ℂ) n =
      1 / 2 *
        (1 / (fermionic_value ⟨Complex.exp, sqrt, abs, Complex.I, (Real.pi : ℂ)⟩ (beta : ℂ) n -
            (U : ℂ) / 2) +
          1 / (fermionic_value ⟨Complex.exp, sqrt, abs, Complex.I, (Real.pi : ℂ)⟩ (beta : ℂ) n +
            (U : ℂ) / 2)) := by
  have h0 : fermionic_value ⟨Complex.exp, sqrt, abs, Complex.I, (Real.pi : ℂ)⟩ (beta : ℂ) n ≠
      0 := by
    have h := fermionic_value_add_real_ne_zero sqrt abs beta hb n 0
    rwa [Complex.ofReal_zero, add_zero] at h
  have hm : fermionic_value ⟨Complex.exp, sqrt, abs, Complex.I, (Real.pi : ℂ)⟩ (beta : ℂ) n -
      (U : ℂ) / 2 ≠ 0 := by
    have h := fermionic_value_add_real_ne_zero sqrt abs beta hb n (-(U / 2))
    have e : ((-(U / 2) : ℝ) : ℂ) = -((U : ℂ) / 2) := by push_cast; ring
    rwa [e, ← sub_eq_add_neg] at h
  have hp : fermionic_value ⟨Complex.exp, sqrt, abs, Complex.I, (Real.pi : ℂ)⟩ (beta : ℂ) n +
      (U : ℂ) / 2 ≠ 0 := by
    have h := fermionic_value_add_real_ne_zero sqrt abs beta hb n (U / 2)
    have e : ((U / 2 : ℝ) : ℂ) = (U : ℂ) / 2 := by push_cast; ring
    rwa [e] at h
  obtain ⟨hden, htwo⟩ := greens_function_two_pole (U : ℂ)
    (fermionic_value ⟨Complex.exp, sqrt, abs, Complex.I, (Real.pi : ℂ)⟩ (beta : ℂ) n)
    two_ne_zero h0 hm hp
  have hform : greens_function_denominator (U : ℂ)
      (fermionic_value ⟨Complex.exp, sqrt, abs, Complex.I, (Real.pi : ℂ)⟩ (beta : ℂ) n) =
      fermionic_value ⟨Complex.exp, sqrt, abs, Complex.I, (Real.pi : ℂ)⟩ (beta : ℂ) n -
        (U : ℂ) ^ 2 /
          (4 * fermionic_value ⟨Complex.exp, sqrt, abs, Complex.I, (Real.pi : ℂ)⟩
            (beta : ℂ) n) := by
    unfold greens_function_denominator greens_function_inner_denominator
    rw [pow_two]
  refine ⟨?_, h0, hm, hp, ?_, ?_⟩
  · unfold single_particle_greens_function
    rw [hform]
  · rw [← hform]
    exact hden
  · unfold single_particle_greens_function
    exact htwo

/-- Worked example for C22: `beta = 2`, `U = 1`, the zeroth fermionic frequency. -/
theorem single_particle_greens_function_two_pole_average_witness :
    (0 : ℝ) < 2 ∧
    single_particle_greens_function ⟨Complex.exp, id, id, Complex.I, (Real.pi : ℂ)⟩
        (((2 : ℝ)) : ℂ) (((1 : ℝ)) : ℂ) 0 =
      1 / 2 *
        (1 / (fermionic_value ⟨Complex.exp, id, id, Complex.I, (Real.pi : ℂ)⟩
              (((2 : ℝ)) : ℂ) 0 - (((1 : ℝ)) : ℂ) / 2) +
          1 / (fermionic_value ⟨Complex.exp, id, id, Complex.I, (Real.pi : ℂ)⟩
              (((2 : ℝ)) : ℂ) 0 + (((1 : ℝ)) : ℂ) / 2)) :=
  ⟨by norm_num,
    (single_particle_greens_function_two_pole_average id id 2 1 (by norm_num) 0).2.2.2.2.2⟩

/-- C8 (counterexample): two inputs at which the direct bubble has no value. With
`nw = 1`, `nnu = 2` and a propagator tabulated at the indices `-2 .. 1` every
frequency looked up is tabulated and the real-space route gives `-18` at
`(w, n, q) = (0, 0, 1)`, but `chi0q_from_g_wk_PH` stops at its assertion
(`4 < 4` fails). With `nw = 3`, `nnu = 1` and the same table the assertion holds
and `chi0q_from_g_wk_PH` reads outside the table. -/
theorem chi0q_path_equivalence_not_for_every_nw_nnu :
    (∀ l ∈ chi0q_from_g_wk_PH_lookups 1 2 (gf_mesh_imfreq.mk (3 : ℚ) statistic_enum.Fermion 2),
      l ∈ (gf_mesh_imfreq.mk (3 : ℚ) statistic_enum.Fermion 2).points) ∧
    chi0q_from_g_wk_PH 1 2 (gf_mesh_imfreq.mk (3 : ℚ) statistic_enum.Fermion 2)
      [(0 : Fin 2), 1] g_wk_example = Except.error tprf_error.assertion_failed ∧
    chi0q_from_chi0r phase_example [[(0, -2), (0, -1)], [(0, 0), (0, 1)]]
      (chi0r_from_gr_PH [[0], [1]] 1 2 (gf_mesh_imfreq.mk (3 : ℚ) statistic_enum.Fermion 2)
        (gr_from_gk phase_example g_wk_example)) 0 0 1 0 0 0 0 = -18 ∧
    chi0q_from_g_wk_PH_asserted 1 (gf_mesh_imfreq.mk (3 : ℚ) statistic_enum.Fermion 2) ∧
    chi0q_from_g_wk_PH 3 1 (gf_mesh_imfreq.mk (3 : ℚ) statistic_enum.Fermion 2)
      [(0 : Fin 2), 1] g_wk_example = Except.error tprf_error.out_of_range := by
  refine ⟨by decide, ?_, ?_, ?_, ?_⟩
  · exact chi0q_from_g_wk_PH_assertion 1 2 _ _ _ (by unfold chi0q_from_g_wk_PH_asserted; decide)
  · rw [chi0q_real_space_path_apply phase_example 1 2
      (gf_mesh_imfreq.mk (3 : ℚ) statistic_enum.Fermion 2) [(0 : Fin 2), 1] [[0], [1]]
      [[(0, -2), (0, -1)], [(0, 0), (0, 1)]] g_wk_example
      (gr_from_gk phase_example g_wk_example) (by decide) (by decide) (by decide) (by decide)
      0 0 1 (by decide) (by decide) (fun _ => rfl) (fun _ => rfl)]
    simp [g_wk_example]
    norm_num
  · unfold chi0q_from_g_wk_PH_asserted
    decide
  · rfl

/-- C8 (amended): when the assertion of `chi0q_from_g_wk_PH` holds and every
frequency it looks up, `n` and `n + w`, is tabulated in the propagator,
`chi0q_from_g_wk_PH(nw, nnu, g_wk)` returns a bubble, and at every `(w, n, q)` of
the meshes that bubble equals the one built in real space by `chi0r_from_gr_PH`
from any `g_nr` that is the real-space transform of `g_wk` at the tabulated
frequencies and transformed back by `chi0q_from_chi0r`; the bubble is the same
for every propagator with the same table. -/
theorem chi0q_path_equivalence_on_table {F K : Type} [Field F] [Fintype K] [AddCommGroup K]
    [DecidableEq K] {nb : Nat} (ph : lattice_phase F K) (nw nnu : ℤ)
    (fmesh_large : gf_mesh_imfreq F) (kmesh : List K) (rslices : List (List K))
    (slices : List (List (ℤ × ℤ))) (g_wk : ℤ → K → matrix2 F nb)
    (hk : kmesh.Nodup) (hall : ∀ k, k ∈ kmesh)
    (hr : mpi_view_of (make_adjoint_mesh kmesh) rslices)
    (hs : mpi_view_of (List.product
      (gf_mesh_imfreq.mk fmesh_large.beta statistic_enum.Boson nw).points
      (gf_mesh_imfreq.mk fmesh_large.beta statistic_enum.Fermion nnu).points) slices)
    (hassert : chi0q_from_g_wk_PH_asserted nnu fmesh_large)
    (hrange : ∀ l ∈ chi0q_from_g_wk_PH_lookups nw nnu fmesh_large, l ∈ fmesh_large.points) :
    ∃ chi0_wnk, chi0q_from_g_wk_PH nw nnu fmesh_large kmesh g_wk = Except.ok chi0_wnk ∧
      (∀ g_nr : ℤ → K → matrix2 F nb,
        (∀ n ∈ fmesh_large.points, ∀ r, g_nr n r = gr_from_gk ph g_wk n r) →
        ∀ w ∈ (gf_mesh_imfreq.mk fmesh_large.beta statistic_enum.Boson nw).points,
        ∀ n ∈ (gf_mesh_imfreq.mk fmesh_large.beta statistic_enum.Fermion nnu).points,
        ∀ (q : K) (a b c d : Fin nb),
          chi0_wnk w n q a b c d =
            chi0q_from_chi0r ph slices
              (chi0r_from_gr_PH rslices nw nnu fmesh_large g_nr) w n q a b c d) ∧
      ∀ g_wk1 : ℤ → K → matrix2 F nb,
        (∀ n ∈ fmesh_large.points, ∀ k, g_wk1 n k = g_wk n k) →
        chi0q_from_g_wk_PH nw nnu fmesh_large kmesh g_wk1 = Except.ok chi0_wnk := by
  refine ⟨_, chi0q_from_g_wk_PH_ok nw nnu fmesh_large kmesh g_wk hassert hrange, ?_, ?_⟩
  swap
  · intro g_wk1 h1
    rw [chi0q_from_g_wk_PH_congr nw nnu fmesh_large kmesh g_wk1 g_wk h1]
    exact chi0q_from_g_wk_PH_ok nw nnu fmesh_large kmesh g_wk hassert hrange
  intro g_nr hg w hw n hn q a b c d
  have hl := chi0q_from_g_wk_PH_lookups_mem nw nnu fmesh_large w n hw hn
  rw [foldl_set_slice_wq (fun w q => chi0_n_from_g_wk_PH w q
    (gf_mesh_imfreq.mk fmesh_large.beta statistic_enum.Fermion nnu) kmesh g_wk),
    if_pos ⟨hw, hall q⟩, chi0_n_from_g_wk_PH_apply w q _ kmesh g_wk n hn,
    chi0q_real_space_path_apply ph nw nnu fmesh_large kmesh rslices slices g_wk g_nr hk hall
      hr hs w n q hw hn (hg n (hrange n hl.1)) (hg (n + w) (hrange (n + w) hl.2))]

/-- Worked example for C8: the two-point lattice, a propagator tabulated at the
indices `-4 .. 3`, `nw = 1`, `nnu = 1`, sites and frequency pairs each split over
two execution units. -/
theorem chi0q_path_equivalence_on_table_witness :
    [(0 : Fin 2), 1].Nodup ∧ (∀ k : Fin 2, k ∈ [(0 : Fin 2), 1]) ∧
    mpi_view_of (make_adjoint_mesh [(0 : Fin 2), 1]) [[0], [1]] ∧
    mpi_view_of (List.product
      (gf_mesh_imfreq.mk (gf_mesh_imfreq.mk (3 : ℚ) statistic_enum.Fermion 4).beta
        statistic_enum.Boson 1).points
      (gf_mesh_imfreq.mk (gf_mesh_imfreq.mk (3 : ℚ) statistic_enum.Fermion 4).beta
        statistic_enum.Fermion 1).points) [[(0, -1)], [(0, 0)]] ∧
    chi0q_from_g_wk_PH_asserted 1 (gf_mesh_imfreq.mk (3 : ℚ) statistic_enum.Fermion 4) ∧
    (∀ l ∈ chi0q_from_g_wk_PH_lookups 1 1 (gf_mesh_imfreq.mk (3 : ℚ) statistic_enum.Fermion 4),
      l ∈ (gf_mesh_imfreq.mk (3 : ℚ) statistic_enum.Fermion 4).points) ∧
    ∃ chi0_wnk, chi0q_from_g_wk_PH 1 1 (gf_mesh_imfreq.mk (3 : ℚ) statistic_enum.Fermion 4)
        [(0 : Fin 2), 1] g_wk_example = Except.ok chi0_wnk ∧
      (∀ g_nr : ℤ → Fin 2 → matrix2 ℚ 1,
        (∀ n ∈ (gf_mesh_imfreq.mk (3 : ℚ) statistic_enum.Fermion 4).points, ∀ r,
          g_nr n r = gr_from_gk phase_example g_wk_example n r) →
        ∀ w ∈ (gf_mesh_imfreq.mk (gf_mesh_imfreq.mk (3 : ℚ) statistic_enum.Fermion 4).beta
          statistic_enum.Boson 1).points,
        ∀ n ∈ (gf_mesh_imfreq.mk (gf_mesh_imfreq.mk (3 : ℚ) statistic_enum.Fermion 4).beta
          statistic_enum.Fermion 1).points,
        ∀ (q : Fin 2) (a b c d : Fin 1),
          chi0_wnk w n q a b c d =
            chi0q_from_chi0r phase_example [[(0, -1)], [(0, 0)]]
              (chi0r_from_gr_PH [[0], [1]] 1 1
                (gf_mesh_imfreq.mk (3 : ℚ) statistic_enum.Fermion 4) g_nr) w n q a b c d) ∧
      ∀ g_wk1 : ℤ → Fin 2 → matrix2 ℚ 1,
        (∀ n ∈ (gf_mesh_imfreq.mk (3 : ℚ) statistic_enum.Fermion 4).points, ∀ k,
          g_wk1 n k = g_wk_example n k) →
        chi0q_from_g_wk_PH 1 1 (gf_mesh_imfreq.mk (3 : ℚ) statistic_enum.Fermion 4)
          [(0 : Fin 2), 1] g_wk1 = Except.ok chi0_wnk :=
  ⟨by decide, by decide, by decide, by decide,
    by unfold chi0q_from_g_wk_PH_asserted; decide, by decide,
    chi0q_path_equivalence_on_table phase_example 1 1
      (gf_mesh_imfreq.mk (3 : ℚ) statistic_enum.Fermion 4) [(0 : Fin 2), 1] [[0], [1]]
      [[(0, -1)], [(0, 0)]] g_wk_example (by decide) (by decide) (by decide) (by decide)
      (by unfold chi0q_from_g_wk_PH_asserted; decide) (by decide)⟩

end tprf
